import Mathlib

/-!
# Completion engine of the Slang language server

A shallow embedding of `source/slang/slang-language-server-completion.cpp`
and theorems about the relevance ranker, the candidate collector and the
raw-path completion.

Conventions of the embedding:

* `Index` (the signed machine integer of the source) is `Int`;
* a pointer is modelled by the address it holds (`addr : Nat`), pointer
  equality by equality of addresses, a nullable pointer by `Option`;
* a dynamic class test `as<X>(d)` is the Boolean field `isX` of the node;
* `String` of the source is `String`, accessed through its character list.
-/

namespace Slang

/-! ## AST nodes read by the completion engine -/

/-- A `Type` node of the AST. `addr` is the pointer identity; `declRefDecl` is
`some d` exactly when the node is a `DeclRefType`, `d` being the address of the
declaration `getDeclRef().getDecl()` refers to. -/
structure TypeNode where
  addr : Nat
  declRefDecl : Option Nat := none
deriving DecidableEq, Repr

/-- One `GenericTypeConstraintDecl` of an enclosing generic, as the printer
renders it: the text of `sub`, the flag `isEqualityConstraint`, the text of
`sup`. -/
structure GenericConstraint where
  sub : String
  isEqualityConstraint : Bool
  sup : String
deriving DecidableEq, Repr

/-- The enclosing `GenericDecl` of a declaration (`as<GenericDecl>(declRef.getParent())`):
the text `ASTPrinter::addGenericParams` prints for it and its
`GenericTypeConstraintDecl` members. -/
structure OuterGeneric where
  genericParamsText : String
  constraints : List GenericConstraint
deriving DecidableEq, Repr

/-- A declaration (`Decl`) with the data the completion engine reads from it.
The fields `isX` are the results of the dynamic casts `as<X>(decl)`. -/
structure Decl where
  /-- pointer identity of the declaration -/
  addr : Nat
  /-- text of `getName()`, `none` for a null name -/
  name : Option String
  isGenericDecl : Bool := false
  isTypeConstraintDecl : Bool := false
  isConstructorDecl : Bool := false
  isSubscriptDecl : Bool := false
  isStructDecl : Bool := false
  isClassDecl : Bool := false
  isInterfaceDecl : Bool := false
  isSimpleTypeDecl : Bool := false
  isPropertyDecl : Bool := false
  isEnumDecl : Bool := false
  isVarDeclBase : Bool := false
  isEnumCaseDecl : Bool := false
  isCallableDecl : Bool := false
  isAssocTypeDecl : Bool := false
  isAttributeDecl : Bool := false
  isAggTypeDecl : Bool := false
  /-- the field `type.type` of a `VarDeclBase` -/
  type : Option TypeNode := none
  /-- the field `returnType.type` of a `CallableDecl` -/
  returnType : Option TypeNode := none
  /-- address of `getModule(decl)`, `none` for a null module -/
  module : Option Nat := none
  /-- result of `isFromCoreModule(decl)` -/
  isFromCoreModule : Bool := false
  /-- result of `findModifier<HLSLStaticModifier>()` -/
  hasStaticModifier : Bool := false
  /-- text `ASTPrinter::addType` prints for `returnType` -/
  returnTypeText : String := ""
  /-- the enclosing generic, when the parent of the declaration is one -/
  outerGeneric : Option OuterGeneric := none
  /-- text `ASTPrinter::addDeclParams` prints -/
  declParamsText : String := ""
  /-- `errorType.type` is neither the bottom type nor the error type -/
  hasErrorType : Bool := false
  /-- text `ASTPrinter::addType` prints for `errorType` -/
  errorTypeText : String := ""
deriving DecidableEq, Repr

/-! ## Relevance ranker -/

/-- The lambda `matchType` of `determineCompletionItemSortOrder`.
`expectedDecl` is `expectedType->getDeclRef().getDecl()`. -/
def matchType (itemType : Option TypeNode) (expectedType : TypeNode) (expectedDecl : Nat) :
    Int :=
  match itemType with
  | none => -1
  | some t =>
    if t.addr = expectedType.addr then 1
    else
      match t.declRefDecl with
      | none => -1
      | some d => if d = expectedDecl then 2 else -1

/-- The value of `currentSortOrder` at the end of one iteration of the loop over
the expected types, for an expected type `et` that is a `DeclRefType` referring
to the declaration at address `etDecl`. -/
def currentSortOrder (item : Decl) (et : TypeNode) (etDecl : Nat) : Int :=
  if item.addr = etDecl then
    if item.isEnumDecl then 0
    else if !item.isInterfaceDecl then 1
    else -1
  else if item.isVarDeclBase then matchType item.type et etDecl
  else if item.isCallableDecl then matchType item.returnType et etDecl
  else -1

/-- The loop `for (auto et : expectedTypes)` of `determineCompletionItemSortOrder`,
threading the variable `result`. An entry of the list is a `Type*`: `none` is the
null pointer, for which `as<DeclRefType>` fails as for any node that is not a
`DeclRefType`. -/
def sortOrderLoop (item : Decl) : List (Option TypeNode) → Int → Int
  | [], result => result
  | none :: rest, result => sortOrderLoop item rest result
  | some et :: rest, result =>
    match et.declRefDecl with
    | none => sortOrderLoop item rest result
    | some d =>
      let cur := currentSortOrder item et d
      if result = -1 ∨ (cur ≠ -1 ∧ cur < result) then sortOrderLoop item rest cur
      else sortOrderLoop item rest result

/-- The value of `result` before the module adjustments (`-1` on the early
return for an empty list). -/
def unadjustedSortOrder (item : Decl) (expectedTypes : List (Option TypeNode)) : Int :=
  if expectedTypes.length = 0 then -1 else sortOrderLoop item expectedTypes (-1)

/-- `CompletionContext::determineCompletionItemSortOrder`; `parsedModule` is the
address of the module being edited. -/
def determineCompletionItemSortOrder (parsedModule : Nat) (item : Decl)
    (expectedTypes : List (Option TypeNode)) : Int :=
  if expectedTypes.length = 0 then -1
  else
    let result := sortOrderLoop item expectedTypes (-1)
    let result := if result > 0 ∧ item.module ≠ some parsedModule then result + 1 else result
    let result := if result > 0 ∧ item.isFromCoreModule then result + 1 else result
    result

/-- The sort key built in `collectMembersAndSymbols`:
`StringBuilder() << sortOrder << ":" << getText(member->getName())`. -/
def sortKey (sortOrder : Int) (name : String) : String :=
  toString sortOrder ++ ":" ++ name

/-- The per-type orders of the expected types that are `DeclRefType`s and
produced a match (an order other than `-1`), in list order: the ranks of which
the ranker is said to take the minimum. -/
def matchedOrders (item : Decl) (expectedTypes : List (Option TypeNode)) : List Int :=
  (expectedTypes.filterMap
    (fun et? => et?.bind (fun et =>
      et.declRefDecl.map (fun d => currentSortOrder item et d)))).filter
    (fun r => decide (r ≠ -1))

/-- An entry of the expected-type list is a `DeclRefType`. -/
def isDeclRefType (et : Option TypeNode) : Bool :=
  match et with
  | none => false
  | some t => t.declRefDecl.isSome

/-! ## Protocol items and the request -/

/-- The completion item kinds of the protocol used by the engine
(`LanguageServerProtocol::kCompletionItemKind...`). -/
inductive CompletionItemKind where
  | Keyword | Variable | Method | Struct | Class | Interface | Enum | EnumMember
  | Property | Folder | File
deriving DecidableEq, Repr

/-- `LanguageServerProtocol::CompletionItem`. A string field left untouched is
the empty string, as for a default-constructed `String`. -/
structure CompletionItem where
  label : String
  kind : CompletionItemKind
  detail : String := ""
  data : String := ""
  sortText : String := ""
  commitCharacters : List String := []
deriving DecidableEq, Repr

/-- `CompletionSuggestions::ScopeKind`. -/
inductive ScopeKind where
  | Invalid | Member | Swizzle | Decl | Stmt | Expr | Attribute | HLSLSemantics | Capabilities
deriving DecidableEq, Repr

/-- `CompletionSuggestions::FormatMode`. -/
inductive FormatMode where
  | Name | FullSignature | FuncSignatureWithoutReturnType
deriving DecidableEq, Repr

/-- `CommitCharacterBehavior`. -/
inductive CommitCharacterBehavior where
  | Disabled | MembersOnly | All
deriving DecidableEq, Repr

/-- One entry of `candidateItems`: the declaration `declRef.getDecl()` (`none` for
a null pointer) and, when that declaration is a `GenericDecl`, its field `inner`
(`none` for a null pointer). -/
structure LookupResultItem where
  decl : Option Decl
  inner : Option Decl := none
deriving DecidableEq, Repr

/-- The swizzle base type `swizzleBaseType`, by the first cast of
`createSwizzleCandidates` that succeeds, with the texts `toString()` gives:
the element type of a vector or matrix (`none` for a null element type), the
scalar type itself, the members of a tuple (`getMember(i)`, `none` for null). -/
inductive SwizzleBaseType where
  | VectorExpressionType (elementType : Option String)
  | BasicExpressionType (text : String)
  | MatrixExpressionType (elementType : Option String)
  | TupleType (member : Nat → Option String)
  | Other

/-! ## Syntax nodes read by the expected-type inference -/

/-- The branch of `matchExpr` an expression node takes: the first class of the
chain of casts that the node belongs to. -/
inductive WrapperKind where
  | AppExprBase | OverloadedExpr | PartiallyAppliedGenericExpr
  | ExtractExistentialValueExpr | DeclRefExpr | Other
deriving DecidableEq, Repr

/-- An expression as `matchExpr` reads it: the null pointer, or a node with its
address, its class and the expression it was rewritten from
(`originalFunctionExpr` of an `AppExprBase`, `originalExpr` of the other
wrappers). -/
inductive Expr where
  | null : Expr
  | node (addr : Nat) (kind : WrapperKind) (original : Expr) : Expr
deriving DecidableEq, Repr

/-- A generic value parameter (`GenericValueParamDecl`): `parameterIndex` and
`type.type`. -/
structure GenericValueParam where
  parameterIndex : Int
  type : Option TypeNode
deriving DecidableEq, Repr

/-- A callee declaration: whether it is a `CallableDecl`, the types `getType`
gives for its `ParamDecl` members in order, whether it is a `GenericDecl`, and
the members of the generic that are `GenericValueParamDecl`s, in order. -/
structure CalleeDecl where
  isCallableDecl : Bool := false
  paramTypes : List (Option TypeNode) := []
  isGenericDecl : Bool := false
  genericValueParams : List GenericValueParam := []
deriving DecidableEq, Repr

/-- The `functionExpr` of a call: a `DeclRefExpr` with the declaration its
`declRef` refers to, an `OverloadedExpr` with the declarations of
`lookupResult2`, or another expression. -/
inductive FunctionExpr where
  | DeclRefExpr (decl : Option CalleeDecl)
  | OverloadedExpr (lookupResult2 : List (Option CalleeDecl))
  | Other
deriving DecidableEq, Repr

/-- A node of the ancestor path. The fields other than `addr` are read only when
the node is the parent of the completion node. `type` is `type.type` of an
`ImplicitCastExpr` or of a `VarDeclBase`. -/
structure SyntaxNode where
  addr : Nat
  isImplicitCastExpr : Bool := false
  isAppExprBase : Bool := false
  isInvokeExpr : Bool := false
  isGenericAppExpr : Bool := false
  isVarDeclBase : Bool := false
  arguments : List Expr := []
  type : Option TypeNode := none
  functionExpr : Option FunctionExpr := none
  initExpr : Expr := Expr.null
deriving DecidableEq, Repr

/-- `ASTLookupResult`: the path from the root to the node found. -/
structure ASTLookupResult where
  path : List SyntaxNode
deriving DecidableEq, Repr

/-- `matchExpr`: `exprNode` is the node at address `targetExpr`, or was rewritten
from it. -/
def matchExpr : Expr → Nat → Bool
  | Expr.null, _ => false
  | Expr.node addr kind original, targetExpr =>
    if addr = targetExpr then true
    else
      match kind with
      | WrapperKind.Other => false
      | _ => matchExpr original targetExpr

/-- The lambda `processDeclRefCallee`: the types it adds to `expectedType`. -/
def processDeclRefCallee (callee : Option CalleeDecl) (argIndex : Nat) :
    List (Option TypeNode) :=
  match callee with
  | none => []
  | some decl =>
    if decl.isCallableDecl then
      match decl.paramTypes.get? argIndex with
      | some t => [t]
      | none => []
    else []

/-- The loop over the members of the generic in `collectArgumentType`: the type of
the first `GenericValueParamDecl` whose `parameterIndex` is `argIndex`. -/
def findGenericValueParam : List GenericValueParam → Nat → List (Option TypeNode)
  | [], _ => []
  | p :: rest, argIndex =>
    if p.parameterIndex = (argIndex : Int) then [p.type]
    else findGenericValueParam rest argIndex

/-- The lambda `collectArgumentType`: the types it adds to `expectedType`. -/
def collectArgumentType (appExpr : SyntaxNode) (argIndex : Nat) : List (Option TypeNode) :=
  match appExpr.functionExpr with
  | none => []
  | some functionExpr =>
    if appExpr.isInvokeExpr then
      match functionExpr with
      | FunctionExpr.DeclRefExpr decl => processDeclRefCallee decl argIndex
      | FunctionExpr.OverloadedExpr lookupResult2 =>
        (lookupResult2.map (fun callee => processDeclRefCallee callee argIndex)).flatten
      | FunctionExpr.Other => []
    else if appExpr.isGenericAppExpr then
      match functionExpr with
      | FunctionExpr.DeclRefExpr (some decl) =>
        if decl.isGenericDecl then findGenericValueParam decl.genericValueParams argIndex
        else []
      | _ => []
    else []

/-- The loop over the arguments of the parent call: the index of the first
argument that matches the completion node, counted from `i`. -/
def findMatchingArgument : List Expr → Nat → Nat → Option Nat
  | [], _, _ => none
  | arg :: rest, i, target =>
    if matchExpr arg target then some i else findMatchingArgument rest (i + 1) target

/-- `CompletionContext::getExpectedTypesAtCompletion`. -/
def getExpectedTypesAtCompletion (astNodes : List ASTLookupResult) : List (Option TypeNode) :=
  match astNodes with
  | [] => []
  | first :: _ =>
    match first.path.reverse with
    | completionExprNode :: parentNode :: _ =>
      if parentNode.isImplicitCastExpr then
        match parentNode.arguments with
        | [arg] =>
          if matchExpr arg completionExprNode.addr then
            if isDeclRefType parentNode.type then [parentNode.type] else []
          else []
        | _ => []
      else if parentNode.isAppExprBase then
        match findMatchingArgument parentNode.arguments 0 completionExprNode.addr with
        | some i => collectArgumentType parentNode i
        | none => []
      else if parentNode.isVarDeclBase then
        if !matchExpr parentNode.initExpr completionExprNode.addr then []
        else if isDeclRefType parentNode.type then [parentNode.type]
        else []
      else []
    | _ => []

/-! ## Declaration renderer -/

/-- `getText(Name*)`: the text of a name, empty for a null name. -/
def getText (name : Option String) : String :=
  match name with
  | some text => text
  | none => ""

/-- The `where` clauses `formatDeclForCompletion` prints for the constraints of
the enclosing generic; `indent` is the member `indent` of the context. -/
def formatConstraints (indent : String) : List GenericConstraint → String
  | [] => ""
  | c :: rest =>
    "\n" ++ (if indent.data.head? = some '\t' then "\t" else "    ") ++ "where " ++ c.sub ++
      (if c.isEqualityConstraint then " == " else " : ") ++ c.sup ++
      formatConstraints indent rest

/-- `CompletionContext::formatDeclForCompletion`: the rendered text and
`outNameStart`. `decl` is `declRef.getDecl()` and `inner` the field `inner` of
`decl` when it is a `GenericDecl`. -/
def formatDeclForCompletion (decl : Decl) (inner : Option Decl) (formatMode : FormatMode)
    (indent : String) : String × Int :=
  match formatMode with
  | FormatMode.Name => (getText decl.name, 0)
  | _ =>
    let declRef : Option Decl := if decl.isGenericDecl then inner else some decl
    match declRef with
    | none => ("", 0)
    | some callableDecl =>
      if !callableDecl.isCallableDecl then ("", 0)
      else
        let head :=
          if formatMode = FormatMode.FullSignature then callableDecl.returnTypeText ++ " "
          else ""
        let outNameStart : Int := head.length
        let text := head ++ getText callableDecl.name
        let text :=
          match callableDecl.outerGeneric with
          | some g => text ++ g.genericParamsText
          | none => text
        let text := text ++ callableDecl.declParamsText
        let text :=
          if callableDecl.hasErrorType then text ++ " throws " ++ callableDecl.errorTypeText
          else text
        let text :=
          match callableDecl.outerGeneric with
          | some g => text ++ formatConstraints indent g.constraints
          | none => text
        (text, outNameStart)

/-! ## Context-specific generators -/

/-- The cast `(int)` of a 64-bit value: reduction to the signed 32-bit range. -/
def castInt32 (x : Int) : Int :=
  (x + 2147483648) % 4294967296 - 2147483648

/-- `Math::Min`. -/
def mathMin (a b : Int) : Int := if a < b then a else b

/-- The swizzle item all branches of `createSwizzleCandidates` build: `data = 0`,
kind Variable. -/
def swizzleItem (label : String) (detail : String) : CompletionItem :=
  { label := label, kind := CompletionItemKind.Variable, detail := detail, data := "0" }

/-- The inner loop over the columns of a matrix in `createSwizzleCandidates`, for
row `i` and the columns `j` of the list. -/
def matrixRowItems (typeStr : String) (i : Nat) : List Nat → List CompletionItem
  | [] => []
  | j :: rest =>
    swizzleItem ("_m" ++ toString i ++ toString j) typeStr ::
      swizzleItem ("_" ++ toString (i + 1) ++ toString (j + 1)) typeStr ::
      matrixRowItems typeStr i rest

/-- `CompletionContext::createSwizzleCandidates`: the items it appends to
`result`. -/
def createSwizzleCandidates (type : SwizzleBaseType) (elementCount : Int × Int) :
    List CompletionItem :=
  match type with
  | SwizzleBaseType.VectorExpressionType elementType =>
    let typeStr := getText elementType
    let count := mathMin (castInt32 elementCount.1) 4
    (["x", "y", "z", "w"].take count.toNat).map (fun name => swizzleItem name typeStr)
  | SwizzleBaseType.BasicExpressionType text => [swizzleItem "x" text]
  | SwizzleBaseType.MatrixExpressionType elementType =>
    let typeStr := getText elementType
    let rowCount := mathMin (castInt32 elementCount.1) 4
    let colCount := mathMin (castInt32 elementCount.2) 4
    ((List.range rowCount.toNat).map
      (fun i => matrixRowItems typeStr i (List.range colCount.toNat))).flatten
  | SwizzleBaseType.TupleType member =>
    let count := mathMin (castInt32 elementCount.1) 4
    (List.range count.toNat).map
      (fun i => swizzleItem ("_" ++ toString i) (getText (member i)))
  | SwizzleBaseType.Other => []

/-- `CompletionContext::createCapabilityCandidates`; `names` is what
`getCapabilityNames` returns. -/
def createCapabilityCandidates (names : List String) : List CompletionItem :=
  ((names.drop 1).filter (fun name => name.data.head? ≠ some '_')).map
    (fun name =>
      { label := name, kind := CompletionItemKind.EnumMember, data := "0" : CompletionItem })

/-! ## Keyword tables -/

/-- The table `kDeclKeywords`. -/
def kDeclKeywords : List String :=
  ["throws", "static", "const", "in", "out", "inout",
   "ref", "__subscript", "__init", "property", "get", "set",
   "class", "struct", "interface", "public", "private", "internal",
   "protected", "typedef", "typealias", "uniform", "export", "groupshared",
   "extension", "associatedtype", "namespace", "This", "using", "__generic",
   "__exported", "import", "enum", "cbuffer", "tbuffer", "func",
   "functype", "typename", "each", "expand", "where", "override"]

/-- The table `kStmtKeywords`. -/
def kStmtKeywords : List String :=
  ["if", "else", "switch", "case", "default", "return", "try", "throw", "throws", "catch",
   "while", "for", "do", "static", "const", "in", "out", "inout", "ref", "__subscript",
   "__init", "property", "get", "set", "class", "struct", "interface", "public", "private",
   "internal", "protected", "typedef", "typealias", "uniform", "export", "groupshared",
   "extension", "associatedtype", "this", "namespace", "This", "using", "__generic",
   "__exported", "import", "enum", "break", "continue", "discard", "defer", "cbuffer",
   "tbuffer", "func", "is", "as", "nullptr", "none", "true", "false", "functype", "sizeof",
   "alignof", "__target_switch", "__intrinsic_asm", "each", "expand"]

/-! ## Candidate collector -/

/-- What `collectMembersAndSymbols` reads from the context and the linkage.
`isIdentifierChar` stands for `_isIdentifierChar`, `commitChars` for
`getCommitChars()`, `capabilityNames` for the list `getCapabilityNames` fills,
`lookupResults` for the result of `findASTNodesAt` at the cursor;
`currentPartialDecl` is `none` for a null pointer and otherwise tells whether the
partial declaration has the modifier `HLSLStaticModifier`; an entry of
`macroDefinitions` is the text of the name of a definition, `none` for a null
name. -/
structure CompletionContext where
  scopeKind : ScopeKind
  formatMode : FormatMode
  candidateItems : List LookupResultItem
  swizzleBaseType : SwizzleBaseType := SwizzleBaseType.Other
  elementCount : Int × Int := (0, 0)
  currentPartialDecl : Option Bool := none
  macroDefinitions : List (Option String) := []
  commitCharacterBehavior : CommitCharacterBehavior := CommitCharacterBehavior.Disabled
  commitChars : List String := []
  capabilityNames : List String := []
  lookupResults : List ASTLookupResult := []
  parsedModule : Nat := 0
  indent : String := ""
  isIdentifierChar : Char → Bool

/-- The items one iteration of the loop over `candidateItems` adds to `result`,
in the order of the three calls of `result.add`: the item of the keyword
`static`, the item of the candidate, the item of its return type. -/
structure CandidateOutput where
  staticItem : Option CompletionItem := none
  item : Option CompletionItem := none
  typeItem : Option CompletionItem := none
deriving DecidableEq, Repr

/-- The items of one iteration, in the order they are added. -/
def CandidateOutput.items (o : CandidateOutput) : List CompletionItem :=
  o.staticItem.toList ++ o.item.toList ++ o.typeItem.toList

/-- The chain of casts that sets `item.kind` for a candidate. -/
def classifyKind (member : Decl) : CompletionItemKind :=
  if member.isStructDecl then CompletionItemKind.Struct
  else if member.isClassDecl then CompletionItemKind.Class
  else if member.isInterfaceDecl then CompletionItemKind.Interface
  else if member.isSimpleTypeDecl then CompletionItemKind.Class
  else if member.isPropertyDecl then CompletionItemKind.Property
  else if member.isEnumDecl then CompletionItemKind.Enum
  else if member.isVarDeclBase then CompletionItemKind.Variable
  else if member.isEnumCaseDecl then CompletionItemKind.EnumMember
  else if member.isCallableDecl then CompletionItemKind.Method
  else if member.isAssocTypeDecl then CompletionItemKind.Class
  else CompletionItemKind.Keyword

/-- The variable `member` of the loop body: the declaration of the candidate, or
the inner declaration when that is a `GenericDecl`; `none` for a null pointer. -/
def candidateMember (suggestedItem : LookupResultItem) : Option Decl :=
  match suggestedItem.decl with
  | some d => if d.isGenericDecl then suggestedItem.inner else some d
  | none => none

/-- `HashSet<String>::add` on the set of used labels, kept as a list: `none` when
the label is already present, the extended set otherwise. -/
def deduplicateAdd (deduplicateSet : List String) (label : String) : Option (List String) :=
  if label ∈ deduplicateSet then none else some (label :: deduplicateSet)

/-- The item of the keyword `static`. -/
def staticKeywordItem : CompletionItem :=
  { label := "static", kind := CompletionItemKind.Keyword, data := "-1" }

/-- The condition under which the loop body puts `static ` before the label and
adds the item of the keyword `static`. -/
def addsStatic (ctx : CompletionContext) (decl : Decl) : Bool :=
  decide (ctx.formatMode = FormatMode.FullSignature) && decl.hasStaticModifier &&
    decide (ctx.currentPartialDecl = some false)

/-- The label of a candidate after the optional prefix `static `. -/
def candidateLabelText (ctx : CompletionContext) (decl : Decl) (inner : Option Decl) : String :=
  if addsStatic ctx decl then
    "static " ++ (formatDeclForCompletion decl inner ctx.formatMode ctx.indent).1
  else (formatDeclForCompletion decl inner ctx.formatMode ctx.indent).1

/-- The variable `nameStart` after the optional prefix `static `. -/
def candidateNameStart (ctx : CompletionContext) (decl : Decl) (inner : Option Decl) : Int :=
  if addsStatic ctx decl then
    (formatDeclForCompletion decl inner ctx.formatMode ctx.indent).2 + 7
  else (formatDeclForCompletion decl inner ctx.formatMode ctx.indent).2

/-- The checks between the handling of `static` and the check against the set of
used labels: each of them skips the candidate. -/
def skipsCandidate (ctx : CompletionContext) (member : Decl) (label : String) : Bool :=
  member.isTypeConstraintDecl || member.isConstructorDecl || member.isSubscriptDecl ||
    decide (label.length = 0) ||
    !(match label.data.head? with
      | some c => ctx.isIdentifierChar c
      | none => false) ||
    decide (label.data.head? = some '$')

/-- The item of a candidate that passed all checks, as added to `result`. -/
def candidateItem (ctx : CompletionContext) (expectedTypes : List (Option TypeNode)) (i : Nat)
    (member : Decl) (label : String) : CompletionItem :=
  { label := label
    kind := classifyKind member
    data := toString i
    sortText :=
      if determineCompletionItemSortOrder ctx.parsedModule member expectedTypes ≠ -1 then
        sortKey (determineCompletionItemSortOrder ctx.parsedModule member expectedTypes)
          (getText member.name)
      else "" }

/-- The second item of a candidate, for the text before the name, added when
`nameStart > 1`. -/
def returnTypeItem (ctx : CompletionContext) (item : CompletionItem) (nameStart : Int) :
    Option CompletionItem :=
  if nameStart > 1 then
    some { item with
      label := String.mk (item.label.data.take (nameStart - 1).toNat)
      kind := CompletionItemKind.Struct
      sortText := toString ctx.candidateItems.length ++ ":" ++
        String.mk (item.label.data.take (nameStart - 1).toNat) }
  else none

/-- The body of the loop over `candidateItems` in `collectMembersAndSymbols` for
the candidate at index `i`: the items added and the set of used labels after the
iteration. -/
def processCandidate (ctx : CompletionContext) (expectedTypes : List (Option TypeNode))
    (deduplicateSet : List String) (i : Nat) (suggestedItem : LookupResultItem) :
    CandidateOutput × List String :=
  match suggestedItem.decl, candidateMember suggestedItem with
  | some decl, some member =>
    if member.name.isNone then ({}, deduplicateSet)
    else if (formatDeclForCompletion decl suggestedItem.inner ctx.formatMode
        ctx.indent).1.length = 0 then ({}, deduplicateSet)
    else
      let label := candidateLabelText ctx decl suggestedItem.inner
      let nameStart := candidateNameStart ctx decl suggestedItem.inner
      let staticItem := if addsStatic ctx decl then some staticKeywordItem else none
      if skipsCandidate ctx member label then ({ staticItem := staticItem }, deduplicateSet)
      else
        match deduplicateAdd deduplicateSet label with
        | none => ({ staticItem := staticItem }, deduplicateSet)
        | some deduplicateSet' =>
          let item := candidateItem ctx expectedTypes i member label
          ({ staticItem := staticItem, item := some item,
             typeItem := returnTypeItem ctx item nameStart }, deduplicateSet')
  | _, _ => ({}, deduplicateSet)

/-- The loop over `candidateItems`, from index `i` on: the outputs of the
iterations in order and the final set of used labels. -/
def candidateLoop (ctx : CompletionContext) (expectedTypes : List (Option TypeNode)) :
    List LookupResultItem → Nat → List String → List CandidateOutput × List String
  | [], _, deduplicateSet => ([], deduplicateSet)
  | suggestedItem :: rest, i, deduplicateSet =>
    let step := processCandidate ctx expectedTypes deduplicateSet i suggestedItem
    let tail := candidateLoop ctx expectedTypes rest (i + 1) step.2
    (step.1 :: tail.1, tail.2)

/-- A keyword or macro item: kind Keyword and the data `"-1"`. -/
def keywordItem (label : String) : CompletionItem :=
  { label := label, kind := CompletionItemKind.Keyword, data := "-1" }

/-- The loops that append a keyword table: each entry not yet in the set of used
labels gives an item and enters the set. -/
def keywordLoop : List String → List String → List CompletionItem × List String
  | [], deduplicateSet => ([], deduplicateSet)
  | keyword :: rest, deduplicateSet =>
    match deduplicateAdd deduplicateSet keyword with
    | none => keywordLoop rest deduplicateSet
    | some deduplicateSet' =>
      let tail := keywordLoop rest deduplicateSet'
      (keywordItem keyword :: tail.1, tail.2)

/-- The loop over `macroDefinitions`: definitions with a null name are skipped,
the others are handled as keywords. -/
def macroLoop (macroDefinitions : List (Option String)) (deduplicateSet : List String) :
    List CompletionItem × List String :=
  keywordLoop (macroDefinitions.filterMap id) deduplicateSet

/-- The final loop that adds the commit characters to every item. -/
def addCommitChars (commitChars : List String) (result : List CompletionItem) :
    List CompletionItem :=
  result.map (fun item => { item with commitCharacters := item.commitCharacters ++ commitChars })

/-- The outputs of the loop over `candidateItems` as `collectMembersAndSymbols`
runs it: with the expected types inferred at the cursor and an empty set of used
labels. -/
def candidateOutputs (ctx : CompletionContext) : List CandidateOutput :=
  (candidateLoop ctx (getExpectedTypesAtCompletion ctx.lookupResults)
    ctx.candidateItems 0 []).1

/-- The value of `useCommitChars` after the switch on the scope kind (its initial
value `true` in the scopes for which the switch returns). -/
def useCommitChars (ctx : CompletionContext) : Bool :=
  match ctx.scopeKind with
  | ScopeKind.Member | ScopeKind.Swizzle =>
    decide (ctx.commitCharacterBehavior = CommitCharacterBehavior.MembersOnly) ||
      decide (ctx.commitCharacterBehavior = CommitCharacterBehavior.All)
  | ScopeKind.Expr | ScopeKind.Decl | ScopeKind.Stmt =>
    decide (ctx.commitCharacterBehavior = CommitCharacterBehavior.All)
  | _ => true

/-- The value of `addKeywords` after the switches on the scope kind and on the
format mode. -/
def addKeywords (ctx : CompletionContext) : Bool :=
  match ctx.scopeKind with
  | ScopeKind.Expr | ScopeKind.Decl | ScopeKind.Stmt =>
    (match ctx.formatMode with
     | FormatMode.FullSignature | FormatMode.FuncSignatureWithoutReturnType => false
     | FormatMode.Name => true)
  | _ => false

/-- The scope kinds of the `default` case of the switch, which returns `result`
before the loop over the candidates. -/
def returnsBeforeLoop (scopeKind : ScopeKind) : Bool :=
  match scopeKind with
  | ScopeKind.Member | ScopeKind.Swizzle | ScopeKind.Expr | ScopeKind.Decl
  | ScopeKind.Stmt => false
  | _ => true

/-- `CompletionContext::collectMembersAndSymbols`. -/
def collectMembersAndSymbols (ctx : CompletionContext) : List CompletionItem :=
  if ctx.scopeKind = ScopeKind.Capabilities then createCapabilityCandidates ctx.capabilityNames
  else
    let result : List CompletionItem :=
      if ctx.scopeKind = ScopeKind.Swizzle then
        createSwizzleCandidates ctx.swizzleBaseType ctx.elementCount
      else []
    if returnsBeforeLoop ctx.scopeKind then result
    else
      let expectedTypes := getExpectedTypesAtCompletion ctx.lookupResults
      let loop := candidateLoop ctx expectedTypes ctx.candidateItems 0 []
      let result := result ++ (loop.1.map CandidateOutput.items).flatten
      let result :=
        if addKeywords ctx then
          let keywords :=
            keywordLoop
              (if ctx.scopeKind = ScopeKind.Decl then kDeclKeywords else kStmtKeywords) loop.2
          let macros := macroLoop ctx.macroDefinitions keywords.2
          result ++ keywords.1 ++ macros.1
        else result
      if useCommitChars ctx then addCommitChars ctx.commitChars result else result

/-- The part of the loop body that decides, before the check against the set of
used labels, whether a candidate can give an item: the label it would carry, or
`none` when the candidate is skipped for another reason than a used label. -/
def candidateLabel (ctx : CompletionContext) (suggestedItem : LookupResultItem) :
    Option String :=
  match suggestedItem.decl, candidateMember suggestedItem with
  | some decl, some member =>
    if member.name.isNone then none
    else if (formatDeclForCompletion decl suggestedItem.inner ctx.formatMode
        ctx.indent).1.length = 0 then none
    else if skipsCandidate ctx member (candidateLabelText ctx decl suggestedItem.inner) then none
    else some (candidateLabelText ctx decl suggestedItem.inner)
  | _, _ => none

/-- An item without its commit characters. -/
def withoutCommitChars (item : CompletionItem) : CompletionItem :=
  { item with commitCharacters := [] }

/-! ## Path and module completion -/

/-- How a completion strategy ends without a result: `notApplicable` is the
`SLANG_FAIL` of the source; `outOfBounds` marks an access outside the line or a
slice outside it, which the source does not define; `outOfFuel` marks a scanning
loop that did not stop within the iterations granted to it. -/
inductive Failure where
  | notApplicable | outOfBounds | outOfFuel
deriving DecidableEq, Repr

/-- The access `lineContent[k]`. -/
def charAt (s : List Char) (k : Int) : Except Failure Char :=
  if k < 0 then Except.error Failure.outOfBounds
  else
    match s.get? k.toNat with
    | some c => Except.ok c
    | none => Except.error Failure.outOfBounds

/-- `UnownedStringSlice::subString(idx, len)`: the `len` characters from `idx`. -/
def subString (s : List Char) (idx len : Int) : Except Failure (List Char) :=
  if idx < 0 ∨ len < 0 ∨ idx + len > s.length then Except.error Failure.outOfBounds
  else Except.ok ((s.drop idx.toNat).take len.toNat)

/-- The loops of the form `while (pos < length && !stop(lineContent[pos])) pos++`:
the final value of `pos`. -/
def scanForward (stop : Char → Bool) (s : List Char) : Nat → Int → Except Failure Int
  | 0, _ => Except.error Failure.outOfFuel
  | fuel + 1, pos =>
    if pos < s.length then
      match charAt s pos with
      | Except.error e => Except.error e
      | Except.ok c => if stop c then Except.ok pos else scanForward stop s fuel (pos + 1)
    else Except.ok pos

/-- The loop of `tryCompleteRawFileName` that moves `lastPos` back to the last
path separator at or after `pos`, failing on a quote or `>`. -/
def scanBackToSeparator (s : List Char) : Nat → Int → Int → Except Failure Int
  | 0, _, _ => Except.error Failure.outOfFuel
  | fuel + 1, pos, lastPos =>
    if lastPos ≥ pos then
      match charAt s lastPos with
      | Except.error e => Except.error e
      | Except.ok c =>
        if c = '/' ∨ c = '\\' then Except.ok lastPos
        else if c = '\"' ∨ c = '>' then Except.error Failure.notApplicable
        else scanBackToSeparator s fuel pos (lastPos - 1)
    else Except.ok lastPos

/-- `SlangPathType` of an enumerated entry. -/
inductive PathType where
  | Directory | File
deriving DecidableEq, Repr

/-- The range and the text of a `TextEdit`. -/
structure TextEdit where
  startLine : Int := 0
  startCharacter : Int := 0
  endLine : Int := 0
  endCharacter : Int := 0
  newText : String := ""
deriving DecidableEq, Repr

/-- `LanguageServerProtocol::TextEditCompletionItem`. -/
structure TextEditCompletionItem where
  label : String
  kind : CompletionItemKind
  detail : String := ""
  textEdit : TextEdit := {}
  commitCharacters : List String := []
deriving DecidableEq, Repr

/-- The numeric value of a completion item kind in the protocol, as
`String(item.kind)` prints it. -/
def CompletionItemKind.code : CompletionItemKind → Nat
  | CompletionItemKind.Method => 2
  | CompletionItemKind.Variable => 6
  | CompletionItemKind.Class => 7
  | CompletionItemKind.Interface => 8
  | CompletionItemKind.Property => 10
  | CompletionItemKind.Enum => 13
  | CompletionItemKind.Keyword => 14
  | CompletionItemKind.File => 17
  | CompletionItemKind.Folder => 19
  | CompletionItemKind.EnumMember => 20
  | CompletionItemKind.Struct => 22

/-- What path completion reads from the workspace, the file system and the
clock, and the cursor. `getCanonical` stands for `Path::getCanonical`, `combine`
for `Path::combine`, `pathDelimiter` for `Path::kOSCanonicalPathDelimiter`;
`enumeratePathContents path` lists the entries for which the callback is called,
in order; `elapsedTime k` is the number of milliseconds the `k`-th reading of the
clock finds elapsed since `startTime`. `line` and `col` are the one-based
position of the cursor. -/
structure PathContext where
  line : Int
  col : Int
  rootDirectories : List String := []
  additionalSearchPaths : List String := []
  searchInWorkspace : Bool := false
  workspaceSearchPaths : List String := []
  commitCharacterBehavior : CommitCharacterBehavior := CommitCharacterBehavior.Disabled
  commitChars : List String := []
  pathDelimiter : Char := '/'
  getCanonical : String → String := id
  combine : String → String → String := fun a b => a ++ "/" ++ b
  enumeratePathContents : String → List (PathType × String) := fun _ => []
  elapsedTime : Nat → Int := fun _ => 0

/-- Lower case of an ASCII letter (`CharUtil::toLower`). -/
def toLowerAscii (c : Char) : Char := c.toLower

/-- `startsWithCaseInsensitive` on character lists. -/
def startsWithCaseInsensitive (s p : List Char) : Bool :=
  decide (p.length ≤ s.length) && decide ((s.take p.length).map toLowerAscii = p.map toLowerAscii)

/-- `endsWithCaseInsensitive` on character lists. -/
def endsWithCaseInsensitive (s p : List Char) : Bool :=
  decide (p.length ≤ s.length) &&
    decide ((s.drop (s.length - p.length)).map toLowerAscii = p.map toLowerAscii)

/-- The loop at the head of `gatherFileAndModuleCompletionItems` that removes the
leading `..` segments of the path typed so far. -/
def stripParentSegments : Nat → List Char → List Char
  | 0, s => s
  | fuel + 1, s =>
    match s with
    | '.' :: '.' :: rest =>
      match rest with
      | '/' :: rest' => stripParentSegments fuel rest'
      | '\\' :: rest' => stripParentSegments fuel rest'
      | _ => stripParentSegments fuel rest
    | _ => s

/-- The state the enumeration callback works on: `items` and `itemSet` of the
`FileEnumerationContext`. -/
structure EnumerationState where
  items : List TextEditCompletionItem := []
  itemSet : List String := []
deriving DecidableEq, Repr

/-- The loop of the callback over the characters of a file name: the label built
in `nameSB`, or `none` when the entry is dropped on a `.`. -/
def translateFileName (translateModuleName : Bool) : List Char → Option (List Char)
  | [] => some []
  | ch :: rest =>
    if translateModuleName then
      if ch = '-' then (translateFileName translateModuleName rest).map (fun r => '_' :: r)
      else if ch = '.' then none
      else (translateFileName translateModuleName rest).map (fun r => ch :: r)
    else (translateFileName translateModuleName rest).map (fun r => ch :: r)

/-- The label and kind the callback computes for an entry, `none` when the
callback returns before the item is complete. -/
def entryLabel (translateModuleName isImportString : Bool) (pathType : PathType)
    (name : String) : Option (String × CompletionItemKind) :=
  match pathType with
  | PathType.Directory =>
    if '.' ∈ name.data then none else some (name, CompletionItemKind.Folder)
  | PathType.File =>
    if (isImportString || translateModuleName) &&
        !endsWithCaseInsensitive name.data ".slang".data then none
    else
      let fileName :=
        if translateModuleName || isImportString then name.data.take (name.data.length - 6)
        else name.data
      match translateFileName translateModuleName fileName with
      | none => none
      | some label => some (String.mk label, CompletionItemKind.File)

/-- The enumeration callback of `addCandidate`, for one entry of the directory
`path` (already canonical in `context.path`). -/
def enumerationCallback (env : PathContext) (workspaceRoot : String)
    (translateModuleName isImportString : Bool) (path : String) (st : EnumerationState)
    (entry : PathType × String) : EnumerationState :=
  match entryLabel translateModuleName isImportString entry.1 entry.2 with
  | none => st
  | some (label, kind) =>
    if label.length = 0 then st
    else
      let key := toString kind.code ++ label
      if key ∈ st.itemSet then st
      else
        let detail := env.getCanonical (env.combine path entry.2)
        let detail :=
          if startsWithCaseInsensitive detail.data workspaceRoot.data then
            String.mk (detail.data.drop workspaceRoot.length)
          else detail
        { items := st.items ++ [{ label := label, kind := kind, detail := detail }]
          itemSet := key :: st.itemSet }

/-- The lambda `addCandidate` for one search path. -/
def addCandidate (env : PathContext) (workspaceRoot : String) (realPfx : List Char)
    (translateModuleName isImportString : Bool) (st : EnumerationState) (path : String) :
    EnumerationState :=
  if endsWithCaseInsensitive path.data realPfx then
    (env.enumeratePathContents path).foldl
      (enumerationCallback env workspaceRoot translateModuleName isImportString
        (env.getCanonical path)) st
  else st

/-- The state of the scan of the search roots: the enumeration state, the number
of readings of the clock made so far, and the flag `isIncomplete`. -/
structure ScanState where
  enumeration : EnumerationState := {}
  clockReadings : Nat := 0
  isIncomplete : Bool := false
deriving DecidableEq, Repr

/-- One of the two loops over search paths: before each path the clock is read,
and the loop stops with `isIncomplete` set when more than 200 ms have elapsed. -/
def scanSearchPaths (env : PathContext) (workspaceRoot : String) (realPfx : List Char)
    (translateModuleName isImportString : Bool) : List String → ScanState → ScanState
  | [], st => st
  | searchPath :: rest, st =>
    if env.elapsedTime st.clockReadings > 200 then
      { st with clockReadings := st.clockReadings + 1, isIncomplete := true }
    else
      scanSearchPaths env workspaceRoot realPfx translateModuleName isImportString rest
        { st with
          clockReadings := st.clockReadings + 1
          enumeration :=
            addCandidate env workspaceRoot realPfx translateModuleName isImportString
              st.enumeration searchPath }

/-- The value of `context.workspaceRoot`: the first root directory, closed by the
path delimiter. -/
def workspaceRootOf (env : PathContext) : String :=
  match env.rootDirectories with
  | [] => ""
  | root :: _ =>
    if root.length ≠ 0 ∧ root.data.getLast? ≠ some env.pathDelimiter then
      root ++ String.mk [env.pathDelimiter]
    else root

/-- The scan of all search roots in `gatherFileAndModuleCompletionItems`: the
explicit search paths, then the workspace search paths when `searchInWorkspace`
is set. -/
def scanAllSearchPaths (env : PathContext) (pfxPath : String)
    (translateModuleName isImportString : Bool) : ScanState :=
  let realPfx := stripParentSegments pfxPath.length pfxPath.data
  let workspaceRoot := workspaceRootOf env
  let st := scanSearchPaths env workspaceRoot realPfx translateModuleName isImportString
    env.additionalSearchPaths {}
  if env.searchInWorkspace then
    scanSearchPaths env workspaceRoot realPfx translateModuleName isImportString
      env.workspaceSearchPaths st
  else st

/-- The loop of `gatherFileAndModuleCompletionItems` that fills in the text edit
of an item. -/
def setTextEdit (translateModuleName : Bool) (lineIndex fileNameEnd sectionStart sectionEnd : Int)
    (closingChar : Option Char) (item : TextEditCompletionItem) : TextEditCompletionItem :=
  if !translateModuleName && decide (item.kind = CompletionItemKind.File) then
    { item with
      textEdit :=
        { startLine := castInt32 lineIndex
          endLine := castInt32 lineIndex
          startCharacter := castInt32 sectionStart
          endCharacter := castInt32 fileNameEnd
          newText :=
            match closingChar with
            | some c => item.label ++ String.mk [c]
            | none => item.label } }
  else
    { item with
      textEdit :=
        { startLine := castInt32 lineIndex
          endLine := castInt32 lineIndex
          startCharacter := castInt32 sectionStart
          endCharacter := castInt32 sectionEnd
          newText := item.label } }

/-- `CompletionContext::gatherFileAndModuleCompletionItems`; `closingChar` is
`none` for the character 0. -/
def gatherFileAndModuleCompletionItems (env : PathContext) (pfxPath : String)
    (translateModuleName isImportString : Bool)
    (lineIndex fileNameEnd sectionStart sectionEnd : Int) (closingChar : Option Char) :
    List TextEditCompletionItem :=
  let scan := scanAllSearchPaths env pfxPath translateModuleName isImportString
  let items := scan.enumeration.items.map
    (setTextEdit translateModuleName lineIndex fileNameEnd sectionStart sectionEnd closingChar)
  if !scan.isIncomplete && translateModuleName &&
      decide (env.commitCharacterBehavior ≠ CommitCharacterBehavior.Disabled) then
    items.map (fun item =>
      { item with commitCharacters := item.commitCharacters ++ env.commitChars })
  else items

/-- The arguments `tryCompleteRawFileName` passes to
`gatherFileAndModuleCompletionItems`. -/
structure RawFileNameArguments where
  pfxPath : String
  lineIndex : Int
  fileNameEnd : Int
  sectionStart : Int
  sectionEnd : Int
  closingChar : Char
deriving DecidableEq, Repr

/-- A path separator of either style. -/
def isPathSeparator (c : Char) : Bool := c = '/' || c = '\\'

/-- The characters at which the scan for `sectionEnd` stops in a raw path. -/
def endsRawSection (c : Char) : Bool := c = '\"' || c = '>' || c = '/' || c = '\\'

/-- The part of `tryCompleteRawFileName` before the call of
`gatherFileAndModuleCompletionItems`: the arguments of that call. -/
def rawFileNameArguments (env : PathContext) (lineContent : List Char) (pos : Int) :
    Except Failure RawFileNameArguments :=
  match scanForward (fun c => c = '\"' || c = '<') lineContent (lineContent.length + 1) pos with
  | Except.error e => Except.error e
  | Except.ok openPos =>
    match (if openPos < lineContent.length then charAt lineContent openPos
           else Except.ok '\"') with
    | Except.error e => Except.error e
    | Except.ok openChar =>
      let closingChar := if openPos < lineContent.length ∧ openChar = '<' then '>' else '\"'
      let pos := openPos + 1
      if env.col - 2 < 0 then Except.error Failure.notApplicable
      else
        match scanBackToSeparator lineContent (lineContent.length + 1) pos (env.col - 2) with
        | Except.error e => Except.error e
        | Except.ok lastPos =>
          if env.col - 1 < 0 then Except.error Failure.notApplicable
          else
            match scanForward endsRawSection lineContent (lineContent.length + 1)
                (env.col - 1) with
            | Except.error e => Except.error e
            | Except.ok sectionEnd =>
              match scanForward (fun c => c = ';') lineContent (lineContent.length + 1)
                  sectionEnd with
              | Except.error e => Except.error e
              | Except.ok fileNameEnd =>
                match (if lastPos > pos then subString lineContent pos (lastPos - pos)
                       else Except.ok []) with
                | Except.error e => Except.error e
                | Except.ok pfxSlice =>
                  Except.ok
                    { pfxPath := String.mk (pfxSlice.map
                        (fun ch => if isPathSeparator ch then env.pathDelimiter else ch))
                      lineIndex := env.line - 1
                      fileNameEnd := fileNameEnd
                      sectionStart := lastPos + 1
                      sectionEnd := sectionEnd
                      closingChar := closingChar }

/-- `CompletionContext::tryCompleteRawFileName`. -/
def tryCompleteRawFileName (env : PathContext) (lineContent : List Char) (pos : Int)
    (isImportString : Bool) : Except Failure (List TextEditCompletionItem) :=
  match rawFileNameArguments env lineContent pos with
  | Except.error e => Except.error e
  | Except.ok a =>
    Except.ok (gatherFileAndModuleCompletionItems env a.pfxPath false isImportString
      a.lineIndex a.fileNameEnd a.sectionStart a.sectionEnd (some a.closingChar))

/-- The first position at or after `start` whose character satisfies `stop`, or
the length of the line when there is none (and `start` itself when `start` is
past the end of the line). -/
def firstStopFrom (stop : Char → Bool) (s : List Char) (start : Nat) : Nat :=
  start + ((s.drop start).takeWhile (fun c => !stop c)).length

/-! ## Module-name completion and the `#include` strategy -/

/-- `UnownedStringSlice::startsWith` on character lists. -/
def startsWith : List Char → List Char → Bool
  | _, [] => true
  | [], _ :: _ => false
  | c :: s, p :: ps => decide (c = p) && startsWith s ps

/-- `UnownedStringSlice::indexOf(slice)` from position `i` on: the first position
at which `pat` occurs, `-1` when it does not occur. -/
def indexOfFrom (pat : List Char) : List Char → Nat → Int
  | [], i => if pat = [] then (i : Int) else -1
  | c :: rest, i =>
    if startsWith (c :: rest) pat then (i : Int) else indexOfFrom pat rest (i + 1)

/-- `UnownedStringSlice::indexOf(slice)`. -/
def indexOf (s pat : List Char) : Int := indexOfFrom pat s 0

/-- `UnownedStringSlice::trim()`, with the whitespace test as a parameter. -/
def trim (isWhitespace : Char → Bool) (s : List Char) : List Char :=
  ((s.dropWhile isWhitespace).reverse.dropWhile isWhitespace).reverse

/-- One round of the loop over `prefixes` in `tryCompleteImport`: the position
after the keyword when the line is valid for it, `none` on `continue`. -/
def matchImportKeyword (isWhitespace : Char → Bool) (lineContent : List Char)
    (importStr : List Char) : Option Int :=
  let pos := indexOf lineContent importStr
  if pos = -1 then none
  else
    let lineBeforeImportKeyword := trim isWhitespace (lineContent.take pos.toNat)
    if lineBeforeImportKeyword.length ≠ 0 ∧ lineBeforeImportKeyword ≠ "__exported".data then none
    else some (pos + importStr.length)

/-- The loop over `prefixes` in `tryCompleteImport`: the value of `pos` at
`validLine`, `none` when the loop ends without reaching it. -/
def findImportKeyword (isWhitespace : Char → Bool) (lineContent : List Char) :
    List (List Char) → Option Int
  | [] => none
  | importStr :: rest =>
    match matchImportKeyword isWhitespace lineContent importStr with
    | some pos => some pos
    | none => findImportKeyword isWhitespace lineContent rest

/-- The keywords `tryCompleteImport` looks for, each followed by a blank. -/
def importKeywords : List (List Char) :=
  ["import ".data, "__include ".data, "implementing ".data]

/-- The loop of `tryCompleteImport` that skips the whitespace after the keyword,
up to the cursor. -/
def skipWhitespace (isWhitespace : Char → Bool) (s : List Char) (col : Int) :
    Nat → Int → Except Failure Int
  | 0, _ => Except.error Failure.outOfFuel
  | fuel + 1, pos =>
    if pos < s.length ∧ pos < col - 1 then
      match charAt s pos with
      | Except.error e => Except.error e
      | Except.ok c =>
        if isWhitespace c then skipWhitespace isWhitespace s col fuel (pos + 1)
        else Except.ok pos
    else Except.ok pos

/-- The loop of `tryCompleteImport` that moves `lastPos` back to the last `.` at
or after `pos`, failing on a `;`. -/
def scanBackToDot (s : List Char) : Nat → Int → Int → Except Failure Int
  | 0, _, _ => Except.error Failure.outOfFuel
  | fuel + 1, pos, lastPos =>
    if lastPos ≥ pos then
      match charAt s lastPos with
      | Except.error e => Except.error e
      | Except.ok c =>
        if c = '.' then Except.ok lastPos
        else if c = ';' then Except.error Failure.notApplicable
        else scanBackToDot s fuel pos (lastPos - 1)
    else Except.ok lastPos

/-- The arguments `tryCompleteImport` passes to
`gatherFileAndModuleCompletionItems` for a module name. -/
structure ModuleNameArguments where
  pfxPath : String
  lineIndex : Int
  fileNameEnd : Int
  sectionStart : Int
  sectionEnd : Int
deriving DecidableEq, Repr

/-- What `tryCompleteImport` does after it has found the keyword: it hands a
quoted path over to `tryCompleteRawFileName` with the position `pos`, or it
completes a module name with the arguments computed. -/
inductive ImportPlan where
  | rawFileName (pos : Int)
  | moduleName (arguments : ModuleNameArguments)
deriving DecidableEq, Repr

/-- The translation of the characters of a module name into a path: `.` becomes
the path delimiter and `_` becomes `-`. -/
def translateModuleChar (pathDelimiter : Char) (ch : Char) : Char :=
  if ch = '.' then pathDelimiter
  else if ch = '_' then '-'
  else ch

/-- The characters at which the scan for `sectionEnd` stops in a module name. -/
def endsModuleSection (c : Char) : Bool := c = '.' || c = ';'

/-- The part of `tryCompleteImport` before the calls of `tryCompleteRawFileName`
and `gatherFileAndModuleCompletionItems`. -/
def importPlan (env : PathContext) (isWhitespace : Char → Bool) (lineContent : List Char) :
    Except Failure ImportPlan :=
  match findImportKeyword isWhitespace lineContent importKeywords with
  | none => Except.error Failure.notApplicable
  | some keywordEnd =>
    match skipWhitespace isWhitespace lineContent env.col (lineContent.length + 1)
        keywordEnd with
    | Except.error e => Except.error e
    | Except.ok pos =>
      match (if pos < lineContent.length then charAt lineContent pos
             else Except.ok ' ') with
      | Except.error e => Except.error e
      | Except.ok first =>
        if pos < lineContent.length ∧ first = '\"' then Except.ok (ImportPlan.rawFileName pos)
        else if env.col - 2 < 0 then Except.error Failure.notApplicable
        else
          match scanBackToDot lineContent (lineContent.length + 1) pos (env.col - 2) with
          | Except.error e => Except.error e
          | Except.ok lastPos =>
            match (if lastPos > pos then subString lineContent pos (lastPos - pos)
                   else Except.ok []) with
            | Except.error e => Except.error e
            | Except.ok pfxSlice =>
              match scanForward endsModuleSection lineContent (lineContent.length + 1)
                  (env.col - 1) with
              | Except.error e => Except.error e
              | Except.ok sectionEnd =>
                match scanForward (fun c => c = ';') lineContent (lineContent.length + 1)
                    sectionEnd with
                | Except.error e => Except.error e
                | Except.ok fileNameEnd =>
                  Except.ok (ImportPlan.moduleName
                    { pfxPath := String.mk (pfxSlice.map (translateModuleChar env.pathDelimiter))
                      lineIndex := env.line - 1
                      fileNameEnd := fileNameEnd
                      sectionStart := lastPos + 1
                      sectionEnd := sectionEnd })

/-- `CompletionContext::tryCompleteImport`; `lineContent` is `doc->getLine(line)`
and `isWhitespace` stands for `CharUtil::isWhitespace`. -/
def tryCompleteImport (env : PathContext) (isWhitespace : Char → Bool)
    (lineContent : List Char) : Except Failure (List TextEditCompletionItem) :=
  match importPlan env isWhitespace lineContent with
  | Except.error e => Except.error e
  | Except.ok (ImportPlan.rawFileName pos) => tryCompleteRawFileName env lineContent pos true
  | Except.ok (ImportPlan.moduleName a) =>
    Except.ok (gatherFileAndModuleCompletionItems env a.pfxPath true false a.lineIndex
      a.fileNameEnd a.sectionStart a.sectionEnd none)

/-- The loop of `tryCompleteInclude` over the characters between `#` and
`include`: all of them are whitespace. -/
def onlyWhitespaceBetween (isWhitespace : Char → Bool) (s : List Char) (pos : Nat) : Bool :=
  ((s.take pos).drop 1).all isWhitespace

/-- `CompletionContext::tryCompleteInclude`. -/
def tryCompleteInclude (env : PathContext) (isWhitespace : Char → Bool)
    (lineContent : List Char) : Except Failure (List TextEditCompletionItem) :=
  if !startsWith lineContent "#".data then Except.error Failure.notApplicable
  else
    let pos := indexOf lineContent "include ".data
    if pos = -1 then Except.error Failure.notApplicable
    else if !onlyWhitespaceBetween isWhitespace lineContent pos.toNat then
      Except.error Failure.notApplicable
    else tryCompleteRawFileName env lineContent (pos + 8) false

/-! ## Attribute completion -/

/-- One hexadecimal digit of the generated identifier, from one value of
`rand()`: a decimal digit below 10, a letter from `A` otherwise. -/
def guidDigit (r : Nat) : Char :=
  if r % 16 < 10 then Nat.digitChar (r % 16) else Char.ofNat (65 + r % 16 - 10)

/-- The digits of one section of the generated identifier: `len` values of
`rand()` from the `start`-th on. -/
def guidSection (rand : Nat → Nat) (start len : Nat) : List Char :=
  (List.range len).map (fun i => guidDigit (rand (start + i)))

/-- `CompletionContext::generateGUIDCompletionItem`; `hashStr` is the text
`String(docHash, 16)` of the document hash and `rand k` the value of the `k`-th
call of `rand()`. -/
def generateGUIDCompletionItem (hashStr : String) (rand : Nat → Nat) : CompletionItem :=
  let len0 := ((8 : Int) - hashStr.length).toNat
  { label := "COM(\"" ++ hashStr ++
      String.mk (guidSection rand 0 len0) ++ "-" ++
      String.mk (guidSection rand len0 4) ++ "-" ++
      String.mk (guidSection rand (len0 + 4) 4) ++ "-" ++
      String.mk (guidSection rand (len0 + 8) 4) ++ "-" ++
      String.mk (guidSection rand (len0 + 12) 12) ++ "\")"
    kind := CompletionItemKind.Keyword }

/-- `String::endsWith` on character lists. -/
def endsWith (s p : List Char) : Bool :=
  decide (p.length ≤ s.length) && decide (s.drop (s.length - p.length) = p)

/-- The body of the loop of `collectAttributes`: the item a candidate gives,
`none` when it gives none. -/
def attributeItem (candidate : LookupResultItem) : Option CompletionItem :=
  match candidate.decl with
  | none => none
  | some decl =>
    if decl.isAttributeDecl then
      match decl.name with
      | some text => some { label := text, kind := CompletionItemKind.Keyword }
      | none => none
    else if decl.isAggTypeDecl then
      match decl.name with
      | some text =>
        some
          { label :=
              if endsWith text.data "Attribute".data then
                String.mk (text.data.take (text.length - 9))
              else text
            kind := CompletionItemKind.Struct }
      | none => none
    else none

/-- `CompletionContext::collectAttributes`. -/
def collectAttributes (candidateItems : List LookupResultItem) (hashStr : String)
    (rand : Nat → Nat) : List CompletionItem :=
  candidateItems.filterMap attributeItem ++ [generateGUIDCompletionItem hashStr rand]

/-! ## The parts of the response of the candidate collector -/

/-- The keyword table `collectMembersAndSymbols` appends in the scope of the
request. -/
def keywordTable (ctx : CompletionContext) : List String :=
  if ctx.scopeKind = ScopeKind.Decl then kDeclKeywords else kStmtKeywords

/-- The set of used labels at the end of the loop over the candidates. -/
def usedLabels (ctx : CompletionContext) : List String :=
  (candidateLoop ctx (getExpectedTypesAtCompletion ctx.lookupResults) ctx.candidateItems 0 []).2

/-- The items the loop over the keyword table adds. -/
def keywordItems (ctx : CompletionContext) : List CompletionItem :=
  (keywordLoop (keywordTable ctx) (usedLabels ctx)).1

/-- The items the loop over the macro definitions adds after the keywords. -/
def macroItems (ctx : CompletionContext) : List CompletionItem :=
  (macroLoop ctx.macroDefinitions (keywordLoop (keywordTable ctx) (usedLabels ctx)).2).1

/-- The items the loop over the candidates adds. -/
def loopItems (ctx : CompletionContext) : List CompletionItem :=
  ((candidateOutputs ctx).map CandidateOutput.items).flatten

/-- The items `result` holds before the loop over the candidates. -/
def swizzleItems (ctx : CompletionContext) : List CompletionItem :=
  if ctx.scopeKind = ScopeKind.Swizzle then
    createSwizzleCandidates ctx.swizzleBaseType ctx.elementCount
  else []

/-- The value of `result` before the final loop over the commit characters, in
the scopes in which the loop over the candidates runs. -/
def collectedItems (ctx : CompletionContext) : List CompletionItem :=
  swizzleItems ctx ++ loopItems ctx ++
    (if addKeywords ctx then keywordItems ctx ++ macroItems ctx else [])

/-! ## Expected types, in the words of the specification -/

/-- What one callee contributes for the argument index `i`: the declared type of
its `i`-th formal parameter when the callee is a callable declaration with more
than `i` parameters, nothing otherwise. -/
def parameterTypeAt (callee : Option CalleeDecl) (i : Nat) : List (Option TypeNode) :=
  match callee with
  | none => []
  | some decl => if decl.isCallableDecl then (decl.paramTypes.get? i).toList else []

/-! ## The search roots of path completion -/

/-- The search roots in the order `gatherFileAndModuleCompletionItems` visits
them: the explicit search paths, then the workspace search paths when
`searchInWorkspace` is set. -/
def searchRoots (env : PathContext) : List String :=
  env.additionalSearchPaths ++ (if env.searchInWorkspace then env.workspaceSearchPaths else [])

/-- The closing delimiter that belongs to the opening delimiter found at or after
`pos`: `>` for `<`, and `"` otherwise. -/
def closingDelimiter (lineContent : List Char) (pos : Nat) : Char :=
  if lineContent.get? (firstStopFrom (fun c => c = '\"' || c = '<') lineContent pos) = some '<'
  then '>' else '\"'

/-! ## Matching through rewritten expressions, in the words of the specification -/

/-- The addresses an expression stands for: its own, and, while the node is one
of the rewriting wrappers, those of the expression it was rewritten from. -/
def originalChain : Expr → List Nat
  | Expr.null => []
  | Expr.node addr kind original =>
    addr :: (match kind with
      | WrapperKind.Other => []
      | _ => originalChain original)

/-! ## The key of an enumerated item -/

/-- The key under which the enumeration callback records an item in `itemSet`:
`String(item.kind) + item.label`. -/
def entryKey (item : TextEditCompletionItem) : String :=
  toString item.kind.code ++ item.label

/-- The enumeration state keeps what the callback relies on: every item has a
label that is not empty and its key in `itemSet`, and no two items have the same
key. -/
def EnumerationState.wellFormed (st : EnumerationState) : Prop :=
  (∀ it ∈ st.items, it.label.length ≠ 0 ∧ entryKey it ∈ st.itemSet) ∧
    (st.items.map entryKey).Nodup

/-! ## Accesses inside the line -/

/-- The loop of `tryCompleteInclude` over the positions from `i` to `pos - 1`,
with the accesses `lineContent[i]` written out: `true` when all characters are
whitespace, `false` on the return at the first character that is not. -/
def scanIncludeGap (isWhitespace : Char → Bool) (s : List Char) (pos : Int) :
    Nat → Int → Except Failure Bool
  | 0, _ => Except.error Failure.outOfFuel
  | fuel + 1, i =>
    if i < pos then
      match charAt s i with
      | Except.error e => Except.error e
      | Except.ok c =>
        if isWhitespace c then scanIncludeGap isWhitespace s pos fuel (i + 1)
        else Except.ok false
    else Except.ok true

/-- A run of a completion strategy in which every access `lineContent[k]` and
every slice lay inside the line and every scanning loop came to its end: the run
ends with a result or with `SLANG_FAIL`. -/
def staysInsideLine {α : Type} (r : Except Failure α) : Prop :=
  r = Except.error Failure.notApplicable ∨ ∃ v, r = Except.ok v

/-! ## Concrete inputs used by the examples -/

/-- The enumeration declaration used in the examples of the ranker. -/
def exampleEnum : Decl :=
  { addr := 10, name := some "Color", isEnumDecl := true, isAggTypeDecl := true,
    isFromCoreModule := true, module := some 7 }

/-- The type `Color`, a `DeclRefType` referring to `exampleEnum`. -/
def exampleEnumType : TypeNode := { addr := 100, declRefDecl := some 10 }

/-- A variable of type `Color`. -/
def exampleVar : Decl :=
  { addr := 11, name := some "tint", isVarDeclBase := true, type := some exampleEnumType,
    module := some 1 }

/-- An alias type node: a `DeclRefType` distinct from `exampleEnumType` that
refers to the same declaration. -/
def exampleAliasType : TypeNode := { addr := 101, declRefDecl := some 10 }

/-- A type node that is not a `DeclRefType`. -/
def exampleBasicType : TypeNode := { addr := 102 }

/-- A function returning `Color` through the alias type node, declared in another
module. -/
def exampleFunc : Decl :=
  { addr := 12, name := some "pick", isCallableDecl := true,
    returnType := some exampleAliasType, module := some 2, returnTypeText := "Color" }

/-- An interface declaration. -/
def exampleInterface : Decl :=
  { addr := 13, name := some "IShape", isInterfaceDecl := true, isAggTypeDecl := true,
    module := some 1 }

/-- The type `IShape`. -/
def exampleInterfaceType : TypeNode := { addr := 103, declRefDecl := some 13 }

/-- A struct declaration. -/
def exampleStruct : Decl :=
  { addr := 14, name := some "Light", isStructDecl := true, isAggTypeDecl := true,
    module := some 1 }

/-- The type `Light`. -/
def exampleStructType : TypeNode := { addr := 104, declRefDecl := some 14 }

/-- The identifier test used in the examples: letters, digits and `_`. -/
def exampleIsIdentifierChar (c : Char) : Bool :=
  c.isAlphanum || c == '_'

/-- A method `int foo()`. -/
def exampleFoo : Decl :=
  { addr := 20, name := some "foo", isCallableDecl := true, returnTypeText := "int",
    declParamsText := "()" }

/-- A method `int bar()`. -/
def exampleBar : Decl :=
  { addr := 21, name := some "bar", isCallableDecl := true, returnTypeText := "int",
    declParamsText := "()" }

/-- A request for the signatures of the members `foo` and `bar`, as made when an
overriding method is being written. -/
def exampleOverrideRequest : CompletionContext :=
  { scopeKind := ScopeKind.Decl
    formatMode := FormatMode.FullSignature
    candidateItems := [{ decl := some exampleFoo }, { decl := some exampleBar }]
    isIdentifierChar := exampleIsIdentifierChar }

/-- A local variable named `defer`, a word of the statement keyword table. -/
def exampleDeferVar : Decl :=
  { addr := 30, name := some "defer", isVarDeclBase := true }

/-- A function named `LIMIT`, which is also the name of an active macro. -/
def exampleLimitFunc : Decl :=
  { addr := 31, name := some "LIMIT", isCallableDecl := true }

/-- A request in statement scope with the format mode `Name`: the candidates
`defer`, `LIMIT` and `defer` again, and the macros `LIMIT` and `DEBUG`. -/
def exampleStmtRequest : CompletionContext :=
  { scopeKind := ScopeKind.Stmt
    formatMode := FormatMode.Name
    candidateItems :=
      [{ decl := some exampleDeferVar }, { decl := some exampleLimitFunc },
       { decl := some exampleDeferVar }]
    macroDefinitions := [some "LIMIT", none, some "DEBUG"]
    isIdentifierChar := exampleIsIdentifierChar }

/-- A request in expression scope for the initializer of a variable of type
`Color`: the ancestor path ends with the variable declaration and the completion
node; the candidates are a variable of that type, a struct and a function. -/
def exampleInitRequest : CompletionContext :=
  { scopeKind := ScopeKind.Expr
    formatMode := FormatMode.Name
    candidateItems :=
      [{ decl := some exampleStruct }, { decl := some exampleVar },
       { decl := some exampleFoo }]
    lookupResults :=
      [{ path :=
          [{ addr := 200, isVarDeclBase := true, type := some exampleEnumType,
             initExpr := Expr.node 201 WrapperKind.Other Expr.null },
           { addr := 201 }] }]
    parsedModule := 1
    isIdentifierChar := exampleIsIdentifierChar }

/-- The request `exampleStmtRequest` of a client that asks for commit characters
on every item. -/
def exampleCommitRequest : CompletionContext :=
  { exampleStmtRequest with
    commitCharacterBehavior := CommitCharacterBehavior.All
    commitChars := [".", "("] }

/-- The callee `float dot(vec a, vec b)`, with the parameter types at the
addresses 300 and 301. -/
def exampleCalleeDot : CalleeDecl :=
  { isCallableDecl := true
    paramTypes := [some { addr := 300, declRefDecl := some 40 },
                   some { addr := 301, declRefDecl := some 40 }] }

/-- The callee `float dot(scalar a)`, an overload with one parameter. -/
def exampleCalleeUnary : CalleeDecl :=
  { isCallableDecl := true
    paramTypes := [some { addr := 302, declRefDecl := some 41 }] }

/-- The completion node of the examples. -/
def exampleHole : SyntaxNode := { addr := 501 }

/-- The call `dot(a, <hole>)` of an overloaded callee; the second argument is a
resolved reference rewritten from the completion node. -/
def exampleCallNode : SyntaxNode :=
  { addr := 500
    isAppExprBase := true
    isInvokeExpr := true
    arguments :=
      [Expr.node 510 WrapperKind.Other Expr.null,
       Expr.node 511 WrapperKind.DeclRefExpr (Expr.node 501 WrapperKind.Other Expr.null)]
    functionExpr :=
      some (FunctionExpr.OverloadedExpr [some exampleCalleeDot, some exampleCalleeUnary, none]) }

/-- The result of the lookup at the cursor for the call `dot(a, <hole>)`. -/
def exampleCallLookup : ASTLookupResult :=
  { path := [{ addr := 400 }, exampleCallNode, exampleHole] }

/-- A struct declared with the name `Attribute`. -/
def exampleAttributeStruct : Decl :=
  { addr := 50, name := some "Attribute", isStructDecl := true, isAggTypeDecl := true }

/-- The line `#include "foo/bar/ba`, the cursor being at its end. -/
def examplePathLine : List Char := "#include \"foo/bar/ba".data

/-- A workspace with the search path `/ws/foo/bar`, which holds the folder `baz`
and the file `bat.h`; the cursor is at the end of `examplePathLine`. -/
def examplePathContext : PathContext :=
  { line := 1
    col := 21
    rootDirectories := ["/ws"]
    additionalSearchPaths := ["/ws/foo/bar"]
    enumeratePathContents := fun path =>
      if path = "/ws/foo/bar" then [(PathType.Directory, "baz"), (PathType.File, "bat.h")]
      else [] }

/-- The line `#include "a/b"`, the cursor being between `b` and the closing
quote. -/
def exampleClosedLine : List Char := "#include \"a/b\"".data

/-- A workspace with the search path `/ws/a`, which holds the file `b.h` and the
folder `bin`; the cursor is after the `b` of `exampleClosedLine`. -/
def exampleClosedContext : PathContext :=
  { line := 1
    col := 14
    rootDirectories := ["/ws"]
    additionalSearchPaths := ["/ws/a"]
    enumeratePathContents := fun path =>
      if path = "/ws/a" then [(PathType.File, "b.h"), (PathType.Directory, "bin")]
      else [] }

/-- The file item returned for `exampleClosedLine`. -/
def exampleClosedFileItem : TextEditCompletionItem :=
  { label := "b.h", kind := CompletionItemKind.File, detail := "a/b.h",
    textEdit := { startLine := 0, startCharacter := 12, endLine := 0, endCharacter := 14,
                  newText := "b.h\"" } }

/-- The folder item returned for `exampleClosedLine`. -/
def exampleClosedFolderItem : TextEditCompletionItem :=
  { label := "bin", kind := CompletionItemKind.Folder, detail := "a/bin",
    textEdit := { startLine := 0, startCharacter := 12, endLine := 0, endCharacter := 13,
                  newText := "bin" } }

/-- A workspace with the search paths `/ws/a` and `/ws/b` and the workspace search
path `/ws/c`, in which every reading of the clock after the first finds 500 ms
elapsed; commit characters are enabled. -/
def exampleSlowContext : PathContext :=
  { line := 1
    col := 9
    rootDirectories := ["/ws"]
    additionalSearchPaths := ["/ws/a", "/ws/b"]
    searchInWorkspace := true
    workspaceSearchPaths := ["/ws/c"]
    commitCharacterBehavior := CommitCharacterBehavior.All
    commitChars := ["."]
    enumeratePathContents := fun path =>
      if path = "/ws/a" then [(PathType.File, "b.slang"), (PathType.Directory, "bin")]
      else if path = "/ws/b" then [(PathType.File, "c.slang")]
      else if path = "/ws/c" then [(PathType.File, "d.slang")]
      else []
    elapsedTime := fun k => if k = 0 then 0 else 500 }

/-- A workspace with the single search path `/ws/a`, in which the clock never
passes the budget; commit characters are disabled. -/
def exampleQuickContext : PathContext :=
  { line := 1
    col := 9
    rootDirectories := ["/ws"]
    additionalSearchPaths := ["/ws/a"]
    enumeratePathContents := fun path =>
      if path = "/ws/a" then [(PathType.File, "b.slang"), (PathType.Directory, "bin")]
      else [] }

/-- The line `import b`, the cursor being at its end. -/
def exampleImportLine : List Char := "import b".data

/-- The items of `/ws/a` as module-name completion returns them for
`exampleImportLine`. -/
def exampleModuleItems : List TextEditCompletionItem :=
  [{ label := "b", kind := CompletionItemKind.File, detail := "a/b.slang",
     textEdit := { startLine := 0, startCharacter := 7, endLine := 0, endCharacter := 8,
                   newText := "b" } },
   { label := "bin", kind := CompletionItemKind.Folder, detail := "a/bin",
     textEdit := { startLine := 0, startCharacter := 7, endLine := 0, endCharacter := 8,
                   newText := "bin" } }]

/-- The line `import my_module.sub`. -/
def exampleModuleLine : List Char := "import my_module.sub".data

/-- A workspace with the search paths `/ws/my-module`, which holds the folder
`sub` and the file `subsurface.slang`, and `/ws/my-module/sub`, which holds the
file `inner.slang`; the cursor is at the end of `exampleModuleLine`. -/
def exampleModuleContext : PathContext :=
  { line := 1
    col := 21
    rootDirectories := ["/ws"]
    additionalSearchPaths := ["/ws/my-module", "/ws/my-module/sub"]
    enumeratePathContents := fun path =>
      if path = "/ws/my-module" then
        [(PathType.Directory, "sub"), (PathType.File, "subsurface.slang")]
      else if path = "/ws/my-module/sub" then [(PathType.File, "inner.slang")]
      else [] }

/-- The implicit conversion `(Color)<hole>`: one argument, a resolved reference
rewritten from the completion node, and the target type `Color` at the address
310, a reference to the declaration 42. -/
def exampleCastNode : SyntaxNode :=
  { addr := 520
    isImplicitCastExpr := true
    isAppExprBase := true
    isInvokeExpr := true
    arguments :=
      [Expr.node 521 WrapperKind.DeclRefExpr (Expr.node 501 WrapperKind.Other Expr.null)]
    type := some { addr := 310, declRefDecl := some 42 } }

/-- The result of the lookup at the cursor for the conversion `(Color)<hole>`. -/
def exampleCastLookup : ASTLookupResult :=
  { path := [{ addr := 400 }, exampleCastNode, exampleHole] }

/-- The declaration `Color c = <hole>;` with the declared type `Color`. -/
def exampleVarDeclNode : SyntaxNode :=
  { addr := 530
    isVarDeclBase := true
    type := some { addr := 310, declRefDecl := some 42 }
    initExpr := Expr.node 501 WrapperKind.Other Expr.null }

/-- The result of the lookup at the cursor for `Color c = <hole>;`. -/
def exampleVarDeclLookup : ASTLookupResult :=
  { path := [{ addr := 400 }, exampleVarDeclNode, exampleHole] }

/-- A static method `int make()`. -/
def exampleStaticFunc : Decl :=
  { addr := 22, name := some "make", isCallableDecl := true, returnTypeText := "int",
    declParamsText := "()", hasStaticModifier := true }

/-- A request for the signature of an overriding method whose partial declaration
has no `static`; the static method `make` is a candidate twice, as found along
two lookup paths. -/
def exampleStaticRequest : CompletionContext :=
  { scopeKind := ScopeKind.Decl
    formatMode := FormatMode.FullSignature
    candidateItems := [{ decl := some exampleStaticFunc }, { decl := some exampleStaticFunc }]
    currentPartialDecl := some false
    isIdentifierChar := exampleIsIdentifierChar }

/-- A request for a full signature at a place where the type `Color` is expected:
the one candidate is the function `pick`, which returns `Color` and is declared
in another module. -/
def exampleRankedRequest : CompletionContext :=
  { scopeKind := ScopeKind.Decl
    formatMode := FormatMode.FullSignature
    candidateItems := [{ decl := some exampleFunc }]
    lookupResults :=
      [{ path :=
          [{ addr := 200, isVarDeclBase := true, type := some exampleEnumType,
             initExpr := Expr.node 201 WrapperKind.Other Expr.null },
           { addr := 201 }] }]
    parsedModule := 1
    isIdentifierChar := exampleIsIdentifierChar }

/-- An attribute declaration named `numthreads`. -/
def exampleAttributeDecl : Decl :=
  { addr := 51, name := some "numthreads", isAttributeDecl := true }

/-- A struct declared with the name `UnrollAttribute`. -/
def exampleUnrollStruct : Decl :=
  { addr := 52, name := some "UnrollAttribute", isStructDecl := true, isAggTypeDecl := true }

/-- A request in swizzle scope on a vector of three floats, for which the
candidate list holds the variable `tint`. -/
def exampleSwizzleRequest : CompletionContext :=
  { scopeKind := ScopeKind.Swizzle
    formatMode := FormatMode.Name
    candidateItems := [{ decl := some exampleVar }]
    swizzleBaseType := SwizzleBaseType.VectorExpressionType (some "float")
    elementCount := (3, 0)
    isIdentifierChar := exampleIsIdentifierChar }

/-! ## Facts about the ranker -/

theorem matchType_cases (t : Option TypeNode) (et : TypeNode) (d : Nat) :
    matchType t et d = -1 ∨ matchType t et d = 1 ∨ matchType t et d = 2 := by
  unfold matchType
  split
  · simp
  · split
    · simp
    · split
      · simp
      · split <;> simp

theorem currentSortOrder_cases (item : Decl) (et : TypeNode) (d : Nat) :
    currentSortOrder item et d = -1 ∨ currentSortOrder item et d = 0 ∨
      currentSortOrder item et d = 1 ∨ currentSortOrder item et d = 2 := by
  unfold currentSortOrder
  have hv := matchType_cases item.type et d
  have hc := matchType_cases item.returnType et d
  split_ifs <;> omega

theorem sortOrderLoop_range (item : Decl) (ets : List (Option TypeNode)) :
    ∀ result : Int, -1 ≤ result → result ≤ 2 →
      -1 ≤ sortOrderLoop item ets result ∧ sortOrderLoop item ets result ≤ 2 := by
  induction ets with
  | nil => intro result h1 h2; exact ⟨h1, h2⟩
  | cons et? rest ih =>
    intro result h1 h2
    cases et? with
    | none => exact ih result h1 h2
    | some et =>
      unfold sortOrderLoop
      split
      · exact ih result h1 h2
      · rename_i d _
        have hc := currentSortOrder_cases item et d
        simp only []
        split
        · apply ih <;> omega
        · exact ih result h1 h2

theorem unadjustedSortOrder_range (item : Decl) (ets : List (Option TypeNode)) :
    -1 ≤ unadjustedSortOrder item ets ∧ unadjustedSortOrder item ets ≤ 2 := by
  unfold unadjustedSortOrder
  split
  · omega
  · exact sortOrderLoop_range item ets (-1) (by omega) (by omega)

theorem determine_eq_adjust (pm : Nat) (item : Decl) (ets : List (Option TypeNode)) :
    determineCompletionItemSortOrder pm item ets =
      if unadjustedSortOrder item ets > 0 then
        unadjustedSortOrder item ets +
          (if item.module ≠ some pm then 1 else 0) +
          (if item.isFromCoreModule then 1 else 0)
      else unadjustedSortOrder item ets := by
  unfold determineCompletionItemSortOrder unadjustedSortOrder
  by_cases h0 : ets.length = 0
  · simp [h0]
  · simp only [h0, if_false]
    generalize sortOrderLoop item ets (-1) = b
    by_cases hb : b > 0
    · by_cases hm : item.module = some pm <;> by_cases hc : item.isFromCoreModule = true <;>
        simp [hb, hm, hc]
      all_goals omega
    · simp [hb]

theorem determine_range (pm : Nat) (item : Decl) (ets : List (Option TypeNode)) :
    -1 ≤ determineCompletionItemSortOrder pm item ets ∧
      determineCompletionItemSortOrder pm item ets ≤ 4 := by
  rw [determine_eq_adjust]
  have h := unadjustedSortOrder_range item ets
  split_ifs <;> omega

theorem matchedOrders_nonneg (item : Decl) (ets : List (Option TypeNode)) :
    ∀ x ∈ matchedOrders item ets, 0 ≤ x := by
  intro x hx
  unfold matchedOrders at hx
  simp only [List.mem_filter, List.mem_filterMap, decide_eq_true_eq] at hx
  obtain ⟨⟨et?, _, het⟩, hne⟩ := hx
  cases et? with
  | none => simp at het
  | some et =>
    cases hd : et.declRefDecl with
    | none => simp [hd] at het
    | some d =>
      simp [hd] at het
      have := currentSortOrder_cases item et d
      omega

theorem matchedOrders_cons_null (item : Decl) (rest : List (Option TypeNode)) :
    matchedOrders item (none :: rest) = matchedOrders item rest := by
  simp [matchedOrders, List.filterMap_cons]

theorem matchedOrders_cons_none (item : Decl) (et : TypeNode) (rest : List (Option TypeNode))
    (h : et.declRefDecl = none) :
    matchedOrders item (some et :: rest) = matchedOrders item rest := by
  simp [matchedOrders, List.filterMap_cons, h]

theorem matchedOrders_cons_some (item : Decl) (et : TypeNode) (rest : List (Option TypeNode)) (d : Nat)
    (h : et.declRefDecl = some d) :
    matchedOrders item (some et :: rest) =
      if currentSortOrder item et d = -1 then matchedOrders item rest
      else currentSortOrder item et d :: matchedOrders item rest := by
  simp only [matchedOrders, List.filterMap_cons, h, Option.map_some', Option.some_bind]
  by_cases hc : currentSortOrder item et d = -1
  · simp [hc]
  · simp [hc, List.filter_cons]

/-- The loop computes the minimum of the matched orders, seeded with `result`. -/
theorem sortOrderLoop_spec (item : Decl) (ets : List (Option TypeNode)) :
    ∀ r : Int, (r = -1 ∨ 0 ≤ r) →
      (r = -1 → matchedOrders item ets = [] → sortOrderLoop item ets r = -1) ∧
      (r = -1 → matchedOrders item ets ≠ [] →
        sortOrderLoop item ets r ∈ matchedOrders item ets ∧
        ∀ x ∈ matchedOrders item ets, sortOrderLoop item ets r ≤ x) ∧
      (0 ≤ r →
        (sortOrderLoop item ets r = r ∨ sortOrderLoop item ets r ∈ matchedOrders item ets) ∧
        sortOrderLoop item ets r ≤ r ∧
        ∀ x ∈ matchedOrders item ets, sortOrderLoop item ets r ≤ x) := by
  induction ets with
  | nil =>
    intro r _
    simp [sortOrderLoop, matchedOrders]
  | cons et? rest ih =>
    intro r hr
    cases et? with
    | none =>
      rw [matchedOrders_cons_null]
      exact ih r hr
    | some et =>
    cases hd : et.declRefDecl with
    | none =>
      rw [matchedOrders_cons_none item et rest hd]
      have e : sortOrderLoop item (some et :: rest) r = sortOrderLoop item rest r := by
        simp [sortOrderLoop, hd]
      rw [e]
      exact ih r hr
    | some d =>
      rw [matchedOrders_cons_some item et rest d hd]
      have hc := currentSortOrder_cases item et d
      by_cases hcur : currentSortOrder item et d = -1
      · have e : sortOrderLoop item (some et :: rest) r = sortOrderLoop item rest r := by
          simp only [sortOrderLoop, hd, hcur]
          by_cases h1 : r = -1
          · simp [h1]
          · simp [h1]
        rw [e, if_pos hcur]
        exact ih r hr
      · rw [if_neg hcur]
        have hc0 : 0 ≤ currentSortOrder item et d := by omega
        obtain ⟨-, -, ihc⟩ := ih (currentSortOrder item et d) (Or.inr hc0)
        obtain ⟨i1, i2, i3⟩ := ihc hc0
        by_cases h1 : r = -1
        · have e : sortOrderLoop item (some et :: rest) r =
              sortOrderLoop item rest (currentSortOrder item et d) := by
            simp [sortOrderLoop, hd, h1]
          rw [e]
          refine ⟨fun _ h => by simp at h, fun _ _ => ⟨?_, ?_⟩, fun h => by omega⟩
          · rcases i1 with i1 | i1
            · rw [i1]; simp
            · exact List.mem_cons_of_mem _ i1
          · intro x hx
            rcases List.mem_cons.1 hx with hx | hx
            · rw [hx]; exact i2
            · exact i3 x hx
        · have hr0 : 0 ≤ r := by omega
          by_cases hlt : currentSortOrder item et d < r
          · have e : sortOrderLoop item (some et :: rest) r =
                sortOrderLoop item rest (currentSortOrder item et d) := by
              simp [sortOrderLoop, hd, h1, hcur, hlt]
            rw [e]
            refine ⟨fun h => absurd h h1, fun h => absurd h h1, fun _ => ⟨?_, by omega, ?_⟩⟩
            · right
              rcases i1 with i1 | i1
              · rw [i1]; simp
              · exact List.mem_cons_of_mem _ i1
            · intro x hx
              rcases List.mem_cons.1 hx with hx | hx
              · rw [hx]; exact i2
              · exact i3 x hx
          · have e : sortOrderLoop item (some et :: rest) r = sortOrderLoop item rest r := by
              simp [sortOrderLoop, hd, h1, hlt]
            rw [e]
            obtain ⟨-, -, ihr⟩ := ih r hr
            obtain ⟨j1, j2, j3⟩ := ihr hr0
            refine ⟨fun h => absurd h h1, fun h => absurd h h1, fun _ => ⟨?_, j2, ?_⟩⟩
            · rcases j1 with j1 | j1
              · exact Or.inl j1
              · exact Or.inr (List.mem_cons_of_mem _ j1)
            · intro x hx
              rcases List.mem_cons.1 hx with hx | hx
              · rw [hx]; omega
              · exact j3 x hx

theorem unadjusted_spec (item : Decl) (ets : List (Option TypeNode)) :
    (matchedOrders item ets = [] → unadjustedSortOrder item ets = -1) ∧
    (matchedOrders item ets ≠ [] →
      unadjustedSortOrder item ets ∈ matchedOrders item ets ∧
      ∀ x ∈ matchedOrders item ets, unadjustedSortOrder item ets ≤ x) := by
  unfold unadjustedSortOrder
  by_cases h0 : ets.length = 0
  · have : ets = [] := List.length_eq_zero.1 h0
    subst this
    simp [matchedOrders]
  · rw [if_neg h0]
    obtain ⟨a, b, -⟩ := sortOrderLoop_spec item ets (-1) (Or.inl rfl)
    exact ⟨a rfl, b rfl⟩

/-! ## Sort keys -/

theorem cons_lt_cons_self_iff (a : Char) (xs ys : List Char) :
    a :: xs < a :: ys ↔ xs < ys :=
  List.Lex.cons_iff

theorem sortKey_data (r : Int) (h0 : 0 ≤ r) (h4 : r ≤ 4) (name : String) :
    (sortKey r name).toList = Char.ofNat (48 + r.toNat) :: ':' :: name.toList := by
  have h : r = 0 ∨ r = 1 ∨ r = 2 ∨ r = 3 ∨ r = 4 := by omega
  rcases h with h | h | h | h | h <;> subst h <;> rfl

theorem sortKey_lt_of_lt (ra rb : Int) (na nb : String) (h0 : 0 ≤ ra) (h : ra < rb)
    (h4 : rb ≤ 4) : sortKey ra na < sortKey rb nb := by
  rw [String.lt_iff_toList_lt, sortKey_data ra h0 (by omega), sortKey_data rb (by omega) h4]
  apply List.Lex.rel
  have ha : ra = 0 ∨ ra = 1 ∨ ra = 2 ∨ ra = 3 := by omega
  have hb : rb = 1 ∨ rb = 2 ∨ rb = 3 ∨ rb = 4 := by omega
  rcases ha with ha | ha | ha | ha <;> rcases hb with hb | hb | hb | hb <;> subst ha <;>
    subst hb <;> first | decide | omega

theorem sortKey_lt_same_iff (r : Int) (na nb : String) (h0 : 0 ≤ r) (h4 : r ≤ 4) :
    sortKey r na < sortKey r nb ↔ na < nb := by
  rw [String.lt_iff_toList_lt, sortKey_data r h0 h4, sortKey_data r h0 h4,
    cons_lt_cons_self_iff, cons_lt_cons_self_iff, String.lt_iff_toList_lt]

theorem mem_matchedOrders (item : Decl) (ets : List (Option TypeNode)) (et : TypeNode) (d : Nat)
    (hmem : some et ∈ ets) (het : et.declRefDecl = some d)
    (hne : currentSortOrder item et d ≠ -1) :
    currentSortOrder item et d ∈ matchedOrders item ets := by
  unfold matchedOrders
  simp only [List.mem_filter, List.mem_filterMap, decide_eq_true_eq]
  exact ⟨⟨some et, hmem, by simp [het]⟩, hne⟩

theorem matchedOrders_pos_of_not_enum (item : Decl) (ets : List (Option TypeNode))
    (h : item.isEnumDecl = false) : ∀ x ∈ matchedOrders item ets, 1 ≤ x := by
  intro x hx
  unfold matchedOrders at hx
  simp only [List.mem_filter, List.mem_filterMap, decide_eq_true_eq] at hx
  obtain ⟨⟨et?, _, het⟩, hne⟩ := hx
  cases et? with
  | none => simp at het
  | some et =>
  cases hd : et.declRefDecl with
  | none => simp [hd] at het
  | some d =>
    simp only [hd, Option.map_some', Option.some.injEq, Option.some_bind] at het
    subst het
    have hv := matchType_cases item.type et d
    have hc := matchType_cases item.returnType et d
    unfold currentSortOrder at hne ⊢
    rw [h] at hne ⊢
    split_ifs at hne ⊢ <;> first | omega | contradiction

theorem sortOrderLoop_filter (item : Decl) (ets : List (Option TypeNode)) :
    ∀ r : Int, sortOrderLoop item (ets.filter isDeclRefType) r =
      sortOrderLoop item ets r := by
  induction ets with
  | nil => intro r; rfl
  | cons et? rest ih =>
    intro r
    cases et? with
    | none => simp [List.filter_cons, isDeclRefType, sortOrderLoop, ih]
    | some et =>
      cases hd : et.declRefDecl with
      | none => simp [List.filter_cons, isDeclRefType, hd, sortOrderLoop, ih]
      | some d => simp [List.filter_cons, isDeclRefType, hd, sortOrderLoop, ih]

theorem determine_filter (pm : Nat) (item : Decl) (ets : List (Option TypeNode)) :
    determineCompletionItemSortOrder pm item (ets.filter isDeclRefType) =
      determineCompletionItemSortOrder pm item ets := by
  unfold determineCompletionItemSortOrder
  rw [sortOrderLoop_filter]
  by_cases h1 : (ets.filter isDeclRefType).length = 0
  · have e : sortOrderLoop item ets (-1) = -1 := by
      rw [← sortOrderLoop_filter, List.length_eq_zero.1 h1]; rfl
    by_cases h2 : ets.length = 0
    · simp [h1, h2]
    · simp [h1, h2, e]
  · have h2 : ets.length ≠ 0 := by
      intro h2
      apply h1
      rw [List.length_eq_zero.1 h2]; rfl
    simp [h1, h2]

/-! ## Facts about the candidate collector -/

theorem sortKey_ne_empty (r : Int) (name : String) : sortKey r name ≠ "" := by
  intro h
  have h2 := congrArg String.length h
  simp only [sortKey, String.length_append] at h2
  have h3 : ":".length = 1 := rfl
  have h4 : "".length = 0 := rfl
  omega

theorem candidateLoop_length (ctx : CompletionContext) (ets : List (Option TypeNode))
    (cs : List LookupResultItem) :
    ∀ (i : Nat) (d : List String), (candidateLoop ctx ets cs i d).1.length = cs.length := by
  induction cs with
  | nil => intro i d; rfl
  | cons c rest ih => intro i d; simp [candidateLoop, ih]

theorem candidateLoop_get (ctx : CompletionContext) (ets : List (Option TypeNode))
    (cs : List LookupResultItem) :
    ∀ (i : Nat) (d : List String) (k : Nat) (out : CandidateOutput),
      (candidateLoop ctx ets cs i d).1.get? k = some out →
      ∃ c d0, cs.get? k = some c ∧ out = (processCandidate ctx ets d0 (i + k) c).1 := by
  induction cs with
  | nil => intro i d k out h; simp [candidateLoop] at h
  | cons c rest ih =>
    intro i d k out h
    cases k with
    | zero =>
      simp only [candidateLoop, List.get?_cons_zero, Option.some.injEq] at h
      exact ⟨c, d, rfl, h.symm⟩
    | succ k =>
      simp only [candidateLoop, List.get?_cons_succ] at h
      obtain ⟨c', d0, h1, h2⟩ := ih (i + 1) _ k out h
      refine ⟨c', d0, by simpa using h1, ?_⟩
      rw [h2]
      congr 2
      omega

theorem processCandidate_item (ctx : CompletionContext) (ets : List (Option TypeNode))
    (d : List String) (i : Nat) (c : LookupResultItem) (it : CompletionItem)
    (h : (processCandidate ctx ets d i c).1.item = some it) :
    candidateLabel ctx c = some it.label ∧ it.label ∉ d ∧
    (processCandidate ctx ets d i c).2 = it.label :: d ∧
    ∃ member, candidateMember c = some member ∧
      it = candidateItem ctx ets i member it.label := by
  unfold processCandidate at h ⊢
  unfold candidateLabel
  cases hdecl : c.decl with
  | none => simp [hdecl] at h
  | some decl =>
    cases hmem : candidateMember c with
    | none => simp [hdecl, hmem] at h
    | some member =>
      simp only [hdecl, hmem] at h ⊢
      by_cases h1 : member.name.isNone = true
      · simp [h1] at h
      · by_cases h2 : (formatDeclForCompletion decl c.inner ctx.formatMode
            ctx.indent).1.length = 0
        · simp [h1, h2] at h
        · by_cases h3 : skipsCandidate ctx member (candidateLabelText ctx decl c.inner) = true
          · simp [h1, h2, h3] at h
          · simp only [h1, h2, h3, if_false, Bool.false_eq_true] at h ⊢
            unfold deduplicateAdd at h ⊢
            by_cases h4 : candidateLabelText ctx decl c.inner ∈ d
            · simp [h4] at h
            · simp only [h4, if_false, Option.some.injEq] at h ⊢
              subst h
              exact ⟨rfl, h4, rfl, member, rfl, rfl⟩

theorem processCandidate_name_mode (ctx : CompletionContext) (ets : List (Option TypeNode))
    (d : List String) (i : Nat) (c : LookupResultItem) (hmode : ctx.formatMode = FormatMode.Name) :
    (processCandidate ctx ets d i c).1.staticItem = none ∧
    (processCandidate ctx ets d i c).1.typeItem = none := by
  have hs : ∀ decl, addsStatic ctx decl = false := by
    intro decl; simp [addsStatic, hmode]
  have hn : ∀ decl inner, candidateNameStart ctx decl inner = 0 := by
    intro decl inner
    simp [candidateNameStart, hs, hmode, formatDeclForCompletion]
  unfold processCandidate
  cases hdecl : c.decl with
  | none => simp
  | some decl =>
    cases hmem : candidateMember c with
    | none => simp
    | some member =>
      simp only [hs, hn, Bool.false_eq_true, if_false]
      split_ifs
      · simp
      · simp
      · simp
      · cases deduplicateAdd d (candidateLabelText ctx decl c.inner) with
        | none => simp
        | some d' => simp [returnTypeItem]

theorem processCandidate_skip (ctx : CompletionContext) (ets : List (Option TypeNode))
    (d : List String) (i : Nat) (c : LookupResultItem)
    (h : (processCandidate ctx ets d i c).1.item = none) :
    (processCandidate ctx ets d i c).2 = d := by
  unfold processCandidate at h ⊢
  cases hdecl : c.decl with
  | none => simp
  | some decl =>
    cases hmem : candidateMember c with
    | none => simp
    | some member =>
      simp only [hdecl, hmem] at h ⊢
      by_cases h1 : member.name.isNone = true
      · simp [h1]
      · by_cases h2 : (formatDeclForCompletion decl c.inner ctx.formatMode
            ctx.indent).1.length = 0
        · simp [h1, h2]
        · by_cases h3 : skipsCandidate ctx member (candidateLabelText ctx decl c.inner) = true
          · simp [h1, h2, h3]
          · simp only [h1, h2, h3, if_false, Bool.false_eq_true] at h ⊢
            cases hd : deduplicateAdd d (candidateLabelText ctx decl c.inner) with
            | none => simp
            | some d' => simp [hd] at h

theorem processCandidate_label_used (ctx : CompletionContext) (ets : List (Option TypeNode))
    (d : List String) (i : Nat) (c : LookupResultItem) (l : String)
    (h : candidateLabel ctx c = some l) :
    l ∈ (processCandidate ctx ets d i c).2 ∧
    (l ∉ d → ∃ it, (processCandidate ctx ets d i c).1.item = some it ∧ it.label = l) := by
  unfold candidateLabel at h
  unfold processCandidate
  cases hdecl : c.decl with
  | none => simp [hdecl] at h
  | some decl =>
    cases hmem : candidateMember c with
    | none => simp [hdecl, hmem] at h
    | some member =>
      simp only [hdecl, hmem] at h ⊢
      by_cases h1 : member.name.isNone = true
      · simp [h1] at h
      · by_cases h2 : (formatDeclForCompletion decl c.inner ctx.formatMode
            ctx.indent).1.length = 0
        · simp [h1, h2] at h
        · by_cases h3 : skipsCandidate ctx member (candidateLabelText ctx decl c.inner) = true
          · simp [h1, h2, h3] at h
          · simp only [h1, h2, h3, if_false, Bool.false_eq_true, Option.some.injEq] at h ⊢
            subst h
            unfold deduplicateAdd
            by_cases h4 : candidateLabelText ctx decl c.inner ∈ d
            · simp [h4]
            · simp [h4, candidateItem]

theorem processCandidate_mono (ctx : CompletionContext) (ets : List (Option TypeNode))
    (d : List String) (i : Nat) (c : LookupResultItem) (l : String) (h : l ∈ d) :
    l ∈ (processCandidate ctx ets d i c).2 := by
  cases hit : (processCandidate ctx ets d i c).1.item with
  | none => rw [processCandidate_skip ctx ets d i c hit]; exact h
  | some it =>
    obtain ⟨-, -, h3, -⟩ := processCandidate_item ctx ets d i c it hit
    rw [h3]; exact List.mem_cons_of_mem _ h

/-- The items of the candidates themselves, in candidate order. -/
theorem candidateLoop_invariant (ctx : CompletionContext) (ets : List (Option TypeNode))
    (cs : List LookupResultItem) :
    ∀ (i : Nat) (d : List String),
      (∀ l, l ∈ (candidateLoop ctx ets cs i d).2 ↔
        l ∈ d ∨ l ∈ ((candidateLoop ctx ets cs i d).1.filterMap
          (fun o => o.item)).map (fun it => it.label)) ∧
      (((candidateLoop ctx ets cs i d).1.filterMap
          (fun o => o.item)).map (fun it => it.label)).Nodup ∧
      (∀ l ∈ ((candidateLoop ctx ets cs i d).1.filterMap
          (fun o => o.item)).map (fun it => it.label), l ∉ d) := by
  induction cs with
  | nil => intro i d; simp [candidateLoop]
  | cons c rest ih =>
    intro i d
    obtain ⟨ih1, ih2, ih3⟩ := ih (i + 1) (processCandidate ctx ets d i c).2
    simp only [candidateLoop]
    cases hit : (processCandidate ctx ets d i c).1.item with
    | none =>
      have hd := processCandidate_skip ctx ets d i c hit
      rw [hd] at ih1 ih2 ih3 ⊢
      simp only [List.filterMap_cons, hit]
      exact ⟨ih1, ih2, ih3⟩
    | some it =>
      obtain ⟨-, hnot, hd, -⟩ := processCandidate_item ctx ets d i c it hit
      simp only [List.filterMap_cons, hit, List.map_cons]
      refine ⟨?_, ?_, ?_⟩
      · intro l
        rw [ih1 l, hd]
        simp only [List.mem_cons]
        tauto
      · rw [List.nodup_cons]
        refine ⟨?_, ih2⟩
        intro hmem
        exact ih3 _ hmem (by rw [hd]; exact List.mem_cons_self _ _)
      · intro l hl
        rcases List.mem_cons.1 hl with hl | hl
        · rw [hl]; exact hnot
        · intro hld
          exact ih3 l hl (by rw [hd]; exact List.mem_cons_of_mem _ hld)

theorem candidateLoop_first (ctx : CompletionContext) (ets : List (Option TypeNode))
    (cs : List LookupResultItem) :
    ∀ (i : Nat) (d : List String) (k : Nat) (out : CandidateOutput) (it : CompletionItem),
      (candidateLoop ctx ets cs i d).1.get? k = some out → out.item = some it →
      it.data = toString (i + k) ∧
      (∃ c member, cs.get? k = some c ∧ candidateMember c = some member ∧
        candidateLabel ctx c = some it.label ∧
        it = candidateItem ctx ets (i + k) member it.label) ∧
      ∀ j c', j < k → cs.get? j = some c' → candidateLabel ctx c' ≠ some it.label := by
  induction cs with
  | nil => intro i d k out it h; simp [candidateLoop] at h
  | cons c rest ih =>
    intro i d k out it h hit
    cases k with
    | zero =>
      simp only [candidateLoop, List.get?_cons_zero, Option.some.injEq] at h
      subst h
      obtain ⟨h1, -, -, member, h4, h5⟩ := processCandidate_item ctx ets d i c it hit
      refine ⟨by rw [h5]; rfl, ⟨c, member, rfl, h4, h1, h5⟩, ?_⟩
      intro j c' hj
      omega
    | succ k =>
      simp only [candidateLoop, List.get?_cons_succ] at h
      obtain ⟨h1, h2, h3⟩ := ih (i + 1) _ k out it h hit
      have e : i + 1 + k = i + (k + 1) := by omega
      rw [e] at h1 h2
      refine ⟨h1, by simpa using h2, ?_⟩
      intro j c' hj hc'
      cases j with
      | zero =>
        simp only [List.get?_cons_zero, Option.some.injEq] at hc'
        subst hc'
        intro hlab
        have hused := (processCandidate_label_used ctx ets d i c it.label hlab).1
        obtain ⟨-, -, inv3⟩ :=
          candidateLoop_invariant ctx ets rest (i + 1) (processCandidate ctx ets d i c).2
        apply inv3 it.label _ hused
        simp only [List.mem_map, List.mem_filterMap]
        exact ⟨it, ⟨out, List.get?_mem h, hit⟩, rfl⟩
      | succ j =>
        simp only [List.get?_cons_succ] at hc'
        exact h3 j c' (by omega) hc'

theorem keywordLoop_invariant (kws : List String) :
    ∀ d : List String,
      (∀ l, l ∈ (keywordLoop kws d).2 ↔
        l ∈ d ∨ l ∈ (keywordLoop kws d).1.map (fun it => it.label)) ∧
      ((keywordLoop kws d).1.map (fun it => it.label)).Nodup ∧
      (∀ l ∈ (keywordLoop kws d).1.map (fun it => it.label), l ∉ d ∧ l ∈ kws) ∧
      (∀ it ∈ (keywordLoop kws d).1, it = keywordItem it.label) := by
  induction kws with
  | nil => intro d; simp [keywordLoop]
  | cons kw rest ih =>
    intro d
    unfold keywordLoop deduplicateAdd
    by_cases hin : kw ∈ d
    · simp only [hin, if_true]
      obtain ⟨a, b, c, e⟩ := ih d
      exact ⟨a, b, fun l hl => ⟨(c l hl).1, List.mem_cons_of_mem _ (c l hl).2⟩, e⟩
    · simp only [hin, if_false]
      obtain ⟨a, b, c, e⟩ := ih (kw :: d)
      refine ⟨?_, ?_, ?_, ?_⟩
      · intro l
        rw [a l]
        simp only [List.map_cons, List.mem_cons, keywordItem]
        tauto
      · simp only [List.map_cons]
        rw [List.nodup_cons]
        refine ⟨?_, b⟩
        intro hmem
        exact (c _ hmem).1 (List.mem_cons_self _ _)
      · intro l hl
        simp only [List.map_cons, List.mem_cons] at hl
        rcases hl with hl | hl
        · rw [hl]; exact ⟨hin, List.mem_cons_self _ _⟩
        · exact ⟨fun hld => (c l hl).1 (List.mem_cons_of_mem _ hld),
            List.mem_cons_of_mem _ (c l hl).2⟩
      · intro it hit
        rcases List.mem_cons.1 hit with hit | hit
        · rw [hit]; rfl
        · exact e it hit

theorem digitChar_ne_minus (k : Nat) (hk : k < 10) : Nat.digitChar k ≠ '-' := by
  interval_cases k <;> decide

theorem toDigitsCore_no_minus (fuel : Nat) :
    ∀ (n : Nat) (ds : List Char), (∀ c ∈ ds, c ≠ '-') →
      ∀ c ∈ Nat.toDigitsCore 10 fuel n ds, c ≠ '-' := by
  induction fuel with
  | zero => intro n ds hds c hc; exact hds c (by simpa [Nat.toDigitsCore] using hc)
  | succ fuel ih =>
    intro n ds hds c hc
    have hcons : ∀ c ∈ Nat.digitChar (n % 10) :: ds, c ≠ '-' := by
      intro c hc
      rcases List.mem_cons.1 hc with h | h
      · rw [h]; exact digitChar_ne_minus _ (Nat.mod_lt _ (by decide))
      · exact hds c h
    simp only [Nat.toDigitsCore] at hc
    split_ifs at hc
    · exact hcons c hc
    · exact ih _ _ hcons c hc

theorem toString_nat_ne_sentinel (i : Nat) : toString i ≠ "-1" := by
  intro h
  have h1 : (toString i).data = ['-', '1'] := by rw [h]
  have h2 : (toString i).data = Nat.toDigits 10 i := rfl
  rw [h2] at h1
  have h3 : '-' ∈ Nat.toDigitsCore 10 (i + 1) i [] := by
    have h4 : Nat.toDigitsCore 10 (i + 1) i [] = ['-', '1'] := h1
    rw [h4]
    exact List.mem_cons_self _ _
  exact toDigitsCore_no_minus (i + 1) i [] (fun c hc => absurd hc (List.not_mem_nil c)) '-' h3 rfl

theorem withoutCommitChars_addCommitChars (cc : List String) (xs : List CompletionItem) :
    (addCommitChars cc xs).map withoutCommitChars = xs.map withoutCommitChars := by
  simp [addCommitChars, withoutCommitChars, List.map_map, Function.comp_def]

theorem candidateItem_withoutCommitChars (ctx : CompletionContext)
    (ets : List (Option TypeNode)) (i : Nat) (member : Decl) (label : String) :
    withoutCommitChars (candidateItem ctx ets i member label) =
      candidateItem ctx ets i member label := rfl

theorem keywordItem_withoutCommitChars (label : String) :
    withoutCommitChars (keywordItem label) = keywordItem label := rfl

theorem candidateLoop_name_flatten (ctx : CompletionContext) (ets : List (Option TypeNode))
    (hmode : ctx.formatMode = FormatMode.Name) (cs : List LookupResultItem) :
    ∀ (i : Nat) (d : List String),
      ((candidateLoop ctx ets cs i d).1.map CandidateOutput.items).flatten =
        (candidateLoop ctx ets cs i d).1.filterMap (fun o => o.item) := by
  induction cs with
  | nil => intro i d; rfl
  | cons c rest ih =>
    intro i d
    obtain ⟨h1, h2⟩ := processCandidate_name_mode ctx ets d i c hmode
    simp only [candidateLoop, List.map_cons, List.flatten_cons, List.filterMap_cons, ih]
    cases hit : (processCandidate ctx ets d i c).1.item with
    | none => simp [CandidateOutput.items, h1, h2, hit]
    | some it => simp [CandidateOutput.items, h1, h2, hit]

/-- The response in a scope with keywords and the format mode `Name`, up to the
commit characters: the items of the candidates, then the keyword items, then
the macro items. -/
theorem collect_keyword_scope (ctx : CompletionContext)
    (hscope : ctx.scopeKind = ScopeKind.Expr ∨ ctx.scopeKind = ScopeKind.Decl ∨
      ctx.scopeKind = ScopeKind.Stmt)
    (hmode : ctx.formatMode = FormatMode.Name) :
    (collectMembersAndSymbols ctx).map withoutCommitChars =
      ((candidateOutputs ctx).filterMap (fun o => o.item) ++
        (keywordLoop (if ctx.scopeKind = ScopeKind.Decl then kDeclKeywords else kStmtKeywords)
          (candidateLoop ctx (getExpectedTypesAtCompletion ctx.lookupResults)
            ctx.candidateItems 0 []).2).1 ++
        (macroLoop ctx.macroDefinitions
          (keywordLoop (if ctx.scopeKind = ScopeKind.Decl then kDeclKeywords else kStmtKeywords)
            (candidateLoop ctx (getExpectedTypesAtCompletion ctx.lookupResults)
              ctx.candidateItems 0 []).2).2).1).map withoutCommitChars := by
  have hflat := candidateLoop_name_flatten ctx (getExpectedTypesAtCompletion ctx.lookupResults)
    hmode ctx.candidateItems 0 []
  have hcap : ctx.scopeKind ≠ ScopeKind.Capabilities := by
    rcases hscope with h | h | h <;> rw [h] <;> decide
  have hswz : ctx.scopeKind ≠ ScopeKind.Swizzle := by
    rcases hscope with h | h | h <;> rw [h] <;> decide
  have hret : returnsBeforeLoop ctx.scopeKind = false := by
    rcases hscope with h | h | h <;> rw [h] <;> rfl
  have hkw : addKeywords ctx = true := by
    unfold addKeywords
    rcases hscope with h | h | h <;> rw [h, hmode]
  unfold collectMembersAndSymbols candidateOutputs
  simp only [hcap, hswz, hret, hkw, hflat, if_false, if_true, Bool.false_eq_true,
    List.nil_append]
  cases useCommitChars ctx <;>
    simp only [if_true, if_false, Bool.false_eq_true, withoutCommitChars_addCommitChars]

theorem filter_length_eq_count_map {α : Type} (f : α → String) (l : String) (xs : List α) :
    (xs.filter (fun x => decide (f x = l))).length = (xs.map f).count l := by
  induction xs with
  | nil => rfl
  | cons x rest ih =>
    by_cases h : f x = l
    · simp [List.filter_cons, h, ih]
    · simp [List.filter_cons, h, ih, List.count_cons, beq_iff_eq]

/-- The labels of the candidate items, of the keyword items and of the macro items
of one response are pairwise distinct. -/
theorem keyword_scope_labels_nodup (ctx : CompletionContext) (ets : List (Option TypeNode))
    (kws : List String) (macros : List (Option String)) :
    (((candidateLoop ctx ets ctx.candidateItems 0 []).1.filterMap (fun o => o.item) ++
        (keywordLoop kws (candidateLoop ctx ets ctx.candidateItems 0 []).2).1 ++
        (macroLoop macros
          (keywordLoop kws (candidateLoop ctx ets ctx.candidateItems 0 []).2).2).1).map
      (fun it => it.label)).Nodup := by
  obtain ⟨a1, a2, -⟩ := candidateLoop_invariant ctx ets ctx.candidateItems 0 []
  obtain ⟨b1, b2, b3, -⟩ :=
    keywordLoop_invariant kws (candidateLoop ctx ets ctx.candidateItems 0 []).2
  obtain ⟨-, c2, c3, -⟩ := keywordLoop_invariant (macros.filterMap id)
    (keywordLoop kws (candidateLoop ctx ets ctx.candidateItems 0 []).2).2
  simp only [List.map_append]
  rw [List.nodup_append]
  refine ⟨?_, c2, ?_⟩
  · rw [List.nodup_append]
    refine ⟨a2, b2, ?_⟩
    intro l h1 h2
    exact (b3 l h2).1 ((a1 l).2 (Or.inr h1))
  · intro l h1 h2
    apply (c3 l h2).1
    rw [b1 l]
    rcases List.mem_append.1 h1 with h | h
    · exact Or.inl ((a1 l).2 (Or.inr h))
    · exact Or.inr h

theorem map_label_withoutCommitChars (xs : List CompletionItem) :
    (xs.map withoutCommitChars).map (fun it => it.label) = xs.map (fun it => it.label) := by
  simp [withoutCommitChars, List.map_map, Function.comp_def]

theorem mains_sublist_items (outs : List CandidateOutput) :
    List.Sublist (outs.filterMap (fun o => o.item))
      (outs.map CandidateOutput.items).flatten := by
  induction outs with
  | nil => exact List.Sublist.refl _
  | cons o rest ih =>
    simp only [List.map_cons, List.flatten_cons, List.filterMap_cons]
    have h1 : List.Sublist o.item.toList o.items := by
      unfold CandidateOutput.items
      exact (List.sublist_append_right _ _).trans (List.sublist_append_left _ _)
    cases ho : o.item with
    | none =>
      simp only
      exact ih.trans (List.sublist_append_right _ _)
    | some it =>
      simp only
      rw [ho] at h1
      exact List.Sublist.append h1 ih

/-- The response in a scope in which the loop over the candidates runs, up to the
commit characters: the items of the loop, after the swizzle items and before the
keyword and macro items. -/
theorem collect_loop_scope (ctx : CompletionContext)
    (hscope : ctx.scopeKind = ScopeKind.Member ∨ ctx.scopeKind = ScopeKind.Swizzle ∨
      ctx.scopeKind = ScopeKind.Expr ∨ ctx.scopeKind = ScopeKind.Decl ∨
      ctx.scopeKind = ScopeKind.Stmt) :
    ∃ pre post, (collectMembersAndSymbols ctx).map withoutCommitChars =
      (pre ++ ((candidateOutputs ctx).map CandidateOutput.items).flatten ++ post).map
        withoutCommitChars := by
  have hcap : ctx.scopeKind ≠ ScopeKind.Capabilities := by
    rcases hscope with h | h | h | h | h <;> rw [h] <;> decide
  have hret : returnsBeforeLoop ctx.scopeKind = false := by
    rcases hscope with h | h | h | h | h <;> rw [h] <;> rfl
  unfold collectMembersAndSymbols candidateOutputs
  simp only [hcap, hret, if_false, Bool.false_eq_true]
  cases addKeywords ctx <;> cases useCommitChars ctx <;>
    simp only [if_true, if_false, Bool.false_eq_true, withoutCommitChars_addCommitChars]
  · exact ⟨_, [], by rw [List.append_nil]⟩
  · exact ⟨_, [], by rw [List.append_nil]⟩
  · exact ⟨_, _, by rw [List.append_assoc]⟩
  · exact ⟨_, _, by rw [List.append_assoc]⟩

/-! ## Facts about the scanning loops of path completion -/

theorem charAt_ofNat (s : List Char) (p : Nat) (c : Char) (h : s.get? p = some c) :
    charAt s (p : Int) = Except.ok c := by
  unfold charAt
  have h0 : ¬ ((p : Int) < 0) := by omega
  have h1 : (p : Int).toNat = p := by omega
  rw [if_neg h0, h1, h]

theorem drop_eq_cons_of_get? (s : List Char) (p : Nat) (c : Char) (h : s.get? p = some c) :
    s.drop p = c :: s.drop (p + 1) := by
  have hlt : p < s.length := (List.get?_eq_some.1 h).1
  have hc : s[p] = c := (List.get?_eq_some.1 h).2
  rw [← hc]
  exact List.drop_eq_getElem_cons hlt

theorem firstStopFrom_le (stop : Char → Bool) (s : List Char) (start : Nat)
    (h : start ≤ s.length) : firstStopFrom stop s start ≤ s.length := by
  unfold firstStopFrom
  have h1 : ((s.drop start).takeWhile (fun c => !stop c)).length ≤ (s.drop start).length :=
    (List.takeWhile_sublist _).length_le
  rw [List.length_drop] at h1
  omega

theorem le_firstStopFrom (stop : Char → Bool) (s : List Char) (start : Nat) :
    start ≤ firstStopFrom stop s start := by
  unfold firstStopFrom; omega

theorem scanForward_eq (stop : Char → Bool) (s : List Char) (fuel : Nat) :
    ∀ p : Nat, 1 ≤ fuel → s.length + 1 ≤ p + fuel →
      scanForward stop s fuel (p : Int) = Except.ok ((firstStopFrom stop s p : Nat) : Int) := by
  induction fuel with
  | zero =>
    intro p h1 h
    omega
  | succ fuel ih =>
    intro p _ h
    unfold scanForward
    by_cases hlt : p < s.length
    · have hlt' : (p : Int) < (s.length : Int) := by omega
      obtain ⟨c, hc⟩ : ∃ c, s.get? p = some c := ⟨s[p], List.get?_eq_get hlt⟩
      rw [if_pos hlt', charAt_ofNat s p c hc]
      have hdrop := drop_eq_cons_of_get? s p c hc
      by_cases hstop : stop c = true
      · simp [hstop, firstStopFrom, hdrop]
      · have hrec := ih (p + 1) (by omega) (by omega)
        have hcast : ((p : Int) + 1) = ((p + 1 : Nat) : Int) := by omega
        simp only [hstop, Bool.false_eq_true, if_false, hcast, hrec]
        simp [firstStopFrom, hdrop, hstop]
        omega
    · have hlt' : ¬ (p : Int) < (s.length : Int) := by omega
      rw [if_neg hlt']
      have : s.drop p = [] := List.drop_eq_nil_of_le (by omega)
      simp [firstStopFrom, this]

theorem scanBackToSeparator_eq (s : List Char) (pos sep : Nat) (hsep : pos ≤ sep)
    (hc : ∃ c, s.get? sep = some c ∧ (c = '/' ∨ c = '\\')) :
    ∀ (n fuel : Nat), n + 1 ≤ fuel →
      (∀ k : Nat, sep < k → k ≤ sep + n →
        ∃ c, s.get? k = some c ∧ c ≠ '/' ∧ c ≠ '\\' ∧ c ≠ '\"' ∧ c ≠ '>') →
      scanBackToSeparator s fuel (pos : Int) ((sep + n : Nat) : Int) =
        Except.ok (sep : Int) := by
  intro n
  induction n with
  | zero =>
    intro fuel hf _
    obtain ⟨c, hget, hcs⟩ := hc
    cases fuel with
    | zero => omega
    | succ fuel =>
      unfold scanBackToSeparator
      have h1 : ((sep + 0 : Nat) : Int) ≥ (pos : Int) := by omega
      rw [if_pos h1, Nat.add_zero, charAt_ofNat s sep c hget]
      simp [hcs]
  | succ n ih =>
    intro fuel hf hall
    cases fuel with
    | zero => omega
    | succ fuel =>
      unfold scanBackToSeparator
      have h1 : ((sep + (n + 1) : Nat) : Int) ≥ (pos : Int) := by omega
      obtain ⟨c, hget, h2, h3, h4, h5⟩ := hall (sep + (n + 1)) (by omega) (by omega)
      rw [if_pos h1, charAt_ofNat s _ c hget]
      have hcast : ((sep + (n + 1) : Nat) : Int) - 1 = ((sep + n : Nat) : Int) := by omega
      simp only [h2, h3, h4, h5, or_self, if_false, hcast]
      exact ih fuel (by omega) (fun k hk1 hk2 => hall k hk1 (by omega))

theorem firstStopFrom_eq (stop : Char → Bool) (s : List Char) (q : Nat)
    (hq : ∃ c, s.get? q = some c ∧ stop c = true) :
    ∀ (n start : Nat), start + n = q →
      (∀ k c, start ≤ k → k < q → s.get? k = some c → stop c = false) →
      firstStopFrom stop s start = q := by
  intro n
  induction n with
  | zero =>
    intro start h _
    obtain ⟨c, hget, hstop⟩ := hq
    have : start = q := by omega
    subst this
    simp [firstStopFrom, drop_eq_cons_of_get? s start c hget, hstop]
  | succ n ih =>
    intro start h hall
    have hlt : start < s.length := by
      obtain ⟨c, hget, -⟩ := hq
      have := (List.get?_eq_some.1 hget).1
      omega
    have hget : s.get? start = some s[start] := List.get?_eq_get hlt
    have hns := hall start s[start] (le_refl _) (by omega) hget
    have hrec := ih (start + 1) (by omega) (fun k c h1 h2 h3 => hall k c (by omega) h2 h3)
    unfold firstStopFrom at hrec ⊢
    rw [drop_eq_cons_of_get? s start _ hget]
    simp only [List.takeWhile_cons, hns, Bool.not_false, if_true, List.length_cons]
    omega

theorem firstStopFrom_spec (stop : Char → Bool) (s : List Char) :
    ∀ (n start : Nat), start + n = s.length →
      (∀ k c, start ≤ k → k < firstStopFrom stop s start → s.get? k = some c →
        stop c = false) ∧
      (firstStopFrom stop s start < s.length →
        ∃ c, s.get? (firstStopFrom stop s start) = some c ∧ stop c = true) := by
  intro n
  induction n with
  | zero =>
    intro start h
    have hd : s.drop start = [] := List.drop_eq_nil_of_le (by omega)
    have e : firstStopFrom stop s start = start := by simp [firstStopFrom, hd]
    rw [e]
    exact ⟨fun k c h1 h2 _ => by omega, fun h2 => by omega⟩
  | succ n ih =>
    intro start h
    have hlt : start < s.length := by omega
    have hget : s.get? start = some s[start] := List.get?_eq_get hlt
    have hdrop := drop_eq_cons_of_get? s start _ hget
    by_cases hstop : stop s[start] = true
    · have e : firstStopFrom stop s start = start := by
        unfold firstStopFrom
        rw [hdrop]
        simp only [List.takeWhile_cons, hstop, Bool.not_true, Bool.false_eq_true, if_false,
          List.length_nil, Nat.add_zero]
      rw [e]
      exact ⟨fun k c h1 h2 _ => by omega, fun _ => ⟨s[start], hget, hstop⟩⟩
    · have e : firstStopFrom stop s start = firstStopFrom stop s (start + 1) := by
        unfold firstStopFrom
        rw [hdrop]
        simp only [List.takeWhile_cons, hstop, Bool.not_false, if_true, List.length_cons]
        omega
      rw [e]
      obtain ⟨i1, i2⟩ := ih (start + 1) (by omega)
      refine ⟨fun k c h1 h2 h3 => ?_, i2⟩
      by_cases hk : k = start
      · subst hk
        rw [hget] at h3
        simp only [Option.some.injEq] at h3
        rw [← h3]
        simpa using hstop
      · exact i1 k c (by omega) h2 h3

theorem castInt32_eq (x : Int) (h0 : -2147483648 ≤ x) (h1 : x < 2147483648) :
    castInt32 x = x := by
  unfold castInt32
  omega

theorem scan_items_textEdit (env : PathContext) (pfxPath : String)
    (translateModuleName isImportString : Bool)
    (lineIndex fileNameEnd sectionStart sectionEnd : Int) (closingChar : Option Char) :
    ∀ item ∈ gatherFileAndModuleCompletionItems env pfxPath translateModuleName
        isImportString lineIndex fileNameEnd sectionStart sectionEnd closingChar,
      ∃ raw ∈ (scanAllSearchPaths env pfxPath translateModuleName isImportString).enumeration.items,
        item.label = raw.label ∧ item.kind = raw.kind ∧
        item.textEdit = (setTextEdit translateModuleName lineIndex fileNameEnd sectionStart
          sectionEnd closingChar raw).textEdit := by
  intro item hitem
  unfold gatherFileAndModuleCompletionItems at hitem
  simp only at hitem
  split_ifs at hitem
  · simp only [List.mem_map] at hitem
    obtain ⟨x, ⟨raw, hraw, hx⟩, hitem⟩ := hitem
    refine ⟨raw, hraw, ?_⟩
    subst hitem; subst hx
    unfold setTextEdit
    split_ifs <;> exact ⟨rfl, rfl, rfl⟩
  · simp only [List.mem_map] at hitem
    obtain ⟨raw, hraw, hx⟩ := hitem
    refine ⟨raw, hraw, ?_⟩
    subst hx
    unfold setTextEdit
    split_ifs <;> exact ⟨rfl, rfl, rfl⟩

theorem raw_items_textEdit (env : PathContext) (pfxPath : String) (isImportString : Bool)
    (lineIndex fileNameEnd sectionStart sectionEnd : Int) (closingChar : Char) :
    ∀ item ∈ gatherFileAndModuleCompletionItems env pfxPath false isImportString lineIndex
        fileNameEnd sectionStart sectionEnd (some closingChar),
      item.textEdit.startCharacter = castInt32 sectionStart ∧
      (item.kind = CompletionItemKind.File →
        item.textEdit.endCharacter = castInt32 fileNameEnd ∧
        item.textEdit.newText = item.label ++ String.mk [closingChar]) ∧
      (item.kind ≠ CompletionItemKind.File →
        item.textEdit.endCharacter = castInt32 sectionEnd ∧
        item.textEdit.newText = item.label) := by
  intro item hitem
  obtain ⟨raw, -, hl, hk, ht⟩ := scan_items_textEdit env pfxPath false isImportString
    lineIndex fileNameEnd sectionStart sectionEnd (some closingChar) item hitem
  rw [ht, hl, hk]
  unfold setTextEdit
  by_cases hf : raw.kind = CompletionItemKind.File
  · simp [hf]
  · simp [hf]

theorem rawFileNameArguments_ok (env : PathContext) (lineContent : List Char) (pos : Int)
    (a : RawFileNameArguments) (h : rawFileNameArguments env lineContent pos = Except.ok a) :
    2 ≤ env.col ∧
    a.lineIndex = env.line - 1 ∧
    a.sectionEnd = (firstStopFrom endsRawSection lineContent (env.col - 1).toNat : Nat) ∧
    a.fileNameEnd = (firstStopFrom (fun c => c = ';') lineContent
      (firstStopFrom endsRawSection lineContent (env.col - 1).toNat) : Nat) ∧
    (a.closingChar = '\"' ∨ a.closingChar = '>') := by
  unfold rawFileNameArguments at h
  split at h
  · exact absurd h (by simp)
  · rename_i openPos _
    split at h
    · exact absurd h (by simp)
    · rename_i openChar _
      simp only at h
      by_cases hcol : env.col - 2 < 0
      · rw [if_pos hcol] at h; exact absurd h (by simp)
      · rw [if_neg hcol] at h
        split at h
        · exact absurd h (by simp)
        · rename_i lastPos _
          have hcol1 : ¬ env.col - 1 < 0 := by omega
          rw [if_neg hcol1] at h
          have hcast : env.col - 1 = (((env.col - 1).toNat : Nat) : Int) := by omega
          have hse := scanForward_eq endsRawSection lineContent (lineContent.length + 1)
            (env.col - 1).toNat (by omega) (by omega)
          rw [← hcast] at hse
          rw [hse] at h
          simp only at h
          have hfe := scanForward_eq (fun c => decide (c = ';')) lineContent
            (lineContent.length + 1)
            (firstStopFrom endsRawSection lineContent (env.col - 1).toNat) (by omega) (by omega)
          rw [hfe] at h
          simp only at h
          split at h
          · exact absurd h (by simp)
          · simp only [Except.ok.injEq] at h
            subst h
            refine ⟨by omega, rfl, rfl, rfl, ?_⟩
            simp only
            split_ifs <;> simp

theorem entryLabel_kind (tm imp : Bool) (pathType : PathType) (name label : String)
    (kind : CompletionItemKind) (h : entryLabel tm imp pathType name = some (label, kind)) :
    (pathType = PathType.Directory ∧ kind = CompletionItemKind.Folder) ∨
    (pathType = PathType.File ∧ kind = CompletionItemKind.File) := by
  unfold entryLabel at h
  cases pathType with
  | Directory =>
    simp only at h
    split_ifs at h
    simp only [Option.some.injEq, Prod.mk.injEq] at h
    exact Or.inl ⟨rfl, h.2.symm⟩
  | File =>
    simp only at h
    split_ifs at h
    all_goals (
      split at h
      · exact absurd h (by simp)
      · simp only [Option.some.injEq, Prod.mk.injEq] at h
        exact Or.inr ⟨rfl, h.2.symm⟩)

theorem enumerationCallback_kinds (env : PathContext) (root : String) (tm imp : Bool)
    (path : String) (st : EnumerationState) (entry : PathType × String)
    (h : ∀ it ∈ st.items, it.kind = CompletionItemKind.Folder ∨ it.kind = CompletionItemKind.File) :
    ∀ it ∈ (enumerationCallback env root tm imp path st entry).items,
      it.kind = CompletionItemKind.Folder ∨ it.kind = CompletionItemKind.File := by
  unfold enumerationCallback
  cases hl : entryLabel tm imp entry.1 entry.2 with
  | none => exact h
  | some lk =>
    obtain ⟨label, kind⟩ := lk
    have hk := entryLabel_kind tm imp entry.1 entry.2 label kind hl
    simp only
    split_ifs
    · exact h
    · exact h
    · intro it hit
      simp only [List.mem_append, List.mem_singleton] at hit
      rcases hit with hit | hit
      · exact h it hit
      · subst hit
        rcases hk with hk | hk
        · exact Or.inl hk.2
        · exact Or.inr hk.2
    · intro it hit
      simp only [List.mem_append, List.mem_singleton] at hit
      rcases hit with hit | hit
      · exact h it hit
      · subst hit
        rcases hk with hk | hk
        · exact Or.inl hk.2
        · exact Or.inr hk.2

theorem foldl_callback_kinds (env : PathContext) (root : String) (tm imp : Bool)
    (path : String) (entries : List (PathType × String)) :
    ∀ st : EnumerationState,
      (∀ it ∈ st.items, it.kind = CompletionItemKind.Folder ∨ it.kind = CompletionItemKind.File) →
      ∀ it ∈ (entries.foldl (enumerationCallback env root tm imp path) st).items,
        it.kind = CompletionItemKind.Folder ∨ it.kind = CompletionItemKind.File := by
  induction entries with
  | nil => intro st h; exact h
  | cons e rest ih =>
    intro st h
    exact ih _ (enumerationCallback_kinds env root tm imp path st e h)

theorem scanSearchPaths_kinds (env : PathContext) (root : String) (pfx : List Char)
    (tm imp : Bool) (paths : List String) :
    ∀ st : ScanState,
      (∀ it ∈ st.enumeration.items,
        it.kind = CompletionItemKind.Folder ∨ it.kind = CompletionItemKind.File) →
      ∀ it ∈ (scanSearchPaths env root pfx tm imp paths st).enumeration.items,
        it.kind = CompletionItemKind.Folder ∨ it.kind = CompletionItemKind.File := by
  induction paths with
  | nil => intro st h; exact h
  | cons p rest ih =>
    intro st h
    unfold scanSearchPaths
    split_ifs
    · exact h
    · apply ih
      simp only
      unfold addCandidate
      split_ifs
      · exact foldl_callback_kinds env root tm imp _ _ _ h
      · exact h

theorem scanAllSearchPaths_kinds (env : PathContext) (pfxPath : String) (tm imp : Bool) :
    ∀ it ∈ (scanAllSearchPaths env pfxPath tm imp).enumeration.items,
      it.kind = CompletionItemKind.Folder ∨ it.kind = CompletionItemKind.File := by
  unfold scanAllSearchPaths
  simp only
  have h0 := scanSearchPaths_kinds env (workspaceRootOf env)
    (stripParentSegments pfxPath.length pfxPath.data) tm imp env.additionalSearchPaths {}
    (fun it hit => absurd hit (List.not_mem_nil it))
  split_ifs
  · exact scanSearchPaths_kinds env _ _ tm imp env.workspaceSearchPaths _ h0
  · exact h0

theorem gather_kinds (env : PathContext) (pfxPath : String) (tm imp : Bool)
    (lineIndex fileNameEnd sectionStart sectionEnd : Int) (closingChar : Option Char) :
    ∀ item ∈ gatherFileAndModuleCompletionItems env pfxPath tm imp lineIndex fileNameEnd
        sectionStart sectionEnd closingChar,
      item.kind = CompletionItemKind.Folder ∨ item.kind = CompletionItemKind.File := by
  intro item hitem
  obtain ⟨raw, hraw, -, hk, -⟩ := scan_items_textEdit env pfxPath tm imp lineIndex fileNameEnd
    sectionStart sectionEnd closingChar item hitem
  rw [hk]
  exact scanAllSearchPaths_kinds env pfxPath tm imp raw hraw

/-! ## Facts about the swizzle generator -/

theorem mathMin_castInt32 (n : Int) (hlo : -2147483648 ≤ n) (hhi : n < 2147483648) :
    mathMin (castInt32 n) 4 = min n 4 := by
  rw [castInt32_eq n hlo hhi]
  unfold mathMin
  split_ifs <;> omega

theorem matrixRowItems_labels (typeStr : String) (i : Nat) (js : List Nat) :
    (matrixRowItems typeStr i js).map (fun it => it.label) =
      (js.map (fun j =>
        ["_m" ++ toString i ++ toString j, "_" ++ toString (i + 1) ++ toString (j + 1)])).flatten := by
  induction js with
  | nil => rfl
  | cons j rest ih =>
    simp only [matrixRowItems, List.map_cons, List.flatten_cons, ih, swizzleItem]
    rfl

theorem matrixRowItems_mem (typeStr : String) (i : Nat) (js : List Nat) :
    ∀ it ∈ matrixRowItems typeStr i js,
      it.kind = CompletionItemKind.Variable ∧ it.detail = typeStr ∧ it.commitCharacters = [] := by
  induction js with
  | nil => intro it h; simp [matrixRowItems] at h
  | cons j rest ih =>
    intro it h
    simp only [matrixRowItems, List.mem_cons] at h
    rcases h with h | h | h
    · subst h; exact ⟨rfl, rfl, rfl⟩
    · subst h; exact ⟨rfl, rfl, rfl⟩
    · exact ih it h

theorem matrixItems_labels (typeStr : String) (rows : List Nat) (js : List Nat) :
    ((rows.map (fun i => matrixRowItems typeStr i js)).flatten).map (fun it => it.label) =
      (rows.map (fun i => (js.map (fun j =>
        ["_m" ++ toString i ++ toString j,
         "_" ++ toString (i + 1) ++ toString (j + 1)])).flatten)).flatten := by
  induction rows with
  | nil => rfl
  | cons i rest ih =>
    simp only [List.map_cons, List.flatten_cons, List.map_append, ih, matrixRowItems_labels]

theorem matrix_labels_small (a b : Nat) (ha : a ≤ 4) (hb : b ≤ 4) :
    ((List.range a).map (fun i => ((List.range b).map (fun j =>
        ["_m" ++ toString i ++ toString j,
         "_" ++ toString (i + 1) ++ toString (j + 1)])).flatten)).flatten.length = 2 * a * b ∧
    ((List.range a).map (fun i => ((List.range b).map (fun j =>
        ["_m" ++ toString i ++ toString j,
         "_" ++ toString (i + 1) ++ toString (j + 1)])).flatten)).flatten.Nodup := by
  interval_cases a <;> interval_cases b <;> exact ⟨by decide, by decide⟩

/-! ## Facts about commit characters and the appended keywords -/

theorem createSwizzleCandidates_commit (type : SwizzleBaseType) (elementCount : Int × Int) :
    ∀ it ∈ createSwizzleCandidates type elementCount, it.commitCharacters = [] := by
  intro it hit
  cases type with
  | VectorExpressionType elementType =>
    simp only [createSwizzleCandidates, List.mem_map] at hit
    obtain ⟨name, -, h⟩ := hit
    rw [← h]; rfl
  | BasicExpressionType text =>
    simp only [createSwizzleCandidates, List.mem_singleton] at hit
    rw [hit]; rfl
  | MatrixExpressionType elementType =>
    simp only [createSwizzleCandidates, List.mem_flatten, List.mem_map] at hit
    obtain ⟨row, ⟨i, -, hrow⟩, hmem⟩ := hit
    subst hrow
    exact (matrixRowItems_mem _ _ _ it hmem).2.2
  | TupleType member =>
    simp only [createSwizzleCandidates, List.mem_map] at hit
    obtain ⟨i, -, h⟩ := hit
    rw [← h]; rfl
  | Other => simp [createSwizzleCandidates] at hit

theorem createCapabilityCandidates_commit (names : List String) :
    ∀ it ∈ createCapabilityCandidates names, it.commitCharacters = [] := by
  intro it hit
  simp only [createCapabilityCandidates, List.mem_map] at hit
  obtain ⟨name, -, h⟩ := hit
  rw [← h]

theorem processCandidate_commit (ctx : CompletionContext) (ets : List (Option TypeNode))
    (d : List String) (i : Nat) (c : LookupResultItem) :
    ∀ it ∈ (processCandidate ctx ets d i c).1.items, it.commitCharacters = [] := by
  have hstatic : ∀ (b : Bool) (it : CompletionItem),
      it ∈ (if b = true then some staticKeywordItem else none).toList →
      it.commitCharacters = [] := by
    intro b it h
    cases b
    · simp at h
    · simp at h; rw [h]; rfl
  have hret : ∀ (item : CompletionItem) (n : Int) (it : CompletionItem),
      item.commitCharacters = [] → it ∈ (returnTypeItem ctx item n).toList →
      it.commitCharacters = [] := by
    intro item n it hitem h
    unfold returnTypeItem at h
    split_ifs at h
    · simp at h; rw [h]; exact hitem
    · simp at h
  intro it hit
  unfold processCandidate at hit
  cases hdecl : c.decl with
  | none => simp [hdecl, CandidateOutput.items] at hit
  | some decl =>
    cases hmem : candidateMember c with
    | none => simp [hdecl, hmem, CandidateOutput.items] at hit
    | some member =>
      simp only [hdecl, hmem] at hit
      by_cases h1 : member.name.isNone = true
      · simp [h1, CandidateOutput.items] at hit
      · by_cases h2 : (formatDeclForCompletion decl c.inner ctx.formatMode
            ctx.indent).1.length = 0
        · simp [h1, h2, CandidateOutput.items] at hit
        · by_cases h3 : skipsCandidate ctx member (candidateLabelText ctx decl c.inner) = true
          · simp only [h1, h2, h3, if_true, if_false, Bool.false_eq_true,
              CandidateOutput.items, List.mem_append] at hit
            rcases hit with (hit | hit) | hit
            · exact hstatic _ it hit
            · simp at hit
            · simp at hit
          · simp only [h1, h2, h3, if_false, Bool.false_eq_true] at hit
            cases hd : deduplicateAdd d (candidateLabelText ctx decl c.inner) with
            | none =>
              simp only [hd, CandidateOutput.items, List.mem_append] at hit
              rcases hit with (hit | hit) | hit
              · exact hstatic _ it hit
              · simp at hit
              · simp at hit
            | some d' =>
              simp only [hd, CandidateOutput.items, List.mem_append] at hit
              rcases hit with (hit | hit) | hit
              · exact hstatic _ it hit
              · simp at hit; rw [hit]; rfl
              · exact hret _ _ it rfl hit

theorem candidateLoop_commit (ctx : CompletionContext) (ets : List (Option TypeNode))
    (cs : List LookupResultItem) :
    ∀ (i : Nat) (d : List String),
      ∀ it ∈ ((candidateLoop ctx ets cs i d).1.map CandidateOutput.items).flatten,
        it.commitCharacters = [] := by
  induction cs with
  | nil => intro i d it h; simp [candidateLoop] at h
  | cons c rest ih =>
    intro i d it h
    simp only [candidateLoop, List.map_cons, List.flatten_cons, List.mem_append] at h
    rcases h with h | h
    · exact processCandidate_commit ctx ets d i c it h
    · exact ih _ _ it h

theorem keywordLoop_commit (kws : List String) (d : List String) :
    ∀ it ∈ (keywordLoop kws d).1, it.commitCharacters = [] := by
  intro it hit
  obtain ⟨-, -, -, h⟩ := keywordLoop_invariant kws d
  rw [h it hit]; rfl

theorem collect_eq_collectedItems (ctx : CompletionContext)
    (hscope : returnsBeforeLoop ctx.scopeKind = false) :
    collectMembersAndSymbols ctx =
      if useCommitChars ctx then addCommitChars ctx.commitChars (collectedItems ctx)
      else collectedItems ctx := by
  have hcap : ctx.scopeKind ≠ ScopeKind.Capabilities := by
    intro h; rw [h] at hscope; exact absurd hscope (by decide)
  unfold collectMembersAndSymbols collectedItems swizzleItems loopItems keywordItems macroItems
    keywordTable usedLabels candidateOutputs
  simp only [hcap, hscope, if_false, Bool.false_eq_true]
  cases addKeywords ctx <;>
    simp only [if_true, if_false, Bool.false_eq_true, List.append_nil, List.append_assoc]

theorem collect_early_return (ctx : CompletionContext)
    (hscope : returnsBeforeLoop ctx.scopeKind = true) :
    collectMembersAndSymbols ctx =
      if ctx.scopeKind = ScopeKind.Capabilities then
        createCapabilityCandidates ctx.capabilityNames
      else [] := by
  have hswz : ctx.scopeKind ≠ ScopeKind.Swizzle := by
    intro h; rw [h] at hscope; exact absurd hscope (by decide)
  unfold collectMembersAndSymbols
  simp only [hscope, hswz, if_true, if_false]

theorem collectedItems_commit (ctx : CompletionContext) :
    ∀ it ∈ collectedItems ctx, it.commitCharacters = [] := by
  intro it hit
  unfold collectedItems at hit
  simp only [List.mem_append] at hit
  rcases hit with (hit | hit) | hit
  · unfold swizzleItems at hit
    split_ifs at hit
    · exact createSwizzleCandidates_commit _ _ it hit
    · simp at hit
  · exact candidateLoop_commit ctx _ ctx.candidateItems 0 [] it hit
  · split_ifs at hit
    · rcases List.mem_append.1 hit with hit | hit
      · exact keywordLoop_commit _ _ it hit
      · exact keywordLoop_commit _ _ it hit
    · simp at hit

theorem keywordLoop_covers (kws : List String) :
    ∀ d : List String, (∀ l ∈ d, l ∈ (keywordLoop kws d).2) ∧
      (∀ kw ∈ kws, kw ∈ (keywordLoop kws d).2) := by
  induction kws with
  | nil => intro d; simp [keywordLoop]
  | cons kw rest ih =>
    intro d
    unfold keywordLoop deduplicateAdd
    by_cases hin : kw ∈ d
    · simp only [hin, if_true]
      obtain ⟨a, b⟩ := ih d
      refine ⟨a, ?_⟩
      intro k hk
      rcases List.mem_cons.1 hk with hk | hk
      · rw [hk]; exact a kw hin
      · exact b k hk
    · simp only [hin, if_false]
      obtain ⟨a, b⟩ := ih (kw :: d)
      refine ⟨fun l hl => a l (List.mem_cons_of_mem _ hl), ?_⟩
      intro k hk
      rcases List.mem_cons.1 hk with hk | hk
      · rw [hk]; exact a kw (List.mem_cons_self _ _)
      · exact b k hk

theorem keywordLoop_sublist (kws : List String) :
    ∀ d : List String, List.Sublist (keywordLoop kws d).1 (kws.map keywordItem) := by
  induction kws with
  | nil => intro d; simp [keywordLoop]
  | cons kw rest ih =>
    intro d
    unfold keywordLoop deduplicateAdd
    by_cases hin : kw ∈ d
    · simp only [hin, if_true, List.map_cons]
      exact (ih d).trans (List.sublist_cons_self _ _)
    · simp only [hin, if_false, List.map_cons]
      exact List.Sublist.cons₂ _ (ih (kw :: d))

theorem keywordLoop_present (kws d : List String) :
    ∀ kw ∈ kws, kw ∈ d ∨ keywordItem kw ∈ (keywordLoop kws d).1 := by
  intro kw hkw
  obtain ⟨h1, -, -, h4⟩ := keywordLoop_invariant kws d
  have hin := (keywordLoop_covers kws d).2 kw hkw
  rcases (h1 kw).1 hin with h | h
  · exact Or.inl h
  · right
    obtain ⟨it, hit, hl⟩ := List.mem_map.1 h
    have h5 : it = keywordItem it.label := h4 it hit
    have hl' : it.label = kw := hl
    rw [hl'] at h5
    rw [← h5]; exact hit

theorem useCommitChars_iff (ctx : CompletionContext)
    (hscope : returnsBeforeLoop ctx.scopeKind = false) :
    useCommitChars ctx = true ↔
      (((ctx.scopeKind = ScopeKind.Member ∨ ctx.scopeKind = ScopeKind.Swizzle) ∧
          (ctx.commitCharacterBehavior = CommitCharacterBehavior.MembersOnly ∨
            ctx.commitCharacterBehavior = CommitCharacterBehavior.All)) ∨
        ((ctx.scopeKind = ScopeKind.Expr ∨ ctx.scopeKind = ScopeKind.Decl ∨
            ctx.scopeKind = ScopeKind.Stmt) ∧
          ctx.commitCharacterBehavior = CommitCharacterBehavior.All)) := by
  unfold useCommitChars
  cases hs : ctx.scopeKind <;> rw [hs] at hscope <;>
    first
    | exact absurd hscope (by decide)
    | simp

theorem addKeywords_iff (ctx : CompletionContext) :
    addKeywords ctx = true ↔
      ((ctx.scopeKind = ScopeKind.Expr ∨ ctx.scopeKind = ScopeKind.Decl ∨
          ctx.scopeKind = ScopeKind.Stmt) ∧ ctx.formatMode = FormatMode.Name) := by
  unfold addKeywords
  cases hs : ctx.scopeKind <;> cases hm : ctx.formatMode <;> simp

theorem returnsBeforeLoop_iff (scopeKind : ScopeKind) :
    returnsBeforeLoop scopeKind = false ↔
      (scopeKind = ScopeKind.Member ∨ scopeKind = ScopeKind.Swizzle ∨
        scopeKind = ScopeKind.Expr ∨ scopeKind = ScopeKind.Decl ∨
        scopeKind = ScopeKind.Stmt) := by
  cases scopeKind <;> simp [returnsBeforeLoop]

/-! ## Facts about the expected-type inference -/

theorem processDeclRefCallee_eq (callee : Option CalleeDecl) (i : Nat) :
    processDeclRefCallee callee i = parameterTypeAt callee i := by
  unfold processDeclRefCallee parameterTypeAt
  cases callee with
  | none => rfl
  | some decl =>
    simp only
    split_ifs
    · cases decl.paramTypes.get? i <;> rfl
    · rfl

theorem findMatchingArgument_eq (target : Nat) (args : List Expr) :
    ∀ (k i : Nat),
      (∃ arg, args.get? i = some arg ∧ matchExpr arg target = true) →
      (∀ j arg, j < i → args.get? j = some arg → matchExpr arg target = false) →
      findMatchingArgument args k target = some (k + i) := by
  induction args with
  | nil =>
    intro k i hi _
    obtain ⟨arg, h, -⟩ := hi
    simp at h
  | cons a rest ih =>
    intro k i hi hfirst
    cases i with
    | zero =>
      obtain ⟨arg, h, hm⟩ := hi
      simp only [List.get?_cons_zero, Option.some.injEq] at h
      subst h
      simp [findMatchingArgument, hm]
    | succ i =>
      have h0 := hfirst 0 a (by omega) rfl
      obtain ⟨arg, h, hm⟩ := hi
      simp only [List.get?_cons_succ] at h
      have hrec := ih (k + 1) i ⟨arg, h, hm⟩
        (fun j arg' hj hget => hfirst (j + 1) arg' (by omega) (by simpa using hget))
      simp only [findMatchingArgument, h0, Bool.false_eq_true, if_false, hrec]
      congr 1
      omega

theorem path_reverse (init : List SyntaxNode) (parent hole : SyntaxNode) :
    (init ++ [parent, hole]).reverse = hole :: parent :: init.reverse := by
  simp

/-! ## Facts about the replacement text and the time budget -/

theorem rawFileNameArguments_closing (env : PathContext) (lineContent : List Char) (pos : Nat)
    (a : RawFileNameArguments)
    (h : rawFileNameArguments env lineContent (pos : Int) = Except.ok a) :
    a.closingChar = closingDelimiter lineContent pos := by
  have hopen := scanForward_eq (fun c => decide (c = '\"') || decide (c = '<')) lineContent
    (lineContent.length + 1) pos (by omega) (by omega)
  unfold rawFileNameArguments at h
  rw [hopen] at h
  simp only at h
  unfold closingDelimiter
  generalize firstStopFrom (fun c => decide (c = '\"') || decide (c = '<')) lineContent pos = q
    at h ⊢
  have hrest : ∀ (closing : Char),
      (if env.col - 2 < 0 then Except.error Failure.notApplicable
        else
          match scanBackToSeparator lineContent (lineContent.length + 1) ((q : Int) + 1)
              (env.col - 2) with
          | Except.error e => Except.error e
          | Except.ok lastPos =>
            if env.col - 1 < 0 then Except.error Failure.notApplicable
            else
              match scanForward endsRawSection lineContent (lineContent.length + 1)
                  (env.col - 1) with
              | Except.error e => Except.error e
              | Except.ok sectionEnd =>
                match scanForward (fun c => decide (c = ';')) lineContent
                    (lineContent.length + 1) sectionEnd with
                | Except.error e => Except.error e
                | Except.ok fileNameEnd =>
                  match (if lastPos > (q : Int) + 1 then
                      subString lineContent ((q : Int) + 1) (lastPos - ((q : Int) + 1))
                    else Except.ok []) with
                  | Except.error e => Except.error e
                  | Except.ok pfxSlice =>
                    Except.ok
                      { pfxPath := String.mk (pfxSlice.map
                          (fun ch => if isPathSeparator ch then env.pathDelimiter else ch))
                        lineIndex := env.line - 1
                        fileNameEnd := fileNameEnd
                        sectionStart := lastPos + 1
                        sectionEnd := sectionEnd
                        closingChar := closing }) = Except.ok a →
      a.closingChar = closing := by
    intro closing h
    by_cases hcol : env.col - 2 < 0
    · rw [if_pos hcol] at h; exact absurd h (by simp)
    · rw [if_neg hcol] at h
      split at h
      · exact absurd h (by simp)
      · have hcol1 : ¬ env.col - 1 < 0 := by omega
        rw [if_neg hcol1] at h
        split at h
        · exact absurd h (by simp)
        · split at h
          · exact absurd h (by simp)
          · split at h
            · exact absurd h (by simp)
            · simp only [Except.ok.injEq] at h
              rw [← h]
  by_cases hq : q < lineContent.length
  · have hq' : (q : Int) < (lineContent.length : Int) := by omega
    have hget : lineContent.get? q = some lineContent[q] := List.get?_eq_get hq
    rw [if_pos hq', charAt_ofNat lineContent q _ hget] at h
    simp only at h
    rw [hrest _ h, hget]
    by_cases hc : lineContent[q] = '<'
    · simp [hc, hq']
    · simp [hc]
  · have hq' : ¬ (q : Int) < (lineContent.length : Int) := by omega
    have hget : lineContent.get? q = none := List.get?_eq_none.2 (by omega)
    rw [if_neg hq'] at h
    simp only at h
    rw [hrest _ h, hget]
    simp [hq']

theorem module_items_textEdit (env : PathContext) (pfxPath : String) (isImportString : Bool)
    (lineIndex fileNameEnd sectionStart sectionEnd : Int) (closingChar : Option Char) :
    ∀ item ∈ gatherFileAndModuleCompletionItems env pfxPath true isImportString lineIndex
        fileNameEnd sectionStart sectionEnd closingChar,
      item.textEdit.newText = item.label ∧
      item.textEdit.startCharacter = castInt32 sectionStart ∧
      item.textEdit.endCharacter = castInt32 sectionEnd := by
  intro item hitem
  obtain ⟨raw, -, hl, -, ht⟩ := scan_items_textEdit env pfxPath true isImportString
    lineIndex fileNameEnd sectionStart sectionEnd closingChar item hitem
  rw [ht, hl]
  simp [setTextEdit]

theorem enumerationCallback_commit (env : PathContext) (root : String) (tm imp : Bool)
    (path : String) (st : EnumerationState) (entry : PathType × String)
    (h : ∀ it ∈ st.items, it.commitCharacters = []) :
    ∀ it ∈ (enumerationCallback env root tm imp path st entry).items,
      it.commitCharacters = [] := by
  unfold enumerationCallback
  cases hl : entryLabel tm imp entry.1 entry.2 with
  | none => exact h
  | some lk =>
    obtain ⟨label, kind⟩ := lk
    simp only
    split_ifs
    · exact h
    · exact h
    · intro it hit
      simp only [List.mem_append, List.mem_singleton] at hit
      rcases hit with hit | hit
      · exact h it hit
      · subst hit; rfl
    · intro it hit
      simp only [List.mem_append, List.mem_singleton] at hit
      rcases hit with hit | hit
      · exact h it hit
      · subst hit; rfl

theorem foldl_callback_commit (env : PathContext) (root : String) (tm imp : Bool)
    (path : String) (entries : List (PathType × String)) :
    ∀ st : EnumerationState, (∀ it ∈ st.items, it.commitCharacters = []) →
      ∀ it ∈ (entries.foldl (enumerationCallback env root tm imp path) st).items,
        it.commitCharacters = [] := by
  induction entries with
  | nil => intro st h; exact h
  | cons e rest ih =>
    intro st h
    exact ih _ (enumerationCallback_commit env root tm imp path st e h)

theorem addCandidate_commit (env : PathContext) (root : String) (pfx : List Char)
    (tm imp : Bool) (st : EnumerationState) (path : String)
    (h : ∀ it ∈ st.items, it.commitCharacters = []) :
    ∀ it ∈ (addCandidate env root pfx tm imp st path).items, it.commitCharacters = [] := by
  unfold addCandidate
  split_ifs
  · exact foldl_callback_commit env root tm imp _ _ _ h
  · exact h

theorem foldl_addCandidate_commit (env : PathContext) (root : String) (pfx : List Char)
    (tm imp : Bool) (paths : List String) :
    ∀ st : EnumerationState, (∀ it ∈ st.items, it.commitCharacters = []) →
      ∀ it ∈ (paths.foldl (addCandidate env root pfx tm imp) st).items,
        it.commitCharacters = [] := by
  induction paths with
  | nil => intro st h; exact h
  | cons p rest ih =>
    intro st h
    exact ih _ (addCandidate_commit env root pfx tm imp st p h)

theorem setTextEdit_commit (tm : Bool) (lineIndex fileNameEnd sectionStart sectionEnd : Int)
    (closingChar : Option Char) (item : TextEditCompletionItem) :
    (setTextEdit tm lineIndex fileNameEnd sectionStart sectionEnd closingChar
      item).commitCharacters = item.commitCharacters := by
  unfold setTextEdit
  split_ifs <;> rfl

/-- A loop over search paths all of whose clock readings are within the budget
visits every path. -/
theorem scanSearchPaths_within (env : PathContext) (root : String) (pfx : List Char)
    (tm imp : Bool) (paths : List String) :
    ∀ st : ScanState,
      (∀ i, i < paths.length → env.elapsedTime (st.clockReadings + i) ≤ 200) →
      scanSearchPaths env root pfx tm imp paths st =
        { enumeration := paths.foldl (addCandidate env root pfx tm imp) st.enumeration
          clockReadings := st.clockReadings + paths.length
          isIncomplete := st.isIncomplete } := by
  induction paths with
  | nil => intro st _; rfl
  | cons p rest ih =>
    intro st h
    unfold scanSearchPaths
    have h0 := h 0 (by simp)
    simp only [Nat.add_zero] at h0
    rw [if_neg (by omega)]
    rw [ih]
    · simp only [List.foldl_cons, List.length_cons]
      congr 1
      omega
    · intro i hi
      simp only
      have := h (i + 1) (by simp only [List.length_cons]; omega)
      rw [show st.clockReadings + 1 + i = st.clockReadings + (i + 1) by omega]
      exact this

/-- A loop over search paths whose reading number `j` is the first one over the
budget visits the first `j` paths and sets `isIncomplete`. -/
theorem scanSearchPaths_break (env : PathContext) (root : String) (pfx : List Char)
    (tm imp : Bool) (paths : List String) :
    ∀ (st : ScanState) (j : Nat), j < paths.length →
      (∀ i, i < j → env.elapsedTime (st.clockReadings + i) ≤ 200) →
      env.elapsedTime (st.clockReadings + j) > 200 →
      scanSearchPaths env root pfx tm imp paths st =
        { enumeration := (paths.take j).foldl (addCandidate env root pfx tm imp) st.enumeration
          clockReadings := st.clockReadings + j + 1
          isIncomplete := true } := by
  induction paths with
  | nil => intro st j hj; exact absurd hj (by simp)
  | cons p rest ih =>
    intro st j hj hbefore hover
    unfold scanSearchPaths
    cases j with
    | zero =>
      simp only [Nat.add_zero] at hover
      rw [if_pos hover]
      rfl
    | succ k =>
      have h0 := hbefore 0 (by omega)
      simp only [Nat.add_zero] at h0
      rw [if_neg (by omega)]
      rw [ih _ k (by simp only [List.length_cons] at hj; omega)]
      · simp only [List.take_succ_cons, List.foldl_cons]
        congr 1
        omega
      · intro i hi
        simp only
        have := hbefore (i + 1) (by omega)
        rw [show st.clockReadings + 1 + i = st.clockReadings + (i + 1) by omega]
        exact this
      · simp only
        rw [show st.clockReadings + 1 + k = st.clockReadings + (k + 1) by omega]
        exact hover

/-- With a monotonic clock, a scan whose reading number `j` is the first one over
the budget visits exactly the first `j` search roots and sets `isIncomplete`. -/
theorem scanAllSearchPaths_break (env : PathContext) (pfxPath : String) (tm imp : Bool)
    (j : Nat) (hmono : ∀ k, env.elapsedTime k ≤ env.elapsedTime (k + 1))
    (hj : j < (searchRoots env).length)
    (hbefore : ∀ i, i < j → env.elapsedTime i ≤ 200)
    (hover : env.elapsedTime j > 200) :
    (scanAllSearchPaths env pfxPath tm imp).enumeration =
      ((searchRoots env).take j).foldl
        (addCandidate env (workspaceRootOf env)
          (stripParentSegments pfxPath.length pfxPath.data) tm imp) {} ∧
    (scanAllSearchPaths env pfxPath tm imp).isIncomplete = true := by
  unfold scanAllSearchPaths searchRoots at *
  simp only
  by_cases hlt : j < env.additionalSearchPaths.length
  · have h1 := scanSearchPaths_break env (workspaceRootOf env)
      (stripParentSegments pfxPath.length pfxPath.data) tm imp env.additionalSearchPaths {} j hlt
      (by intro i hi; simpa using hbefore i hi) (by simpa using hover)
    rw [h1]
    have htake : (env.additionalSearchPaths ++
        (if env.searchInWorkspace = true then env.workspaceSearchPaths else [])).take j =
        env.additionalSearchPaths.take j := by
      rw [List.take_append_of_le_length (by omega)]
    rw [htake]
    cases hs : env.searchInWorkspace with
    | false => simp
    | true =>
      simp only [if_true]
      cases hw : env.workspaceSearchPaths with
      | nil => simp [scanSearchPaths]
      | cons w rest =>
        unfold scanSearchPaths
        have : env.elapsedTime (j + 1) > 200 := by
          have := hmono j
          omega
        simp only [Nat.zero_add]
        rw [if_pos this]
        simp
  · cases hs : env.searchInWorkspace with
    | false =>
      rw [hs] at hj
      simp at hj
      omega
    | true =>
      rw [hs] at hj
      simp only [if_true, List.length_append] at hj
      simp only [if_true]
      obtain ⟨d, hd⟩ : ∃ d, j = env.additionalSearchPaths.length + d :=
        ⟨j - env.additionalSearchPaths.length, by omega⟩
      subst hd
      have h1 : scanSearchPaths env (workspaceRootOf env)
          (stripParentSegments pfxPath.length pfxPath.data) tm imp env.additionalSearchPaths {} =
          { enumeration := env.additionalSearchPaths.foldl
              (addCandidate env (workspaceRootOf env)
                (stripParentSegments pfxPath.length pfxPath.data) tm imp) {}
            clockReadings := env.additionalSearchPaths.length
            isIncomplete := false } :=
        (scanSearchPaths_within env (workspaceRootOf env)
          (stripParentSegments pfxPath.length pfxPath.data) tm imp env.additionalSearchPaths {}
          (by
            intro i hi
            have := hbefore i (by omega)
            simpa using this)).trans (by simp)
      rw [h1]
      have h2 := scanSearchPaths_break env (workspaceRootOf env)
        (stripParentSegments pfxPath.length pfxPath.data) tm imp env.workspaceSearchPaths
        { enumeration := env.additionalSearchPaths.foldl
            (addCandidate env (workspaceRootOf env)
              (stripParentSegments pfxPath.length pfxPath.data) tm imp) {}
          clockReadings := env.additionalSearchPaths.length
          isIncomplete := false }
        d (by omega)
        (by
          intro i hi
          exact hbefore (env.additionalSearchPaths.length + i) (by omega))
        hover
      rw [h2]
      simp only [and_true]
      rw [List.take_append_eq_append_take, List.foldl_append,
        List.take_of_length_le
          (show env.additionalSearchPaths.length ≤ env.additionalSearchPaths.length + d by omega)]
      simp

/-! ## Facts about the scanning loops of module-name completion -/

theorem startsWith_append (p rest : List Char) : startsWith (p ++ rest) p = true := by
  induction p with
  | nil => cases rest <;> rfl
  | cons c p ih =>
    show (decide (c = c) && startsWith (p ++ rest) p) = true
    simp [ih]

theorem indexOfFrom_nonneg (pat : List Char) (s : List Char) :
    ∀ i : Nat, indexOfFrom pat s i = -1 ∨ (i : Int) ≤ indexOfFrom pat s i := by
  induction s with
  | nil =>
    intro i
    unfold indexOfFrom
    split_ifs
    · exact Or.inr (le_refl _)
    · exact Or.inl rfl
  | cons c rest ih =>
    intro i
    unfold indexOfFrom
    split_ifs
    · exact Or.inr (le_refl _)
    · rcases ih (i + 1) with h | h
      · exact Or.inl h
      · exact Or.inr (by omega)

theorem indexOf_nonneg (s pat : List Char) (h : indexOf s pat ≠ -1) : 0 ≤ indexOf s pat := by
  unfold indexOf at *
  rcases indexOfFrom_nonneg pat s 0 with h1 | h1
  · exact absurd h1 h
  · simpa using h1

theorem matchImportKeyword_nonneg (isWhitespace : Char → Bool) (lineContent importStr : List Char)
    (k : Int) (h : matchImportKeyword isWhitespace lineContent importStr = some k) : 0 ≤ k := by
  unfold matchImportKeyword at h
  simp only at h
  by_cases h1 : indexOf lineContent importStr = -1
  · rw [if_pos h1] at h; exact absurd h (by simp)
  · rw [if_neg h1] at h
    split_ifs at h
    simp only [Option.some.injEq] at h
    have := indexOf_nonneg lineContent importStr h1
    omega

theorem findImportKeyword_nonneg (isWhitespace : Char → Bool) (lineContent : List Char)
    (keywords : List (List Char)) (k : Int)
    (h : findImportKeyword isWhitespace lineContent keywords = some k) : 0 ≤ k := by
  induction keywords with
  | nil => exact absurd h (by simp [findImportKeyword])
  | cons kw rest ih =>
    unfold findImportKeyword at h
    cases hm : matchImportKeyword isWhitespace lineContent kw with
    | none => rw [hm] at h; exact ih h
    | some p =>
      rw [hm] at h
      simp only [Option.some.injEq] at h
      rw [← h]
      exact matchImportKeyword_nonneg isWhitespace lineContent kw p hm

/-- A line that starts with `import ` is valid for the first keyword. -/
theorem findImportKeyword_import (isWhitespace : Char → Bool) (rest : List Char) :
    findImportKeyword isWhitespace ("import ".data ++ rest) importKeywords = some 7 := by
  have hidx : indexOf ("import ".data ++ rest) "import ".data = 0 := by
    have hs : startsWith ('i' :: ("mport ".data ++ rest)) "import ".data = true :=
      startsWith_append "import ".data rest
    show indexOfFrom "import ".data ('i' :: ("mport ".data ++ rest)) 0 = 0
    unfold indexOfFrom
    rw [if_pos hs]
    rfl
  have hm : matchImportKeyword isWhitespace ("import ".data ++ rest) "import ".data = some 7 := by
    unfold matchImportKeyword
    simp only [hidx]
    rfl
  show (match matchImportKeyword isWhitespace ("import ".data ++ rest) "import ".data with
    | some pos => some pos
    | none => findImportKeyword isWhitespace ("import ".data ++ rest)
        ["__include ".data, "implementing ".data]) = some 7
  rw [hm]

theorem skipWhitespace_at_cursor (isWhitespace : Char → Bool) (s : List Char) (col : Int)
    (fuel : Nat) (pos : Int) (h : ¬ pos < col - 1) :
    skipWhitespace isWhitespace s col (fuel + 1) pos = Except.ok pos := by
  unfold skipWhitespace
  rw [if_neg (fun hh => h hh.2)]

theorem skipWhitespace_at_text (isWhitespace : Char → Bool) (s : List Char) (col : Int)
    (fuel : Nat) (pos : Nat) (c : Char) (hget : s.get? pos = some c)
    (hc : isWhitespace c = false) :
    skipWhitespace isWhitespace s col (fuel + 1) (pos : Int) = Except.ok (pos : Int) := by
  unfold skipWhitespace
  split_ifs
  · rw [charAt_ofNat s pos c hget]
    simp [hc]
  · rfl

theorem scanBackToDot_before (s : List Char) (fuel : Nat) (pos lastPos : Int)
    (h : lastPos < pos) : scanBackToDot s (fuel + 1) pos lastPos = Except.ok lastPos := by
  unfold scanBackToDot
  rw [if_neg (by omega)]

theorem scanBackToDot_eq (s : List Char) (pos dot : Nat) (hdot : pos ≤ dot)
    (hc : s.get? dot = some '.') :
    ∀ (n fuel : Nat), n + 1 ≤ fuel →
      (∀ k : Nat, dot < k → k ≤ dot + n → ∃ c, s.get? k = some c ∧ c ≠ '.' ∧ c ≠ ';') →
      scanBackToDot s fuel (pos : Int) ((dot + n : Nat) : Int) = Except.ok (dot : Int) := by
  intro n
  induction n with
  | zero =>
    intro fuel hf _
    cases fuel with
    | zero => omega
    | succ fuel =>
      unfold scanBackToDot
      have h1 : ((dot + 0 : Nat) : Int) ≥ (pos : Int) := by omega
      rw [if_pos h1, Nat.add_zero, charAt_ofNat s dot '.' hc]
      simp
  | succ n ih =>
    intro fuel hf hall
    cases fuel with
    | zero => omega
    | succ fuel =>
      unfold scanBackToDot
      have h1 : ((dot + (n + 1) : Nat) : Int) ≥ (pos : Int) := by omega
      obtain ⟨c, hget, h2, h3⟩ := hall (dot + (n + 1)) (by omega) (by omega)
      rw [if_pos h1, charAt_ofNat s _ c hget]
      have hcast : ((dot + (n + 1) : Nat) : Int) - 1 = ((dot + n : Nat) : Int) := by omega
      simp only [h2, h3, if_false, hcast]
      exact ih fuel (by omega) (fun k hk1 hk2 => hall k hk1 (by omega))

theorem firstStopFrom_length (stop : Char → Bool) (s : List Char) :
    firstStopFrom stop s s.length = s.length := by
  unfold firstStopFrom
  simp

/-- The plan of `tryCompleteImport` for a module name: `p` is the position after
the keyword, `dot` the last `.` before the cursor, and `n` the number of
characters between that `.` and the cursor. -/
theorem importPlan_module (env : PathContext) (isWhitespace : Char → Bool) (s : List Char)
    (p dot n : Nat) (c : Char)
    (hkw : findImportKeyword isWhitespace s importKeywords = some (p : Int))
    (hfirst : s.get? p = some c) (hc : isWhitespace c = false) (hq : c ≠ '\"')
    (hpd : p < dot) (hdot : s.get? dot = some '.')
    (hafter : ∀ k : Nat, dot < k → k ≤ dot + n → ∃ c, s.get? k = some c ∧ c ≠ '.' ∧ c ≠ ';')
    (hcol : env.col = ((dot + n : Nat) : Int) + 2) :
    importPlan env isWhitespace s = Except.ok (ImportPlan.moduleName
      { pfxPath := String.mk (((s.drop p).take (dot - p)).map
          (translateModuleChar env.pathDelimiter))
        lineIndex := env.line - 1
        fileNameEnd := (firstStopFrom (fun c => c = ';') s
          (firstStopFrom endsModuleSection s (dot + n + 1)) : Nat)
        sectionStart := (dot : Int) + 1
        sectionEnd := (firstStopFrom endsModuleSection s (dot + n + 1) : Nat) }) := by
  have hplen : p < s.length := (List.get?_eq_some.1 hfirst).1
  have hdlen : dot < s.length := (List.get?_eq_some.1 hdot).1
  have hnlen : dot + n < s.length := by
    cases n with
    | zero => simpa using hdlen
    | succ m =>
      obtain ⟨c', hget, -⟩ := hafter (dot + (m + 1)) (by omega) (le_refl _)
      exact (List.get?_eq_some.1 hget).1
  unfold importPlan
  rw [hkw]
  simp only
  rw [skipWhitespace_at_text isWhitespace s env.col s.length p c hfirst hc]
  simp only
  have hplt : (p : Int) < (s.length : Int) := by omega
  rw [if_pos hplt, charAt_ofNat s p c hfirst]
  simp only
  rw [if_neg (fun h => hq h.2), if_neg (by omega)]
  have hlast : env.col - 2 = ((dot + n : Nat) : Int) := by omega
  rw [hlast, scanBackToDot_eq s p dot (le_of_lt hpd) hdot n (s.length + 1) (by omega) hafter]
  simp only
  have hgt : (dot : Int) > (p : Int) := by omega
  rw [if_pos hgt]
  have hsub : subString s (p : Int) ((dot : Int) - (p : Int)) =
      Except.ok ((s.drop p).take (dot - p)) := by
    unfold subString
    rw [if_neg (by omega)]
    have h1 : ((p : Int)).toNat = p := by omega
    have h2 : ((dot : Int) - (p : Int)).toNat = dot - p := by omega
    rw [h1, h2]
  rw [hsub]
  simp only
  have hsec : env.col - 1 = ((dot + n + 1 : Nat) : Int) := by omega
  rw [hsec, scanForward_eq endsModuleSection s (s.length + 1) (dot + n + 1) (by omega) (by omega)]
  simp only
  rw [scanForward_eq (fun c => decide (c = ';')) s (s.length + 1) _ (by omega) (by omega)]

/-! ## Facts about a cursor ahead of the path or module name -/

theorem scanBackToSeparator_before (s : List Char) (fuel : Nat) (pos lastPos : Int)
    (h : lastPos < pos) : scanBackToSeparator s (fuel + 1) pos lastPos = Except.ok lastPos := by
  unfold scanBackToSeparator
  rw [if_neg (by omega)]

theorem charAt_of_lt (s : List Char) (k : Int) (h0 : 0 ≤ k) (h1 : k < s.length) :
    ∃ c, s.get? k.toNat = some c ∧ charAt s k = Except.ok c := by
  have hlt : k.toNat < s.length := by omega
  refine ⟨s[k.toNat], List.get?_eq_get hlt, ?_⟩
  have := charAt_ofNat s k.toNat s[k.toNat] (List.get?_eq_get hlt)
  rwa [show ((k.toNat : Nat) : Int) = k by omega] at this

theorem rawFileNameArguments_first_column (env : PathContext) (lineContent : List Char)
    (pos : Nat) (hcol : env.col < 2) :
    rawFileNameArguments env lineContent (pos : Int) = Except.error Failure.notApplicable := by
  unfold rawFileNameArguments
  rw [scanForward_eq _ lineContent (lineContent.length + 1) pos (by omega) (by omega)]
  simp only
  generalize firstStopFrom (fun c => decide (c = '\"') || decide (c = '<')) lineContent pos = q
  have hneg : env.col - 2 < 0 := by omega
  by_cases hq : (q : Int) < (lineContent.length : Int)
  · obtain ⟨c, -, hch⟩ := charAt_of_lt lineContent (q : Int) (by omega) hq
    rw [if_pos hq, hch]
    simp only
    rw [if_pos hneg]
  · rw [if_neg hq]
    simp only
    rw [if_pos hneg]

theorem rawFileNameArguments_cursor_ahead (env : PathContext) (lineContent : List Char)
    (pos : Nat) (hcol : 2 ≤ env.col)
    (hbefore : env.col - 1 <
      (firstStopFrom (fun c => c = '\"' || c = '<') lineContent pos : Nat) + 1) :
    rawFileNameArguments env lineContent (pos : Int) = Except.ok
      { pfxPath := ""
        lineIndex := env.line - 1
        fileNameEnd := (firstStopFrom (fun c => c = ';') lineContent
          (firstStopFrom endsRawSection lineContent (env.col - 1).toNat) : Nat)
        sectionStart := env.col - 1
        sectionEnd := (firstStopFrom endsRawSection lineContent (env.col - 1).toNat : Nat)
        closingChar := closingDelimiter lineContent pos } := by
  cases hr : rawFileNameArguments env lineContent (pos : Int) with
  | error e =>
    exfalso
    revert hr
    unfold rawFileNameArguments
    rw [scanForward_eq _ lineContent (lineContent.length + 1) pos (by omega) (by omega)]
    simp only
    revert hbefore
    generalize firstStopFrom (fun c => decide (c = '\"') || decide (c = '<')) lineContent pos = q
    intro hbefore
    have hneg : ¬ env.col - 2 < 0 := by omega
    have hneg1 : ¬ env.col - 1 < 0 := by omega
    have hcast : env.col - 1 = (((env.col - 1).toNat : Nat) : Int) := by omega
    have hse := scanForward_eq endsRawSection lineContent (lineContent.length + 1)
      (env.col - 1).toNat (by omega) (by omega)
    rw [← hcast] at hse
    have hfe := scanForward_eq (fun c => decide (c = ';')) lineContent
      (lineContent.length + 1)
      (firstStopFrom endsRawSection lineContent (env.col - 1).toNat) (by omega) (by omega)
    have hback := scanBackToSeparator_before lineContent lineContent.length ((q : Int) + 1)
      (env.col - 2) (by omega)
    have hgt : ¬ env.col - 2 > (q : Int) + 1 := by omega
    by_cases hq : (q : Int) < (lineContent.length : Int)
    · obtain ⟨c, -, hch⟩ := charAt_of_lt lineContent (q : Int) (by omega) hq
      rw [if_pos hq, hch]
      simp only
      rw [if_neg hneg, hback]
      simp only
      rw [if_neg hneg1, hse]
      simp only
      rw [hfe]
      simp only
      rw [if_neg hgt]
      simp
    · rw [if_neg hq]
      simp only
      rw [if_neg hneg, hback]
      simp only
      rw [if_neg hneg1, hse]
      simp only
      rw [hfe]
      simp only
      rw [if_neg hgt]
      simp
  | ok a =>
    obtain ⟨-, h2, h3, h4, -⟩ := rawFileNameArguments_ok env lineContent pos a hr
    have h5 := rawFileNameArguments_closing env lineContent pos a hr
    have h6 : a.pfxPath = "" ∧ a.sectionStart = env.col - 1 := by
      revert hr
      unfold rawFileNameArguments
      rw [scanForward_eq _ lineContent (lineContent.length + 1) pos (by omega) (by omega)]
      simp only
      revert hbefore
      generalize firstStopFrom (fun c => decide (c = '\"') || decide (c = '<')) lineContent pos = q
      intro hbefore
      have hneg : ¬ env.col - 2 < 0 := by omega
      have hneg1 : ¬ env.col - 1 < 0 := by omega
      have hcast : env.col - 1 = (((env.col - 1).toNat : Nat) : Int) := by omega
      have hse := scanForward_eq endsRawSection lineContent (lineContent.length + 1)
        (env.col - 1).toNat (by omega) (by omega)
      rw [← hcast] at hse
      have hfe := scanForward_eq (fun c => decide (c = ';')) lineContent
        (lineContent.length + 1)
        (firstStopFrom endsRawSection lineContent (env.col - 1).toNat) (by omega) (by omega)
      have hback := scanBackToSeparator_before lineContent lineContent.length ((q : Int) + 1)
        (env.col - 2) (by omega)
      have hgt : ¬ env.col - 2 > (q : Int) + 1 := by omega
      by_cases hq : (q : Int) < (lineContent.length : Int)
      · obtain ⟨c, -, hch⟩ := charAt_of_lt lineContent (q : Int) (by omega) hq
        rw [if_pos hq, hch]
        simp only
        rw [if_neg hneg, hback]
        simp only
        rw [if_neg hneg1, hse]
        simp only
        rw [hfe]
        simp only
        rw [if_neg hgt]
        simp only [Except.ok.injEq]
        intro h
        rw [← h]
        exact ⟨rfl, by simp only; omega⟩
      · rw [if_neg hq]
        simp only
        rw [if_neg hneg, hback]
        simp only
        rw [if_neg hneg1, hse]
        simp only
        rw [hfe]
        simp only
        rw [if_neg hgt]
        simp only [Except.ok.injEq]
        intro h
        rw [← h]
        exact ⟨rfl, by simp only; omega⟩
    cases a
    simp only at h2 h3 h4 h5 h6
    simp only [Except.ok.injEq, RawFileNameArguments.mk.injEq]
    exact ⟨h6.1, h2, h4, h6.2, h3, h5⟩

theorem firstStopFrom_at_stop (stop : Char → Bool) (s : List Char) (p : Nat) (c : Char)
    (hget : s.get? p = some c) (hstop : stop c = true) : firstStopFrom stop s p = p := by
  unfold firstStopFrom
  rw [drop_eq_cons_of_get? s p c hget]
  simp [hstop]

theorem tryCompleteRawFileName_first_column (env : PathContext) (lineContent : List Char)
    (pos : Nat) (isImportString : Bool) (hcol : env.col < 2) :
    tryCompleteRawFileName env lineContent (pos : Int) isImportString =
      Except.error Failure.notApplicable := by
  unfold tryCompleteRawFileName
  rw [rawFileNameArguments_first_column env lineContent pos hcol]

theorem tryCompleteImport_first_column (env : PathContext) (isWhitespace : Char → Bool)
    (lineContent : List Char) (hcol : env.col < 2) :
    tryCompleteImport env isWhitespace lineContent = Except.error Failure.notApplicable := by
  unfold tryCompleteImport importPlan
  cases hkw : findImportKeyword isWhitespace lineContent importKeywords with
  | none => rfl
  | some k =>
    have hk := findImportKeyword_nonneg isWhitespace lineContent importKeywords k hkw
    simp only
    rw [skipWhitespace_at_cursor isWhitespace lineContent env.col lineContent.length k
      (by omega)]
    simp only
    have hneg : env.col - 2 < 0 := by omega
    by_cases hlt : k < (lineContent.length : Int)
    · obtain ⟨c, -, hch⟩ := charAt_of_lt lineContent k hk hlt
      rw [if_pos hlt, hch]
      simp only
      by_cases hq : c = '\"'
      · rw [if_pos ⟨hlt, hq⟩]
        simp only
        have := tryCompleteRawFileName_first_column env lineContent k.toNat true hcol
        rwa [show ((k.toNat : Nat) : Int) = k by omega] at this
      · rw [if_neg (fun h => hq h.2), if_pos hneg]
    · rw [if_neg hlt]
      simp only
      rw [if_neg (fun h => hlt h.1), if_pos hneg]

theorem tryCompleteImport_cursor_ahead (env : PathContext) (isWhitespace : Char → Bool)
    (lineContent : List Char) (k : Int) (hcol : 2 ≤ env.col)
    (hkw : findImportKeyword isWhitespace lineContent importKeywords = some k)
    (hbefore : env.col - 1 < k) :
    tryCompleteImport env isWhitespace lineContent = Except.ok
      (if lineContent.get? k.toNat = some '\"' then
        gatherFileAndModuleCompletionItems env "" false true (env.line - 1)
          (firstStopFrom (fun c => c = ';') lineContent
            (firstStopFrom endsRawSection lineContent (env.col - 1).toNat) : Nat)
          (env.col - 1)
          (firstStopFrom endsRawSection lineContent (env.col - 1).toNat : Nat)
          (some '\"')
      else
        gatherFileAndModuleCompletionItems env "" true false (env.line - 1)
          (firstStopFrom (fun c => c = ';') lineContent
            (firstStopFrom endsModuleSection lineContent (env.col - 1).toNat) : Nat)
          (env.col - 1)
          (firstStopFrom endsModuleSection lineContent (env.col - 1).toNat : Nat)
          none) := by
  have hk : 0 ≤ k := by omega
  have hkcast : ((k.toNat : Nat) : Int) = k := by omega
  have hraw : lineContent.get? k.toNat = some '\"' →
      tryCompleteRawFileName env lineContent k true = Except.ok
        (gatherFileAndModuleCompletionItems env "" false true (env.line - 1)
          (firstStopFrom (fun c => c = ';') lineContent
            (firstStopFrom endsRawSection lineContent (env.col - 1).toNat) : Nat)
          (env.col - 1)
          (firstStopFrom endsRawSection lineContent (env.col - 1).toNat : Nat)
          (some '\"')) := by
    intro hget
    have hfs : firstStopFrom (fun c => c = '\"' || c = '<') lineContent k.toNat = k.toNat :=
      firstStopFrom_at_stop _ lineContent k.toNat '\"' hget (by decide)
    have hclose : closingDelimiter lineContent k.toNat = '\"' := by
      unfold closingDelimiter
      rw [hfs, hget]
      decide
    have h := rawFileNameArguments_cursor_ahead env lineContent k.toNat hcol
      (by rw [hfs]; omega)
    rw [hkcast] at h
    unfold tryCompleteRawFileName
    rw [h, hclose]
  have hse := scanForward_eq endsModuleSection lineContent (lineContent.length + 1)
    (env.col - 1).toNat (by omega) (by omega)
  rw [show (((env.col - 1).toNat : Nat) : Int) = env.col - 1 by omega] at hse
  have hfe := scanForward_eq (fun c => decide (c = ';')) lineContent
    (lineContent.length + 1)
    (firstStopFrom endsModuleSection lineContent (env.col - 1).toNat) (by omega) (by omega)
  have hback := scanBackToDot_before lineContent lineContent.length k (env.col - 2) (by omega)
  unfold tryCompleteImport importPlan
  rw [hkw]
  simp only
  rw [skipWhitespace_at_cursor isWhitespace lineContent env.col lineContent.length k
    (by omega)]
  simp only
  have hneg : ¬ env.col - 2 < 0 := by omega
  have hgt : ¬ env.col - 2 > k := by omega
  by_cases hlt : k < (lineContent.length : Int)
  · obtain ⟨c, hget, hch⟩ := charAt_of_lt lineContent k hk hlt
    rw [if_pos hlt, hch]
    simp only
    by_cases hq : c = '\"'
    · rw [if_pos ⟨hlt, hq⟩]
      simp only
      rw [hq] at hget
      rw [if_pos hget]
      exact hraw hget
    · rw [if_neg (fun h => hq h.2), if_neg hneg, hback]
      simp only
      rw [if_neg hgt]
      simp only
      rw [hse]
      simp only
      rw [hfe]
      simp only
      have hne : ¬ lineContent.get? k.toNat = some '\"' := by
        rw [hget]
        intro h
        exact hq (Option.some.inj h)
      rw [if_neg hne]
      congr 2
      omega
  · rw [if_neg hlt]
    simp only
    rw [if_neg (fun h => hlt h.1), if_neg hneg, hback]
    simp only
    rw [if_neg hgt]
    simp only
    rw [hse]
    simp only
    rw [hfe]
    simp only
    have hne : ¬ lineContent.get? k.toNat = some '\"' := by
      rw [List.get?_eq_none.2 (by omega)]
      simp
    rw [if_neg hne]
    congr 2
    omega

theorem matchExpr_iff_mem_originalChain (e : Expr) (target : Nat) :
    matchExpr e target = true ↔ target ∈ originalChain e := by
  induction e with
  | null => simp [matchExpr, originalChain]
  | node addr kind original ih =>
    unfold matchExpr originalChain
    by_cases h : addr = target
    · simp [h]
    · have h' : ¬ target = addr := fun hh => h hh.symm
      rw [if_neg h]
      cases kind <;> simp [h', ih]

/-! ## Facts about the rendered signature and the prefix `static` -/

/-- In the mode FullSignature the rendered text of a named callable is its return
type, a blank, its name and a rest, and the name offset is the length of the
return type plus one. -/
theorem formatDecl_full_signature (c : LookupResultItem) (decl member : Decl) (name : String)
    (indent : String) (hdecl : c.decl = some decl) (hmem : candidateMember c = some member)
    (hname : member.name = some name) (hcall : member.isCallableDecl = true) :
    ∃ tail : String,
      (formatDeclForCompletion decl c.inner FormatMode.FullSignature indent).1 =
        member.returnTypeText ++ " " ++ name ++ tail ∧
      (formatDeclForCompletion decl c.inner FormatMode.FullSignature indent).2 =
        ((member.returnTypeText.length + 1 : Nat) : Int) := by
  have href : (if decl.isGenericDecl then c.inner else some decl) = some member := by
    unfold candidateMember at hmem
    rw [hdecl] at hmem
    exact hmem
  have hlen : (((member.returnTypeText ++ " ").length : Nat) : Int) =
      ((member.returnTypeText.length + 1 : Nat) : Int) := by
    rw [String.length_append]
    rfl
  unfold formatDeclForCompletion
  simp only [href, hcall, Bool.not_true, Bool.false_eq_true, if_false, if_true, hname, getText]
  cases member.outerGeneric with
  | none =>
    by_cases he : member.hasErrorType = true
    · exact ⟨member.declParamsText ++ (" throws " ++ member.errorTypeText),
        by simp only [he, if_true, String.append_assoc], hlen⟩
    · exact ⟨member.declParamsText,
        by simp only [he, if_false, String.append_assoc, Bool.false_eq_true], hlen⟩
  | some g =>
    by_cases he : member.hasErrorType = true
    · exact ⟨g.genericParamsText ++ (member.declParamsText ++ (" throws " ++
          (member.errorTypeText ++ formatConstraints indent g.constraints))),
        by simp only [he, if_true, String.append_assoc], hlen⟩
    · exact ⟨g.genericParamsText ++ (member.declParamsText ++
          formatConstraints indent g.constraints),
        by simp only [he, if_false, String.append_assoc, Bool.false_eq_true], hlen⟩

theorem addsStatic_iff (ctx : CompletionContext) (decl : Decl) :
    addsStatic ctx decl = true ↔
      ctx.formatMode = FormatMode.FullSignature ∧ decl.hasStaticModifier = true ∧
        ctx.currentPartialDecl = some false := by
  unfold addsStatic
  simp [and_assoc]

/-- The output of the loop body for a named candidate whose rendered text is not
empty, by the two checks that remain. -/
theorem processCandidate_named (ctx : CompletionContext) (ets : List (Option TypeNode))
    (d : List String) (i : Nat) (c : LookupResultItem) (decl member : Decl)
    (hdecl : c.decl = some decl) (hmem : candidateMember c = some member)
    (hname : member.name.isNone = false)
    (hlen : (formatDeclForCompletion decl c.inner ctx.formatMode ctx.indent).1.length ≠ 0) :
    (processCandidate ctx ets d i c).1 =
      if skipsCandidate ctx member (candidateLabelText ctx decl c.inner) = true ∨
          candidateLabelText ctx decl c.inner ∈ d then
        { staticItem := if addsStatic ctx decl then some staticKeywordItem else none }
      else
        { staticItem := if addsStatic ctx decl then some staticKeywordItem else none
          item := some (candidateItem ctx ets i member (candidateLabelText ctx decl c.inner))
          typeItem := returnTypeItem ctx
            (candidateItem ctx ets i member (candidateLabelText ctx decl c.inner))
            (candidateNameStart ctx decl c.inner) } := by
  unfold processCandidate
  simp only [hdecl, hmem, hname, hlen, Bool.false_eq_true, if_false]
  by_cases hs : skipsCandidate ctx member (candidateLabelText ctx decl c.inner) = true
  · simp only [hs, if_true, true_or]
  · simp only [hs, Bool.false_eq_true, if_false, false_or]
    unfold deduplicateAdd
    by_cases hin : candidateLabelText ctx decl c.inner ∈ d
    · simp only [hin, if_true]
    · simp only [hin, if_false]

theorem processCandidate_named_static (ctx : CompletionContext) (ets : List (Option TypeNode))
    (d : List String) (i : Nat) (c : LookupResultItem) (decl member : Decl)
    (hdecl : c.decl = some decl) (hmem : candidateMember c = some member)
    (hname : member.name.isNone = false)
    (hlen : (formatDeclForCompletion decl c.inner ctx.formatMode ctx.indent).1.length ≠ 0) :
    (processCandidate ctx ets d i c).1.staticItem =
      if addsStatic ctx decl then some staticKeywordItem else none := by
  rw [processCandidate_named ctx ets d i c decl member hdecl hmem hname hlen]
  by_cases hskip : skipsCandidate ctx member (candidateLabelText ctx decl c.inner) = true ∨
      candidateLabelText ctx decl c.inner ∈ d
  · rw [if_pos hskip]
  · rw [if_neg hskip]

theorem data_drop_length (a b : String) : (a ++ b).data.drop a.length = b.data := by
  rw [String.data_append]
  exact List.drop_left a.data b.data

theorem data_take_length (a b : String) : (a ++ b).data.take a.length = a.data := by
  rw [String.data_append]
  exact List.take_left a.data b.data

theorem full_signature_nonempty (c : LookupResultItem) (decl member : Decl) (name : String)
    (indent : String) (hdecl : c.decl = some decl) (hmem : candidateMember c = some member)
    (hname : member.name = some name) (hcall : member.isCallableDecl = true) :
    (formatDeclForCompletion decl c.inner FormatMode.FullSignature indent).1.length ≠ 0 := by
  obtain ⟨tail, h1, -⟩ := formatDecl_full_signature c decl member name indent hdecl hmem hname
    hcall
  rw [h1]
  simp only [String.length_append]
  have : " ".length = 1 := rfl
  omega

/-- What the emission of the type-only item tells about a candidate: the mode is
FullSignature, the member is a named callable, and the item is the item of the
candidate with the text before the name as label, the kind Struct and the
candidate count in its sort key. -/
theorem typeItem_spec (ctx : CompletionContext) (ets : List (Option TypeNode))
    (d : List String) (i : Nat) (c : LookupResultItem) (it : CompletionItem)
    (h : (processCandidate ctx ets d i c).1.typeItem = some it) :
    ∃ decl member, c.decl = some decl ∧ candidateMember c = some member ∧
      ctx.formatMode = FormatMode.FullSignature ∧ member.isCallableDecl = true ∧
      (processCandidate ctx ets d i c).1.item =
        some (candidateItem ctx ets i member (candidateLabelText ctx decl c.inner)) ∧
      it.kind = CompletionItemKind.Struct ∧
      it.data = toString i ∧
      it.label =
        (if addsStatic ctx decl then "static " ++ member.returnTypeText
         else member.returnTypeText) ∧
      it.sortText = toString ctx.candidateItems.length ++ ":" ++ it.label := by
  cases hdecl : c.decl with
  | none =>
    have : (processCandidate ctx ets d i c).1 = {} := by
      unfold processCandidate
      simp only [hdecl]
    rw [this] at h
    exact absurd h (by simp)
  | some decl =>
    cases hmem : candidateMember c with
    | none =>
      have : (processCandidate ctx ets d i c).1 = {} := by
        unfold processCandidate
        simp only [hdecl, hmem]
      rw [this] at h
      exact absurd h (by simp)
    | some member =>
      have href : (if decl.isGenericDecl then c.inner else some decl) = some member := by
        unfold candidateMember at hmem
        rw [hdecl] at hmem
        exact hmem
      by_cases hnn : member.name.isNone = true
      · have : (processCandidate ctx ets d i c).1 = {} := by
          unfold processCandidate
          simp only [hdecl, hmem, hnn, if_true]
        rw [this] at h
        exact absurd h (by simp)
      · by_cases hlen :
            (formatDeclForCompletion decl c.inner ctx.formatMode ctx.indent).1.length = 0
        · have : (processCandidate ctx ets d i c).1 = {} := by
            unfold processCandidate
            simp only [hdecl, hmem, hnn, hlen, if_true, if_false, Bool.false_eq_true]
          rw [this] at h
          exact absurd h (by simp)
        · have hnn' : member.name.isNone = false := by
            cases hx : member.name.isNone
            · rfl
            · exact absurd hx hnn
          have hout := processCandidate_named ctx ets d i c decl member hdecl hmem hnn' hlen
          rw [hout] at h ⊢
          by_cases hskip :
              skipsCandidate ctx member (candidateLabelText ctx decl c.inner) = true ∨
                candidateLabelText ctx decl c.inner ∈ d
          · rw [if_pos hskip] at h
            exact absurd h (by simp)
          · rw [if_neg hskip] at h ⊢
            simp only at h
            unfold returnTypeItem at h
            by_cases hstart : candidateNameStart ctx decl c.inner > 1
            · rw [if_pos hstart] at h
              simp only [Option.some.injEq] at h
              obtain ⟨name, hname⟩ : ∃ name, member.name = some name := by
                cases hx : member.name with
                | none => rw [hx] at hnn; exact absurd rfl hnn
                | some n => exact ⟨n, rfl⟩
              have hmode : ctx.formatMode = FormatMode.FullSignature := by
                cases hm : ctx.formatMode with
                | FullSignature => rfl
                | Name =>
                  exfalso
                  have h0 : candidateNameStart ctx decl c.inner = 0 := by
                    simp [candidateNameStart, addsStatic, hm, formatDeclForCompletion]
                  omega
                | FuncSignatureWithoutReturnType =>
                  exfalso
                  have h0 : candidateNameStart ctx decl c.inner = 0 := by
                    simp only [candidateNameStart, addsStatic, hm, formatDeclForCompletion, href]
                    by_cases hc : member.isCallableDecl = true
                    · simp [hc]
                    · simp [hc]
                  omega
              have hcall : member.isCallableDecl = true := by
                cases hc : member.isCallableDecl with
                | true => rfl
                | false =>
                  exfalso
                  apply hlen
                  rw [hmode]
                  simp [formatDeclForCompletion, href, hc]
              obtain ⟨tail, h1, h2⟩ := formatDecl_full_signature c decl member name ctx.indent
                hdecl hmem hname hcall
              refine ⟨decl, member, rfl, rfl, hmode, hcall, rfl, ?_, ?_, ?_, ?_⟩
              · rw [← h]
              · rw [← h]
                rfl
              · rw [← h]
                simp only [candidateItem]
                by_cases hadds : addsStatic ctx decl = true
                · have hlabel : candidateLabelText ctx decl c.inner =
                      ("static " ++ member.returnTypeText) ++ (" " ++ name ++ tail) := by
                    unfold candidateLabelText
                    rw [if_pos hadds, hmode, h1]
                    simp only [String.append_assoc]
                  have hnat : (candidateNameStart ctx decl c.inner - 1).toNat =
                      ("static " ++ member.returnTypeText).length := by
                    unfold candidateNameStart
                    rw [if_pos hadds, hmode, h2]
                    simp only [String.length_append]
                    have h7 : "static ".length = 7 := rfl
                    omega
                  rw [hlabel, hnat, data_take_length, if_pos hadds]
                · have hlabel : candidateLabelText ctx decl c.inner =
                      member.returnTypeText ++ (" " ++ name ++ tail) := by
                    unfold candidateLabelText
                    rw [if_neg hadds, hmode, h1]
                    simp only [String.append_assoc]
                  have hnat : (candidateNameStart ctx decl c.inner - 1).toNat =
                      member.returnTypeText.length := by
                    unfold candidateNameStart
                    rw [if_neg hadds, hmode, h2]
                    omega
                  rw [hlabel, hnat, data_take_length, if_neg hadds]
              · rw [← h]
            · rw [if_neg hstart] at h
              exact absurd h (by simp)

/-! ## Facts about attribute completion -/

theorem endsWith_append (stem p : List Char) : endsWith (stem ++ p) p = true := by
  unfold endsWith
  simp

theorem endsWith_iff (s p : List Char) : endsWith s p = true ↔ ∃ stem, s = stem ++ p := by
  constructor
  · intro h
    unfold endsWith at h
    simp only [Bool.and_eq_true, decide_eq_true_eq] at h
    refine ⟨s.take (s.length - p.length), ?_⟩
    conv_lhs => rw [← List.take_append_drop (s.length - p.length) s]
    rw [h.2]
  · rintro ⟨stem, rfl⟩
    exact endsWith_append stem p

theorem attributeLabel_stem (stem : String) :
    (if endsWith (stem ++ "Attribute").data "Attribute".data then
      String.mk ((stem ++ "Attribute").data.take ((stem ++ "Attribute").length - 9))
    else stem ++ "Attribute") = stem := by
  have h1 : endsWith (stem ++ "Attribute").data "Attribute".data = true := by
    rw [String.data_append]
    exact endsWith_append _ _
  have h2 : (stem ++ "Attribute").length - 9 = stem.length := by
    rw [String.length_append]
    have : "Attribute".length = 9 := rfl
    omega
  rw [if_pos h1, h2, data_take_length]

/-! ## Facts about the generated identifier -/

theorem guidDigit_hex (r : Nat) : guidDigit r ∈ "0123456789ABCDEF".data := by
  unfold guidDigit
  have h : r % 16 < 16 := Nat.mod_lt _ (by decide)
  generalize r % 16 = m at h
  interval_cases m <;> decide

theorem guidSection_length (rand : Nat → Nat) (start len : Nat) :
    (guidSection rand start len).length = len := by
  unfold guidSection
  simp

theorem guidSection_hex (rand : Nat → Nat) (start len : Nat) :
    ∀ ch ∈ guidSection rand start len, ch ∈ "0123456789ABCDEF".data := by
  intro ch hch
  unfold guidSection at hch
  obtain ⟨k, -, rfl⟩ := List.mem_map.1 hch
  exact guidDigit_hex _

/-- For a hash text of at most 8 characters the label has the groups of lengths
8, 4, 4, 4 and 12, the first one starting with the hash text. -/
theorem guid_label_of_short_hash (hashStr : String) (rand : Nat → Nat)
    (hlen : hashStr.length ≤ 8) :
    ∃ g1 g2 g3 g4 g5 : List Char,
      (generateGUIDCompletionItem hashStr rand).label =
        "COM(\"" ++ String.mk g1 ++ "-" ++ String.mk g2 ++ "-" ++ String.mk g3 ++ "-" ++
          String.mk g4 ++ "-" ++ String.mk g5 ++ "\")" ∧
      g1.length = 8 ∧ g2.length = 4 ∧ g3.length = 4 ∧ g4.length = 4 ∧ g5.length = 12 ∧
      hashStr.data <+: g1 ∧
      (∀ ch ∈ g1.drop hashStr.length ++ g2 ++ g3 ++ g4 ++ g5,
        ch ∈ "0123456789ABCDEF".data) := by
  have hl0 : ((8 : Int) - hashStr.length).toNat = 8 - hashStr.length := by omega
  refine ⟨hashStr.data ++ guidSection rand 0 (8 - hashStr.length),
    guidSection rand (8 - hashStr.length) 4, guidSection rand (8 - hashStr.length + 4) 4,
    guidSection rand (8 - hashStr.length + 8) 4, guidSection rand (8 - hashStr.length + 12) 12,
    ?_, ?_, guidSection_length _ _ _, guidSection_length _ _ _, guidSection_length _ _ _,
    guidSection_length _ _ _, List.prefix_append _ _, ?_⟩
  · unfold generateGUIDCompletionItem
    simp only [hl0]
    have : String.mk (hashStr.data ++ guidSection rand 0 (8 - hashStr.length)) =
        hashStr ++ String.mk (guidSection rand 0 (8 - hashStr.length)) := rfl
    rw [this]
    simp only [String.append_assoc]
  · rw [List.length_append, guidSection_length]
    have : hashStr.data.length = hashStr.length := rfl
    omega
  · intro ch hch
    have hd : (hashStr.data ++ guidSection rand 0 (8 - hashStr.length)).drop hashStr.length =
        guidSection rand 0 (8 - hashStr.length) := List.drop_left _ _
    rw [hd] at hch
    simp only [List.mem_append] at hch
    rcases hch with (((h | h) | h) | h) | h <;> exact guidSection_hex _ _ _ ch h

/-! ## Facts about the enumeration callback -/

theorem translateFileName_plain (l : List Char) : translateFileName false l = some l := by
  induction l with
  | nil => rfl
  | cons ch rest ih =>
    unfold translateFileName
    simp [ih]

theorem translateFileName_module (l : List Char) :
    translateFileName true l =
      if '.' ∈ l then none else some (l.map (fun ch => if ch = '-' then '_' else ch)) := by
  induction l with
  | nil => rfl
  | cons ch rest ih =>
    unfold translateFileName
    simp only [if_true, ih]
    by_cases h1 : ch = '-'
    · subst h1
      by_cases hr : '.' ∈ rest
      · simp [hr]
      · simp [hr]
    · by_cases h2 : ch = '.'
      · subst h2
        simp
      · have h2' : ¬ '.' = ch := fun h => h2 h.symm
        by_cases hr : '.' ∈ rest
        · simp [h1, h2, hr]
        · simp [h1, h2, h2', hr]

theorem wellFormed_empty : EnumerationState.wellFormed {} := by
  unfold EnumerationState.wellFormed
  simp

theorem enumerationCallback_wellFormed (env : PathContext) (root : String) (tm imp : Bool)
    (path : String) (st : EnumerationState) (entry : PathType × String)
    (h : st.wellFormed) : (enumerationCallback env root tm imp path st entry).wellFormed := by
  unfold enumerationCallback
  cases hl : entryLabel tm imp entry.1 entry.2 with
  | none => exact h
  | some lk =>
    obtain ⟨label, kind⟩ := lk
    simp only
    by_cases hlen : label.length = 0
    · rw [if_pos hlen]; exact h
    · rw [if_neg hlen]
      by_cases hkey : toString kind.code ++ label ∈ st.itemSet
      · rw [if_pos hkey]; exact h
      · rw [if_neg hkey]
        obtain ⟨h1, h2⟩ := h
        have hnew : ∀ detail : String,
            EnumerationState.wellFormed
              { items := st.items ++ [{ label := label, kind := kind, detail := detail }]
                itemSet := (toString kind.code ++ label) :: st.itemSet } := by
          intro detail
          refine ⟨?_, ?_⟩
          · intro it hit
            simp only [List.mem_append, List.mem_singleton] at hit
            rcases hit with hit | hit
            · exact ⟨(h1 it hit).1, List.mem_cons_of_mem _ (h1 it hit).2⟩
            · subst hit
              exact ⟨hlen, List.mem_cons_self _ _⟩
          · simp only [List.map_append, List.map_cons, List.map_nil]
            rw [List.nodup_append]
            refine ⟨h2, List.nodup_singleton _, ?_⟩
            intro k hk1 hk2
            simp only [List.mem_singleton] at hk2
            obtain ⟨it, hit, rfl⟩ := List.mem_map.1 hk1
            apply hkey
            have := (h1 it hit).2
            rw [hk2] at this
            exact this
        split_ifs
        · exact hnew _
        · exact hnew _

theorem foldl_callback_wellFormed (env : PathContext) (root : String) (tm imp : Bool)
    (path : String) (entries : List (PathType × String)) :
    ∀ st : EnumerationState, st.wellFormed →
      (entries.foldl (enumerationCallback env root tm imp path) st).wellFormed := by
  induction entries with
  | nil => intro st h; exact h
  | cons e rest ih =>
    intro st h
    exact ih _ (enumerationCallback_wellFormed env root tm imp path st e h)

theorem addCandidate_wellFormed (env : PathContext) (root : String) (pfx : List Char)
    (tm imp : Bool) (st : EnumerationState) (path : String) (h : st.wellFormed) :
    (addCandidate env root pfx tm imp st path).wellFormed := by
  unfold addCandidate
  split_ifs
  · exact foldl_callback_wellFormed env root tm imp _ _ _ h
  · exact h

theorem scanSearchPaths_wellFormed (env : PathContext) (root : String) (pfx : List Char)
    (tm imp : Bool) (paths : List String) :
    ∀ st : ScanState, st.enumeration.wellFormed →
      (scanSearchPaths env root pfx tm imp paths st).enumeration.wellFormed := by
  induction paths with
  | nil => intro st h; exact h
  | cons p rest ih =>
    intro st h
    unfold scanSearchPaths
    split_ifs
    · exact h
    · apply ih
      exact addCandidate_wellFormed env root pfx tm imp st.enumeration p h

theorem scanAllSearchPaths_wellFormed (env : PathContext) (pfxPath : String) (tm imp : Bool) :
    (scanAllSearchPaths env pfxPath tm imp).enumeration.wellFormed := by
  unfold scanAllSearchPaths
  simp only
  have h0 := scanSearchPaths_wellFormed env (workspaceRootOf env)
    (stripParentSegments pfxPath.length pfxPath.data) tm imp env.additionalSearchPaths {}
    wellFormed_empty
  split_ifs
  · exact scanSearchPaths_wellFormed env _ _ tm imp env.workspaceSearchPaths _ h0
  · exact h0

theorem setTextEdit_label_kind (tm : Bool) (lineIndex fileNameEnd sectionStart sectionEnd : Int)
    (closingChar : Option Char) (item : TextEditCompletionItem) :
    (setTextEdit tm lineIndex fileNameEnd sectionStart sectionEnd closingChar item).label =
      item.label ∧
    (setTextEdit tm lineIndex fileNameEnd sectionStart sectionEnd closingChar item).kind =
      item.kind := by
  unfold setTextEdit
  split_ifs <;> exact ⟨rfl, rfl⟩

theorem gather_map_kind_label (env : PathContext) (pfxPath : String) (tm imp : Bool)
    (lineIndex fileNameEnd sectionStart sectionEnd : Int) (closingChar : Option Char) :
    (gatherFileAndModuleCompletionItems env pfxPath tm imp lineIndex fileNameEnd sectionStart
      sectionEnd closingChar).map (fun it => (it.kind, it.label)) =
    (scanAllSearchPaths env pfxPath tm imp).enumeration.items.map
      (fun it => (it.kind, it.label)) := by
  unfold gatherFileAndModuleCompletionItems
  simp only
  split_ifs
  · simp only [List.map_map]
    apply List.map_congr_left
    intro it _
    simp only [Function.comp]
    rw [(setTextEdit_label_kind tm lineIndex fileNameEnd sectionStart sectionEnd closingChar
      it).1, (setTextEdit_label_kind tm lineIndex fileNameEnd sectionStart sectionEnd
      closingChar it).2]
  · simp only [List.map_map]
    apply List.map_congr_left
    intro it _
    simp only [Function.comp]
    rw [(setTextEdit_label_kind tm lineIndex fileNameEnd sectionStart sectionEnd closingChar
      it).1, (setTextEdit_label_kind tm lineIndex fileNameEnd sectionStart sectionEnd
      closingChar it).2]

theorem gather_labels (env : PathContext) (pfxPath : String) (tm imp : Bool)
    (lineIndex fileNameEnd sectionStart sectionEnd : Int) (closingChar : Option Char) :
    (∀ item ∈ gatherFileAndModuleCompletionItems env pfxPath tm imp lineIndex fileNameEnd
        sectionStart sectionEnd closingChar, item.label ≠ "") ∧
    ((gatherFileAndModuleCompletionItems env pfxPath tm imp lineIndex fileNameEnd sectionStart
      sectionEnd closingChar).map (fun it => (it.kind, it.label))).Nodup := by
  obtain ⟨h1, h2⟩ := scanAllSearchPaths_wellFormed env pfxPath tm imp
  refine ⟨?_, ?_⟩
  · intro item hitem
    have hmem : (item.kind, item.label) ∈
        (gatherFileAndModuleCompletionItems env pfxPath tm imp lineIndex fileNameEnd
          sectionStart sectionEnd closingChar).map (fun it => (it.kind, it.label)) :=
      List.mem_map.2 ⟨item, hitem, rfl⟩
    rw [gather_map_kind_label] at hmem
    obtain ⟨raw, hraw, heq⟩ := List.mem_map.1 hmem
    simp only [Prod.mk.injEq] at heq
    intro hempty
    apply (h1 raw hraw).1
    rw [heq.2, hempty]
    rfl
  · rw [gather_map_kind_label]
    have hcomp : (scanAllSearchPaths env pfxPath tm imp).enumeration.items.map entryKey =
        ((scanAllSearchPaths env pfxPath tm imp).enumeration.items.map
          (fun it => (it.kind, it.label))).map
          (fun p : CompletionItemKind × String => toString p.1.code ++ p.2) := by
      simp only [List.map_map]
      rfl
    rw [hcomp] at h2
    exact List.Nodup.of_map _ h2

/-! ## Facts about the bounds of the accesses -/

theorem startsWith_length (s p : List Char) (h : startsWith s p = true) :
    p.length ≤ s.length := by
  induction p generalizing s with
  | nil => simp
  | cons c p ih =>
    cases s with
    | nil => simp [startsWith] at h
    | cons a s =>
      simp only [startsWith, Bool.and_eq_true] at h
      have := ih s h.2
      simp only [List.length_cons]
      omega

theorem indexOfFrom_bound (pat : List Char) (s : List Char) :
    ∀ i : Nat, indexOfFrom pat s i ≠ -1 →
      (i : Int) ≤ indexOfFrom pat s i ∧
      indexOfFrom pat s i + pat.length ≤ (i : Int) + s.length := by
  induction s with
  | nil =>
    intro i h
    unfold indexOfFrom at h ⊢
    by_cases hp : pat = []
    · simp [hp]
    · simp [hp] at h
  | cons c rest ih =>
    intro i h
    unfold indexOfFrom at h ⊢
    by_cases hs : startsWith (c :: rest) pat = true
    · rw [if_pos hs]
      have := startsWith_length _ _ hs
      refine ⟨le_refl _, ?_⟩
      omega
    · rw [if_neg hs] at h ⊢
      obtain ⟨h1, h2⟩ := ih (i + 1) h
      simp only [List.length_cons]
      refine ⟨by omega, by omega⟩

theorem indexOf_bound (s pat : List Char) (h : indexOf s pat ≠ -1) :
    0 ≤ indexOf s pat ∧ indexOf s pat + pat.length ≤ s.length := by
  unfold indexOf at *
  obtain ⟨h1, h2⟩ := indexOfFrom_bound pat s 0 h
  refine ⟨by simpa using h1, by simpa using h2⟩

theorem skipWhitespace_safe (isWhitespace : Char → Bool) (s : List Char) (col : Int) :
    ∀ (n fuel : Nat) (pos : Int), 0 ≤ pos → (s.length : Int) - pos ≤ n → n + 1 ≤ fuel →
      ∃ r, skipWhitespace isWhitespace s col fuel pos = Except.ok r ∧ pos ≤ r := by
  intro n
  induction n with
  | zero =>
    intro fuel pos h0 hn hf
    cases fuel with
    | zero => omega
    | succ fuel =>
      unfold skipWhitespace
      rw [if_neg (by omega)]
      exact ⟨pos, rfl, le_refl _⟩
  | succ n ih =>
    intro fuel pos h0 hn hf
    cases fuel with
    | zero => omega
    | succ fuel =>
      unfold skipWhitespace
      by_cases hc : pos < (s.length : Int) ∧ pos < col - 1
      · rw [if_pos hc]
        obtain ⟨c, -, hch⟩ := charAt_of_lt s pos h0 hc.1
        rw [hch]
        simp only
        by_cases hw : isWhitespace c = true
        · rw [if_pos hw]
          obtain ⟨r, hr, hle⟩ := ih fuel (pos + 1) (by omega) (by omega) (by omega)
          exact ⟨r, hr, by omega⟩
        · rw [if_neg hw]
          exact ⟨pos, rfl, le_refl _⟩
      · rw [if_neg hc]
        exact ⟨pos, rfl, le_refl _⟩

theorem scanBackToSeparator_safe (s : List Char) (pos : Int) (hpos : 0 ≤ pos) :
    ∀ (n fuel : Nat) (lastPos : Int), lastPos < s.length → lastPos - pos + 1 ≤ n →
      n + 1 ≤ fuel →
      scanBackToSeparator s fuel pos lastPos = Except.error Failure.notApplicable ∨
      ∃ r, scanBackToSeparator s fuel pos lastPos = Except.ok r ∧ r ≤ lastPos := by
  intro n
  induction n with
  | zero =>
    intro fuel lastPos hlen hn hf
    cases fuel with
    | zero => omega
    | succ fuel =>
      unfold scanBackToSeparator
      rw [if_neg (by omega)]
      exact Or.inr ⟨lastPos, rfl, le_refl _⟩
  | succ n ih =>
    intro fuel lastPos hlen hn hf
    cases fuel with
    | zero => omega
    | succ fuel =>
      unfold scanBackToSeparator
      by_cases hge : lastPos ≥ pos
      · rw [if_pos hge]
        obtain ⟨c, -, hch⟩ := charAt_of_lt s lastPos (by omega) hlen
        rw [hch]
        simp only
        by_cases h1 : c = '/' ∨ c = '\\'
        · rw [if_pos h1]
          exact Or.inr ⟨lastPos, rfl, le_refl _⟩
        · rw [if_neg h1]
          by_cases h2 : c = '\"' ∨ c = '>'
          · rw [if_pos h2]
            exact Or.inl rfl
          · rw [if_neg h2]
            rcases ih fuel (lastPos - 1) (by omega) (by omega) (by omega) with h | ⟨r, hr, hle⟩
            · exact Or.inl h
            · exact Or.inr ⟨r, hr, by omega⟩
      · rw [if_neg hge]
        exact Or.inr ⟨lastPos, rfl, le_refl _⟩

theorem scanBackToDot_safe (s : List Char) (pos : Int) (hpos : 0 ≤ pos) :
    ∀ (n fuel : Nat) (lastPos : Int), lastPos < s.length → lastPos - pos + 1 ≤ n →
      n + 1 ≤ fuel →
      scanBackToDot s fuel pos lastPos = Except.error Failure.notApplicable ∨
      ∃ r, scanBackToDot s fuel pos lastPos = Except.ok r ∧ r ≤ lastPos := by
  intro n
  induction n with
  | zero =>
    intro fuel lastPos hlen hn hf
    cases fuel with
    | zero => omega
    | succ fuel =>
      unfold scanBackToDot
      rw [if_neg (by omega)]
      exact Or.inr ⟨lastPos, rfl, le_refl _⟩
  | succ n ih =>
    intro fuel lastPos hlen hn hf
    cases fuel with
    | zero => omega
    | succ fuel =>
      unfold scanBackToDot
      by_cases hge : lastPos ≥ pos
      · rw [if_pos hge]
        obtain ⟨c, -, hch⟩ := charAt_of_lt s lastPos (by omega) hlen
        rw [hch]
        simp only
        by_cases h1 : c = '.'
        · rw [if_pos h1]
          exact Or.inr ⟨lastPos, rfl, le_refl _⟩
        · rw [if_neg h1]
          by_cases h2 : c = ';'
          · rw [if_pos h2]
            exact Or.inl rfl
          · rw [if_neg h2]
            rcases ih fuel (lastPos - 1) (by omega) (by omega) (by omega) with h | ⟨r, hr, hle⟩
            · exact Or.inl h
            · exact Or.inr ⟨r, hr, by omega⟩
      · rw [if_neg hge]
        exact Or.inr ⟨lastPos, rfl, le_refl _⟩

theorem scanIncludeGap_eq (isWhitespace : Char → Bool) (s : List Char) (pos : Nat)
    (hpos : pos ≤ s.length) :
    ∀ (n fuel i : Nat), pos - i ≤ n → n + 1 ≤ fuel →
      scanIncludeGap isWhitespace s (pos : Int) fuel (i : Int) =
        Except.ok (((s.take pos).drop i).all isWhitespace) := by
  intro n
  induction n with
  | zero =>
    intro fuel i hn hf
    cases fuel with
    | zero => omega
    | succ fuel =>
      unfold scanIncludeGap
      rw [if_neg (by omega)]
      have : (s.take pos).drop i = [] := List.drop_eq_nil_of_le (by simp; omega)
      rw [this]
      rfl
  | succ n ih =>
    intro fuel i hn hf
    cases fuel with
    | zero => omega
    | succ fuel =>
      unfold scanIncludeGap
      by_cases hlt : (i : Int) < (pos : Int)
      · have hi : i < pos := by omega
        have hget : (s.take pos).get? i = s.get? i := by
          rw [List.get?_eq_getElem?, List.get?_eq_getElem?, List.getElem?_take_of_lt hi]
        obtain ⟨c, hc⟩ : ∃ c, s.get? i = some c := ⟨s[i], List.get?_eq_get (by omega)⟩
        rw [if_pos hlt, charAt_ofNat s i c hc]
        simp only
        have hdrop := drop_eq_cons_of_get? (s.take pos) i c (by rw [hget, hc])
        rw [hdrop, List.all_cons]
        by_cases hw : isWhitespace c = true
        · rw [if_pos hw, hw, Bool.true_and]
          have := ih fuel (i + 1) (by omega) (by omega)
          rw [show ((i : Int) + 1) = ((i + 1 : Nat) : Int) by omega]
          exact this
        · rw [if_neg hw]
          have hw' : isWhitespace c = false := by
            cases h : isWhitespace c
            · rfl
            · exact absurd h hw
          rw [hw', Bool.false_and]
      · rw [if_neg hlt]
        have : (s.take pos).drop i = [] := List.drop_eq_nil_of_le (by simp; omega)
        rw [this]
        rfl

theorem subString_inside (s : List Char) (idx len : Int) (h0 : 0 ≤ idx) (h1 : 0 ≤ len)
    (h2 : idx + len ≤ s.length) :
    subString s idx len = Except.ok ((s.drop idx.toNat).take len.toNat) := by
  unfold subString
  rw [if_neg (by omega)]

/-- With the cursor inside the line, the first part of `tryCompleteRawFileName`
ends with `SLANG_FAIL` or with arguments whose positions are in order. -/
theorem rawFileNameArguments_safe (env : PathContext) (lineContent : List Char) (pos : Nat)
    (hcol : env.col ≤ (lineContent.length : Int) + 1) :
    ∀ res, rawFileNameArguments env lineContent (pos : Int) = res →
      res = Except.error Failure.notApplicable ∨
      ∃ a, res = Except.ok a ∧
        a.sectionStart ≤ env.col - 1 ∧ env.col - 1 ≤ a.sectionEnd ∧
        a.sectionEnd ≤ a.fileNameEnd ∧ a.fileNameEnd ≤ lineContent.length := by
  intro res hres
  by_cases hneg : env.col - 2 < 0
  · rw [rawFileNameArguments_first_column env lineContent pos (by omega)] at hres
    exact Or.inl hres.symm
  · unfold rawFileNameArguments at hres
    rw [scanForward_eq _ lineContent (lineContent.length + 1) pos (by omega) (by omega)] at hres
    simp only at hres
    revert hres
    generalize firstStopFrom (fun c => decide (c = '\"') || decide (c = '<')) lineContent pos = q
    intro hres
    have hneg1 : ¬ env.col - 1 < 0 := by omega
    have hcast : env.col - 1 = (((env.col - 1).toNat : Nat) : Int) := by omega
    have hse := scanForward_eq endsRawSection lineContent (lineContent.length + 1)
      (env.col - 1).toNat (by omega) (by omega)
    rw [← hcast] at hse
    have hfe := scanForward_eq (fun c => decide (c = ';')) lineContent
      (lineContent.length + 1)
      (firstStopFrom endsRawSection lineContent (env.col - 1).toNat) (by omega) (by omega)
    have hb1 := le_firstStopFrom endsRawSection lineContent (env.col - 1).toNat
    have hb2 := firstStopFrom_le endsRawSection lineContent (env.col - 1).toNat (by omega)
    have hb3 := le_firstStopFrom (fun c => decide (c = ';')) lineContent
      (firstStopFrom endsRawSection lineContent (env.col - 1).toNat)
    have hb4 := firstStopFrom_le (fun c => decide (c = ';')) lineContent
      (firstStopFrom endsRawSection lineContent (env.col - 1).toNat) hb2
    have hopen : ∃ c, (if (q : Int) < (lineContent.length : Int) then charAt lineContent q
        else Except.ok '\"') = Except.ok c := by
      by_cases hq : (q : Int) < (lineContent.length : Int)
      · obtain ⟨c, -, hch⟩ := charAt_of_lt lineContent (q : Int) (by omega) hq
        exact ⟨c, by rw [if_pos hq, hch]⟩
      · exact ⟨'\"', by rw [if_neg hq]⟩
    obtain ⟨openChar, hopen⟩ := hopen
    rw [hopen] at hres
    simp only at hres
    rw [if_neg hneg] at hres
    rcases scanBackToSeparator_safe lineContent ((q : Int) + 1) (by omega) lineContent.length
        (lineContent.length + 1) (env.col - 2) (by omega) (by omega) (by omega) with
      hb | ⟨r, hb, hle⟩
    · rw [hb] at hres
      exact Or.inl hres.symm
    · rw [hb] at hres
      simp only at hres
      rw [if_neg hneg1, hse] at hres
      simp only at hres
      rw [hfe] at hres
      simp only at hres
      by_cases hgt : r > (q : Int) + 1
      · rw [if_pos hgt, subString_inside lineContent _ _ (by omega) (by omega) (by omega)]
          at hres
        simp only at hres
        rw [← hres]
        exact Or.inr ⟨_, rfl, by simp only; omega, by simp only; omega,
          by simp only; omega, by simp only; omega⟩
      · rw [if_neg hgt] at hres
        simp only at hres
        rw [← hres]
        exact Or.inr ⟨_, rfl, by simp only; omega, by simp only; omega,
          by simp only; omega, by simp only; omega⟩

/-- With the cursor inside the line, the first part of `tryCompleteImport` ends
with `SLANG_FAIL`, with the position of a quoted path inside the line, or with
arguments whose positions are in order. -/
theorem importPlan_safe (env : PathContext) (isWhitespace : Char → Bool)
    (lineContent : List Char) (hcol : env.col ≤ (lineContent.length : Int) + 1) :
    ∀ res, importPlan env isWhitespace lineContent = res →
      res = Except.error Failure.notApplicable ∨
      (∃ pos : Nat, res = Except.ok (ImportPlan.rawFileName (pos : Int)) ∧
        pos < lineContent.length) ∨
      ∃ a, res = Except.ok (ImportPlan.moduleName a) ∧
        a.sectionStart ≤ env.col - 1 ∧ env.col - 1 ≤ a.sectionEnd ∧
        a.sectionEnd ≤ a.fileNameEnd ∧ a.fileNameEnd ≤ lineContent.length := by
  intro res hres
  unfold importPlan at hres
  cases hkw : findImportKeyword isWhitespace lineContent importKeywords with
  | none =>
    rw [hkw] at hres
    exact Or.inl hres.symm
  | some k =>
    have hk := findImportKeyword_nonneg isWhitespace lineContent importKeywords k hkw
    rw [hkw] at hres
    simp only at hres
    obtain ⟨p, hp, hkp⟩ := skipWhitespace_safe isWhitespace lineContent env.col
      lineContent.length (lineContent.length + 1) k hk (by omega) (by omega)
    rw [hp] at hres
    simp only at hres
    have hfirst : ∃ c, (if p < (lineContent.length : Int) then charAt lineContent p
        else Except.ok ' ') = Except.ok c := by
      by_cases hq : p < (lineContent.length : Int)
      · obtain ⟨c, -, hch⟩ := charAt_of_lt lineContent p (by omega) hq
        exact ⟨c, by rw [if_pos hq, hch]⟩
      · exact ⟨' ', by rw [if_neg hq]⟩
    obtain ⟨first, hfirst⟩ := hfirst
    rw [hfirst] at hres
    simp only at hres
    by_cases hquote : p < (lineContent.length : Int) ∧ first = '\"'
    · rw [if_pos hquote] at hres
      refine Or.inr (Or.inl ⟨p.toNat, ?_, by omega⟩)
      rw [← hres, show ((p.toNat : Nat) : Int) = p by omega]
    · rw [if_neg hquote] at hres
      by_cases hneg : env.col - 2 < 0
      · rw [if_pos hneg] at hres
        exact Or.inl hres.symm
      · rw [if_neg hneg] at hres
        have hcast : env.col - 1 = (((env.col - 1).toNat : Nat) : Int) := by omega
        have hse := scanForward_eq endsModuleSection lineContent (lineContent.length + 1)
          (env.col - 1).toNat (by omega) (by omega)
        rw [← hcast] at hse
        have hfe := scanForward_eq (fun c => decide (c = ';')) lineContent
          (lineContent.length + 1)
          (firstStopFrom endsModuleSection lineContent (env.col - 1).toNat) (by omega)
          (by omega)
        have hb1 := le_firstStopFrom endsModuleSection lineContent (env.col - 1).toNat
        have hb2 := firstStopFrom_le endsModuleSection lineContent (env.col - 1).toNat
          (by omega)
        have hb3 := le_firstStopFrom (fun c => decide (c = ';')) lineContent
          (firstStopFrom endsModuleSection lineContent (env.col - 1).toNat)
        have hb4 := firstStopFrom_le (fun c => decide (c = ';')) lineContent
          (firstStopFrom endsModuleSection lineContent (env.col - 1).toNat) hb2
        rcases scanBackToDot_safe lineContent p (by omega) lineContent.length
            (lineContent.length + 1) (env.col - 2) (by omega) (by omega) (by omega) with
          hb | ⟨r, hb, hle⟩
        · rw [hb] at hres
          exact Or.inl hres.symm
        · rw [hb] at hres
          simp only at hres
          by_cases hgt : r > p
          · rw [if_pos hgt, subString_inside lineContent _ _ (by omega) (by omega) (by omega)]
              at hres
            simp only at hres
            rw [hse] at hres
            simp only at hres
            rw [hfe] at hres
            simp only at hres
            rw [← hres]
            exact Or.inr (Or.inr ⟨_, rfl, by simp only; omega, by simp only; omega,
              by simp only; omega, by simp only; omega⟩)
          · rw [if_neg hgt] at hres
            simp only at hres
            rw [hse] at hres
            simp only at hres
            rw [hfe] at hres
            simp only at hres
            rw [← hres]
            exact Or.inr (Or.inr ⟨_, rfl, by simp only; omega, by simp only; omega,
              by simp only; omega, by simp only; omega⟩)

theorem tryCompleteRawFileName_safe (env : PathContext) (lineContent : List Char) (pos : Nat)
    (isImportString : Bool) (hcol : env.col ≤ (lineContent.length : Int) + 1) :
    staysInsideLine (tryCompleteRawFileName env lineContent (pos : Int) isImportString) := by
  unfold tryCompleteRawFileName staysInsideLine
  rcases rawFileNameArguments_safe env lineContent pos hcol _ rfl with h | ⟨a, h, -⟩
  · rw [h]
    exact Or.inl rfl
  · rw [h]
    exact Or.inr ⟨_, rfl⟩

theorem tryCompleteImport_safe (env : PathContext) (isWhitespace : Char → Bool)
    (lineContent : List Char) (hcol : env.col ≤ (lineContent.length : Int) + 1) :
    staysInsideLine (tryCompleteImport env isWhitespace lineContent) := by
  unfold tryCompleteImport
  rcases importPlan_safe env isWhitespace lineContent hcol _ rfl with
    h | ⟨pos, h, -⟩ | ⟨a, h, -⟩
  · rw [h]
    exact Or.inl rfl
  · rw [h]
    exact tryCompleteRawFileName_safe env lineContent pos true hcol
  · rw [h]
    exact Or.inr ⟨_, rfl⟩

theorem tryCompleteInclude_safe (env : PathContext) (isWhitespace : Char → Bool)
    (lineContent : List Char) (hcol : env.col ≤ (lineContent.length : Int) + 1) :
    staysInsideLine (tryCompleteInclude env isWhitespace lineContent) := by
  unfold tryCompleteInclude
  by_cases h1 : (!startsWith lineContent "#".data) = true
  · rw [if_pos h1]
    exact Or.inl rfl
  · rw [if_neg h1]
    simp only
    by_cases h2 : indexOf lineContent "include ".data = -1
    · rw [if_pos h2]
      exact Or.inl rfl
    · rw [if_neg h2]
      by_cases h3 : (!onlyWhitespaceBetween isWhitespace lineContent
          (indexOf lineContent "include ".data).toNat) = true
      · rw [if_pos h3]
        exact Or.inl rfl
      · rw [if_neg h3]
        have hb := (indexOf_bound lineContent "include ".data h2).1
        have := tryCompleteRawFileName_safe env lineContent
          (indexOf lineContent "include ".data + 8).toNat false hcol
        rwa [show (((indexOf lineContent "include ".data + 8).toNat : Nat) : Int) =
          indexOf lineContent "include ".data + 8 by omega] at this

theorem scanIncludeGap_include (isWhitespace : Char → Bool) (lineContent : List Char)
    (h : indexOf lineContent "include ".data ≠ -1) :
    scanIncludeGap isWhitespace lineContent (indexOf lineContent "include ".data)
        (lineContent.length + 1) 1 =
      Except.ok (onlyWhitespaceBetween isWhitespace lineContent
        (indexOf lineContent "include ".data).toNat) := by
  obtain ⟨h0, h1⟩ := indexOf_bound lineContent "include ".data h
  have h8 : "include ".data.length = 8 := rfl
  rw [h8] at h1
  have := scanIncludeGap_eq isWhitespace lineContent
    (indexOf lineContent "include ".data).toNat (by omega) lineContent.length
    (lineContent.length + 1) 1 (by omega) (by omega)
  rw [show (((indexOf lineContent "include ".data).toNat : Nat) : Int) =
    indexOf lineContent "include ".data by omega] at this
  exact this

/-! ## The claims about the candidate collector -/

/-- C1, evaluated at a request for the signatures of two members `int foo()` and
`int bar()`: the response carries the label `int` twice, once for the return
type of each candidate. -/
theorem return_type_items_repeat_a_label :
    (collectMembersAndSymbols exampleOverrideRequest).map (fun it => it.label) =
      ["int foo()", "int", "int bar()", "int"] ∧
    ¬ ((collectMembersAndSymbols exampleOverrideRequest).map (fun it => it.label)).Nodup := by
  decide

/-- C2: in a scope with keywords (Expr, Decl or Stmt) and the format mode `Name`,
the label of an emitted candidate occurs exactly once in the response, on the
item of that candidate, whose data is the index of the candidate and not the
sentinel `"-1"`; no keyword or macro item with that label is in the response, so
in particular none when the label is an entry of the keyword table or a macro
name; and the candidate is the first of the list that can carry this label. -/
theorem candidate_label_wins_over_keywords_and_macros
    (ctx : CompletionContext) (i : Nat) (out : CandidateOutput) (it : CompletionItem)
    (hscope : ctx.scopeKind = ScopeKind.Expr ∨ ctx.scopeKind = ScopeKind.Decl ∨
      ctx.scopeKind = ScopeKind.Stmt)
    (hmode : ctx.formatMode = FormatMode.Name)
    (hout : (candidateOutputs ctx).get? i = some out) (hit : out.item = some it) :
    ((collectMembersAndSymbols ctx).filter (fun x => decide (x.label = it.label))).length = 1 ∧
    (∀ x ∈ collectMembersAndSymbols ctx, x.label = it.label →
      withoutCommitChars x = it ∧ x.data = toString i ∧ x.data ≠ "-1") ∧
    keywordItem it.label ∉ (collectMembersAndSymbols ctx).map withoutCommitChars ∧
    (∃ c, ctx.candidateItems.get? i = some c ∧ candidateLabel ctx c = some it.label) ∧
    (∀ j c', j < i → ctx.candidateItems.get? j = some c' →
      candidateLabel ctx c' ≠ some it.label) := by
  have hstruct := collect_keyword_scope ctx hscope hmode
  have hnodup := keyword_scope_labels_nodup ctx (getExpectedTypesAtCompletion ctx.lookupResults)
    (if ctx.scopeKind = ScopeKind.Decl then kDeclKeywords else kStmtKeywords)
    ctx.macroDefinitions
  obtain ⟨hdata, ⟨c, member, hc, -, hlabel, hitem⟩, hfirst⟩ :=
    candidateLoop_first ctx (getExpectedTypesAtCompletion ctx.lookupResults)
      ctx.candidateItems 0 [] i out it hout hit
  rw [Nat.zero_add] at hdata hitem
  have hitw : withoutCommitChars it = it := by
    rw [hitem]; rfl
  -- the raw list of items of the response
  generalize hraw : ((candidateOutputs ctx).filterMap (fun o => o.item) ++
        (keywordLoop (if ctx.scopeKind = ScopeKind.Decl then kDeclKeywords else kStmtKeywords)
          (candidateLoop ctx (getExpectedTypesAtCompletion ctx.lookupResults)
            ctx.candidateItems 0 []).2).1 ++
        (macroLoop ctx.macroDefinitions
          (keywordLoop (if ctx.scopeKind = ScopeKind.Decl then kDeclKeywords else kStmtKeywords)
            (candidateLoop ctx (getExpectedTypesAtCompletion ctx.lookupResults)
              ctx.candidateItems 0 []).2).2).1) = raw at hstruct
  have hnodup' : (raw.map (fun it => it.label)).Nodup := by
    rw [← hraw]; exact hnodup
  have hmem : it ∈ raw := by
    rw [← hraw]
    apply List.mem_append_left
    apply List.mem_append_left
    exact List.mem_filterMap.2 ⟨out, List.get?_mem hout, hit⟩
  have hlabels : (collectMembersAndSymbols ctx).map (fun it => it.label) =
      raw.map (fun it => it.label) := by
    rw [← map_label_withoutCommitChars, hstruct, map_label_withoutCommitChars]
  have huniq : ∀ y ∈ raw, y.label = it.label → y = it := by
    intro y hy hyl
    exact List.inj_on_of_nodup_map hnodup' hy hmem hyl
  have hresp : ∀ x ∈ collectMembersAndSymbols ctx, x.label = it.label →
      withoutCommitChars x = it := by
    intro x hx hxl
    have h1 : withoutCommitChars x ∈ raw.map withoutCommitChars := by
      rw [← hstruct]; exact List.mem_map_of_mem _ hx
    obtain ⟨y, hy, hyx⟩ := List.mem_map.1 h1
    have hyl : y.label = it.label := by
      have : (withoutCommitChars y).label = (withoutCommitChars x).label := by rw [hyx]
      exact this.trans hxl
    rw [← hyx, huniq y hy hyl, hitw]
  refine ⟨?_, ?_, ?_, ⟨c, hc, hlabel⟩, ?_⟩
  · have hcount := filter_length_eq_count_map (fun x : CompletionItem => x.label) it.label
      (collectMembersAndSymbols ctx)
    rw [hcount, hlabels]
    exact List.count_eq_one_of_mem hnodup' (List.mem_map_of_mem _ hmem)
  · intro x hx hxl
    have hw := hresp x hx hxl
    have hd : x.data = it.data := by rw [← hw]; rfl
    refine ⟨hw, by rw [hd, hdata], ?_⟩
    rw [hd, hdata]
    exact toString_nat_ne_sentinel i
  · intro hk
    obtain ⟨x, hx, hxk⟩ := List.mem_map.1 hk
    have hxl : x.label = it.label := by
      have : (withoutCommitChars x).label = (keywordItem it.label).label := by rw [hxk]
      exact this
    have hw := hresp x hx hxl
    have : it.data = "-1" := by
      rw [← hw, hxk]; rfl
    rw [hdata] at this
    exact toString_nat_ne_sentinel i this
  · intro j c' hj hc'
    exact hfirst j c' hj hc'

theorem candidate_label_wins_over_keywords_and_macros_witness :
    ((collectMembersAndSymbols exampleStmtRequest).filter
      (fun x => decide (x.label = "defer"))).length = 1 ∧
    ∀ x ∈ collectMembersAndSymbols exampleStmtRequest, x.label = "defer" → x.data = toString 0 :=
  have h := candidate_label_wins_over_keywords_and_macros exampleStmtRequest 0
    { item := some { label := "defer", kind := CompletionItemKind.Variable, data := "0" } }
    { label := "defer", kind := CompletionItemKind.Variable, data := "0" }
    (Or.inr (Or.inr rfl)) rfl (by decide) rfl
  ⟨h.1, fun x hx hl => (h.2.1 x hx hl).2.1⟩

/-- C5: the outputs of the loop correspond to the candidates index by index; the
item of a candidate has the index of the candidate as data and carries a sort
key exactly when the order of the candidate is not -1, the key being
`"<order>:<name>"`; and in the scopes in which the loop runs, the items without
sort key of the candidates, taken in the order of the candidate list, form a
subsequence of the response. -/
theorem unranked_items_keep_candidate_order (ctx : CompletionContext) :
    (candidateOutputs ctx).length = ctx.candidateItems.length ∧
    (∀ i out it, (candidateOutputs ctx).get? i = some out → out.item = some it →
      it.data = toString i ∧
      ∃ c member, ctx.candidateItems.get? i = some c ∧ candidateMember c = some member ∧
        (it.sortText ≠ "" ↔
          determineCompletionItemSortOrder ctx.parsedModule member
            (getExpectedTypesAtCompletion ctx.lookupResults) ≠ -1) ∧
        (determineCompletionItemSortOrder ctx.parsedModule member
            (getExpectedTypesAtCompletion ctx.lookupResults) ≠ -1 →
          it.sortText =
            sortKey (determineCompletionItemSortOrder ctx.parsedModule member
              (getExpectedTypesAtCompletion ctx.lookupResults)) (getText member.name))) ∧
    (ctx.scopeKind = ScopeKind.Member ∨ ctx.scopeKind = ScopeKind.Swizzle ∨
      ctx.scopeKind = ScopeKind.Expr ∨ ctx.scopeKind = ScopeKind.Decl ∨
      ctx.scopeKind = ScopeKind.Stmt →
      List.Sublist
        (((candidateOutputs ctx).filterMap (fun o => o.item)).filter
          (fun it => decide (it.sortText = "")))
        ((collectMembersAndSymbols ctx).map withoutCommitChars)) := by
  refine ⟨?_, ?_, ?_⟩
  · exact candidateLoop_length ctx _ ctx.candidateItems 0 []
  · intro i out it hout hit
    obtain ⟨hdata, ⟨c, member, hc, hm, -, hitem⟩, -⟩ :=
      candidateLoop_first ctx (getExpectedTypesAtCompletion ctx.lookupResults)
        ctx.candidateItems 0 [] i out it hout hit
    rw [Nat.zero_add] at hdata hitem
    refine ⟨hdata, c, member, hc, hm, ?_, ?_⟩
    · rw [hitem]
      unfold candidateItem
      simp only
      split_ifs with h
      · exact ⟨fun _ => h, fun _ => sortKey_ne_empty _ _⟩
      · exact ⟨fun h2 => absurd rfl h2, fun h2 => absurd h2 h⟩
    · intro h
      rw [hitem]
      unfold candidateItem
      simp only [h, ne_eq, not_false_eq_true, if_true]
  · intro hscope
    obtain ⟨pre, post, hstruct⟩ := collect_loop_scope ctx hscope
    rw [hstruct]
    have hfix : ∀ it ∈ (candidateOutputs ctx).filterMap (fun o => o.item),
        withoutCommitChars it = it := by
      intro it hit
      obtain ⟨out, hout, ho⟩ := List.mem_filterMap.1 hit
      obtain ⟨i, hi⟩ := List.get?_of_mem hout
      obtain ⟨-, ⟨c, member, -, -, -, hitem⟩, -⟩ :=
        candidateLoop_first ctx (getExpectedTypesAtCompletion ctx.lookupResults)
          ctx.candidateItems 0 [] i out it hi ho
      rw [hitem]; rfl
    have hmap : ((candidateOutputs ctx).filterMap (fun o => o.item)).map withoutCommitChars =
        (candidateOutputs ctx).filterMap (fun o => o.item) := by
      conv_rhs => rw [← List.map_id ((candidateOutputs ctx).filterMap (fun o => o.item))]
      exact List.map_congr_left (fun it hit => by rw [hfix it hit]; rfl)
    have h1 : List.Sublist ((candidateOutputs ctx).filterMap (fun o => o.item))
        ((pre ++ ((candidateOutputs ctx).map CandidateOutput.items).flatten ++ post).map
          withoutCommitChars) := by
      rw [← hmap]
      apply List.Sublist.map
      exact ((mains_sublist_items _).trans (List.sublist_append_right _ _)).trans
        (List.sublist_append_left _ _)
    exact (List.filter_sublist _).trans h1

theorem unranked_items_keep_candidate_order_witness :
    List.Sublist
      (((candidateOutputs exampleInitRequest).filterMap (fun o => o.item)).filter
        (fun it => decide (it.sortText = "")))
      ((collectMembersAndSymbols exampleInitRequest).map withoutCommitChars) :=
  (unranked_items_keep_candidate_order exampleInitRequest).2.2 (Or.inr (Or.inr (Or.inl rfl)))

/-! ## The claims about the relevance ranker -/

/-- C3: when the expected types contain a type referring to the enumeration
declaration `E`, the ranker gives `E` itself the order 0, whatever its module and
whether or not it is from the core module, and the key `"0:<name>"` of `E` is
strictly smaller than the key of every variable whose type refers to `E`, the
order of such a variable being at least 1. -/
theorem enum_itself_ranks_zero_ahead_of_its_variables
    (pm : Nat) (E : Decl) (ets : List (Option TypeNode)) (et : TypeNode) (nameE : String)
    (hmem : some et ∈ ets) (het : et.declRefDecl = some E.addr) (hE : E.isEnumDecl = true) :
    determineCompletionItemSortOrder pm E ets = 0 ∧
    sortKey (determineCompletionItemSortOrder pm E ets) nameE = "0:" ++ nameE ∧
    ∀ (V : Decl) (t : TypeNode) (nameV : String),
      V.isVarDeclBase = true → V.isEnumDecl = false → V.addr ≠ E.addr →
      V.type = some t → t.declRefDecl = some E.addr →
        1 ≤ determineCompletionItemSortOrder pm V ets ∧
        sortKey (determineCompletionItemSortOrder pm E ets) nameE <
          sortKey (determineCompletionItemSortOrder pm V ets) nameV := by
  have hcurE : currentSortOrder E et E.addr = 0 := by simp [currentSortOrder, hE]
  have hinE : (0 : Int) ∈ matchedOrders E ets := by
    have := mem_matchedOrders E ets et E.addr hmem het (by rw [hcurE]; decide)
    rwa [hcurE] at this
  have hneE : matchedOrders E ets ≠ [] := List.ne_nil_of_mem hinE
  obtain ⟨hEmem, hEle⟩ := (unadjusted_spec E ets).2 hneE
  have huE : unadjustedSortOrder E ets = 0 := by
    have h1 := hEle 0 hinE
    have h2 := matchedOrders_nonneg E ets _ hEmem
    omega
  have hrE : determineCompletionItemSortOrder pm E ets = 0 := by
    rw [determine_eq_adjust, huE]; simp
  refine ⟨hrE, by rw [hrE]; rfl, ?_⟩
  intro V t nameV hV hVE hne hVt ht
  have hcurV : currentSortOrder V et E.addr = 1 ∨ currentSortOrder V et E.addr = 2 := by
    unfold currentSortOrder matchType
    rw [if_neg hne, hV, hVt]
    by_cases h : t.addr = et.addr <;> simp [h, ht]
  have hinV := mem_matchedOrders V ets et E.addr hmem het (by omega)
  obtain ⟨hVmem, -⟩ := (unadjusted_spec V ets).2 (List.ne_nil_of_mem hinV)
  have huV := matchedOrders_pos_of_not_enum V ets hVE _ hVmem
  have hrange := determine_range pm V ets
  have hrV : 1 ≤ determineCompletionItemSortOrder pm V ets := by
    rw [determine_eq_adjust]
    split_ifs <;> omega
  refine ⟨hrV, ?_⟩
  rw [hrE]
  exact sortKey_lt_of_lt 0 _ nameE nameV (le_refl 0) (by omega) hrange.2

theorem enum_itself_ranks_zero_ahead_of_its_variables_witness :
    determineCompletionItemSortOrder 1 exampleEnum [some exampleEnumType] = 0 ∧
    sortKey (determineCompletionItemSortOrder 1 exampleEnum [some exampleEnumType]) "Color" =
      "0:Color" ∧
    1 ≤ determineCompletionItemSortOrder 1 exampleVar [some exampleEnumType] ∧
    sortKey (determineCompletionItemSortOrder 1 exampleEnum [some exampleEnumType]) "Color" <
      sortKey (determineCompletionItemSortOrder 1 exampleVar [some exampleEnumType]) "tint" :=
  have h := enum_itself_ranks_zero_ahead_of_its_variables 1 exampleEnum [some exampleEnumType]
    exampleEnumType "Color" (List.mem_singleton.2 rfl) rfl rfl
  ⟨h.1, h.2.1, h.2.2 exampleVar exampleEnumType "tint" rfl rfl (by decide) rfl rfl⟩

/-- C4: every order returned by the ranker is one of -1, 0, 1, 2, 3, 4; hence for
two ranked candidates of one response the keys `"<rank>:<name>"` compare, as
strings, first by ascending rank (the smaller rank has the smaller key) and, at
equal rank, as the declaration names do. -/
theorem sort_keys_order_by_rank_then_name
    (pm : Nat) (a b : Decl) (ets : List (Option TypeNode)) (nameA nameB : String) :
    (determineCompletionItemSortOrder pm a ets = -1 ∨
      determineCompletionItemSortOrder pm a ets = 0 ∨
      determineCompletionItemSortOrder pm a ets = 1 ∨
      determineCompletionItemSortOrder pm a ets = 2 ∨
      determineCompletionItemSortOrder pm a ets = 3 ∨
      determineCompletionItemSortOrder pm a ets = 4) ∧
    (determineCompletionItemSortOrder pm a ets ≠ -1 →
      determineCompletionItemSortOrder pm b ets ≠ -1 →
      (determineCompletionItemSortOrder pm a ets < determineCompletionItemSortOrder pm b ets →
        sortKey (determineCompletionItemSortOrder pm a ets) nameA <
          sortKey (determineCompletionItemSortOrder pm b ets) nameB) ∧
      (determineCompletionItemSortOrder pm a ets = determineCompletionItemSortOrder pm b ets →
        (sortKey (determineCompletionItemSortOrder pm a ets) nameA <
          sortKey (determineCompletionItemSortOrder pm b ets) nameB ↔ nameA < nameB))) := by
  have ha := determine_range pm a ets
  have hb := determine_range pm b ets
  refine ⟨by omega, fun hna hnb => ⟨fun hlt => ?_, fun heq => ?_⟩⟩
  · exact sortKey_lt_of_lt _ _ nameA nameB (by omega) hlt hb.2
  · rw [← heq]
    exact sortKey_lt_same_iff _ nameA nameB (by omega) ha.2

theorem sort_keys_order_by_rank_then_name_witness :
    sortKey (determineCompletionItemSortOrder 1 exampleVar [some exampleEnumType]) "tint" <
      sortKey (determineCompletionItemSortOrder 1 exampleFunc [some exampleEnumType]) "pick" :=
  ((sort_keys_order_by_rank_then_name 1 exampleVar exampleFunc [some exampleEnumType]
    "tint" "pick").2 (by decide) (by decide)).1 (by decide)

/-- C6: for a candidate of the edited module that is not from the core module,
the ranker returns the minimum of the per-type orders over the expected types
that are `DeclRefType`s and matched, and -1 when the list is empty or nothing
matched; expected types that are not `DeclRefType`s do not change the result. -/
theorem rank_is_minimum_of_matched_orders
    (pm : Nat) (item : Decl) (ets : List (Option TypeNode))
    (hm : item.module = some pm) (hc : item.isFromCoreModule = false) :
    (ets = [] → determineCompletionItemSortOrder pm item ets = -1) ∧
    (matchedOrders item ets = [] → determineCompletionItemSortOrder pm item ets = -1) ∧
    (matchedOrders item ets ≠ [] →
      determineCompletionItemSortOrder pm item ets ∈ matchedOrders item ets ∧
      ∀ x ∈ matchedOrders item ets, determineCompletionItemSortOrder pm item ets ≤ x) ∧
    determineCompletionItemSortOrder pm item
        (ets.filter isDeclRefType) =
      determineCompletionItemSortOrder pm item ets := by
  have e : determineCompletionItemSortOrder pm item ets = unadjustedSortOrder item ets := by
    rw [determine_eq_adjust]
    simp [hm, hc]
  rw [e]
  obtain ⟨h1, h2⟩ := unadjusted_spec item ets
  refine ⟨fun h => ?_, h1, h2, ?_⟩
  · subst h; rfl
  · rw [← e]; exact determine_filter pm item ets

theorem rank_is_minimum_of_matched_orders_witness :
    determineCompletionItemSortOrder 1 exampleVar
        [none, some exampleBasicType, some exampleAliasType, some exampleEnumType] ∈
      matchedOrders exampleVar [none, some exampleBasicType, some exampleAliasType, some exampleEnumType] ∧
    ∀ x ∈ matchedOrders exampleVar [none, some exampleBasicType, some exampleAliasType, some exampleEnumType],
      determineCompletionItemSortOrder 1 exampleVar
        [none, some exampleBasicType, some exampleAliasType, some exampleEnumType] ≤ x :=
  (rank_is_minimum_of_matched_orders 1 exampleVar
    [none, some exampleBasicType, some exampleAliasType, some exampleEnumType] rfl rfl).2.2.1 (by decide)

/-- C7: the per-type order of a candidate against one expected type `et` that
refers to the declaration at `d`. A candidate other than that declaration: a
variable gets 1 when its type is the node `et`, 2 when its type is another node
referring to `d`, and is unranked otherwise; a callable gets the same on its
return type; any other candidate is unranked. The declaration `d` itself gets 0
when it is an enumeration, is unranked when it is an interface, and gets 1
otherwise. The order for the one-element list `[et]` before the module
adjustments is this per-type order. -/
theorem per_type_order_cases (item : Decl) (et : TypeNode) (d : Nat)
    (het : et.declRefDecl = some d) :
    unadjustedSortOrder item [some et] = currentSortOrder item et d ∧
    (item.addr ≠ d → item.isVarDeclBase = true →
      (∀ t, item.type = some t → t.addr = et.addr → currentSortOrder item et d = 1) ∧
      (∀ t, item.type = some t → t.addr ≠ et.addr → t.declRefDecl = some d →
        currentSortOrder item et d = 2) ∧
      (∀ t, item.type = some t → t.addr ≠ et.addr → t.declRefDecl ≠ some d →
        currentSortOrder item et d = -1) ∧
      (item.type = none → currentSortOrder item et d = -1)) ∧
    (item.addr ≠ d → item.isVarDeclBase = false → item.isCallableDecl = true →
      (∀ t, item.returnType = some t → t.addr = et.addr → currentSortOrder item et d = 1) ∧
      (∀ t, item.returnType = some t → t.addr ≠ et.addr → t.declRefDecl = some d →
        currentSortOrder item et d = 2) ∧
      (∀ t, item.returnType = some t → t.addr ≠ et.addr → t.declRefDecl ≠ some d →
        currentSortOrder item et d = -1) ∧
      (item.returnType = none → currentSortOrder item et d = -1)) ∧
    (item.addr ≠ d → item.isVarDeclBase = false → item.isCallableDecl = false →
      currentSortOrder item et d = -1) ∧
    (item.addr = d →
      (item.isEnumDecl = true → currentSortOrder item et d = 0) ∧
      (item.isEnumDecl = false → item.isInterfaceDecl = true →
        currentSortOrder item et d = -1) ∧
      (item.isEnumDecl = false → item.isInterfaceDecl = false →
        currentSortOrder item et d = 1)) := by
  have tier : ∀ (ty : Option TypeNode),
      (∀ t, ty = some t → t.addr = et.addr → matchType ty et d = 1) ∧
      (∀ t, ty = some t → t.addr ≠ et.addr → t.declRefDecl = some d → matchType ty et d = 2) ∧
      (∀ t, ty = some t → t.addr ≠ et.addr → t.declRefDecl ≠ some d →
        matchType ty et d = -1) ∧
      (ty = none → matchType ty et d = -1) := by
    intro ty
    refine ⟨?_, ?_, ?_, ?_⟩
    · intro t h1 h2; subst h1; simp [matchType, h2]
    · intro t h1 h2 h3; subst h1; simp [matchType, h2, h3]
    · intro t h1 h2 h3; subst h1
      cases hd : t.declRefDecl with
      | none => simp [matchType, h2, hd]
      | some d2 =>
        have : d2 ≠ d := by intro h; apply h3; rw [hd, h]
        simp [matchType, h2, hd, this]
    · intro h; subst h; rfl
  refine ⟨?_, ?_, ?_, ?_, ?_⟩
  · have hc := currentSortOrder_cases item et d
    simp [unadjustedSortOrder, sortOrderLoop, het]
  · intro hne hv
    have e : currentSortOrder item et d = matchType item.type et d := by
      simp [currentSortOrder, hne, hv]
    rw [e]; exact tier item.type
  · intro hne hv hc
    have e : currentSortOrder item et d = matchType item.returnType et d := by
      simp [currentSortOrder, hne, hv, hc]
    rw [e]; exact tier item.returnType
  · intro hne hv hc
    simp [currentSortOrder, hne, hv, hc]
  · intro he
    refine ⟨?_, ?_, ?_⟩
    · intro h; simp [currentSortOrder, he, h]
    · intro h1 h2; simp [currentSortOrder, he, h1, h2]
    · intro h1 h2; simp [currentSortOrder, he, h1, h2]

theorem per_type_order_cases_witness :
    currentSortOrder exampleVar exampleEnumType 10 = 1 ∧
    currentSortOrder exampleFunc exampleEnumType 10 = 2 ∧
    currentSortOrder exampleStruct exampleEnumType 10 = -1 ∧
    currentSortOrder exampleEnum exampleEnumType 10 = 0 ∧
    currentSortOrder exampleInterface exampleInterfaceType 13 = -1 ∧
    currentSortOrder exampleStruct exampleStructType 14 = 1 :=
  ⟨((per_type_order_cases exampleVar exampleEnumType 10 rfl).2.1 (by decide) rfl).1
      exampleEnumType rfl rfl,
    ((per_type_order_cases exampleFunc exampleEnumType 10 rfl).2.2.1 (by decide) rfl rfl).2.1
      exampleAliasType rfl (by decide) rfl,
    (per_type_order_cases exampleStruct exampleEnumType 10 rfl).2.2.2.1 (by decide) rfl rfl,
    ((per_type_order_cases exampleEnum exampleEnumType 10 rfl).2.2.2.2 rfl).1 rfl,
    ((per_type_order_cases exampleInterface exampleInterfaceType 13 rfl).2.2.2.2 rfl).2.1
      rfl rfl,
    ((per_type_order_cases exampleStruct exampleStructType 14 rfl).2.2.2.2 rfl).2.2 rfl rfl⟩

/-- C8: with `b` the order before the module adjustments, the ranker returns
`b + (1 if the module of the candidate differs from the edited module) +
(1 if the candidate is from the core module)` when `b > 0`, and `b` itself when
`b` is 0 or -1; `b` is one of -1, 0, 1, 2. -/
theorem module_adjustment_is_additive (pm : Nat) (item : Decl) (ets : List (Option TypeNode)) :
    determineCompletionItemSortOrder pm item ets =
      (if unadjustedSortOrder item ets > 0 then
        unadjustedSortOrder item ets +
          (if item.module ≠ some pm then 1 else 0) +
          (if item.isFromCoreModule then 1 else 0)
      else unadjustedSortOrder item ets) ∧
    (unadjustedSortOrder item ets = -1 ∨ unadjustedSortOrder item ets = 0 ∨
      unadjustedSortOrder item ets = 1 ∨ unadjustedSortOrder item ets = 2) := by
  have h := unadjustedSortOrder_range item ets
  exact ⟨determine_eq_adjust pm item ets, by omega⟩

/-! ## The claims about raw-path completion -/

/-- C9: on a line whose first opening delimiter at or after `pos` is at `q`, with
a path separator at `s` after it and before the cursor, and no separator, quote
or `>` between `s` and the cursor, the prefix handed to the enumeration is the
text between the delimiter and `s` with every `/` and `\` replaced by the
platform separator, and the replacement range of every item starts right after
`s` and reaches at least to the cursor, inside the line. -/
theorem raw_path_prefix_and_range
    (env : PathContext) (lineContent : List Char) (pos q s : Nat) (isImportString : Bool)
    (hlen : lineContent.length < 2147483648)
    (hposq : pos ≤ q)
    (hq : ∃ c, lineContent.get? q = some c ∧ (c = '\"' ∨ c = '<'))
    (hbefore : ∀ k c, pos ≤ k → k < q → lineContent.get? k = some c → c ≠ '\"' ∧ c ≠ '<')
    (hqs : q < s)
    (hs : ∃ c, lineContent.get? s = some c ∧ (c = '/' ∨ c = '\\'))
    (hcol1 : (s : Int) + 2 ≤ env.col) (hcol2 : env.col ≤ (lineContent.length : Int) + 1)
    (hafter : ∀ (k : Nat) c, s < k → (k : Int) + 2 ≤ env.col → lineContent.get? k = some c →
      c ≠ '/' ∧ c ≠ '\\' ∧ c ≠ '\"' ∧ c ≠ '>') :
    ∃ a items,
      rawFileNameArguments env lineContent pos = Except.ok a ∧
      a.pfxPath = String.mk (((lineContent.drop (q + 1)).take (s - (q + 1))).map
        (fun ch => if isPathSeparator ch then env.pathDelimiter else ch)) ∧
      a.sectionStart = (s : Int) + 1 ∧
      tryCompleteRawFileName env lineContent pos isImportString = Except.ok items ∧
      ∀ item ∈ items,
        item.textEdit.startCharacter = (s : Int) + 1 ∧
        env.col - 1 ≤ item.textEdit.endCharacter ∧
        item.textEdit.endCharacter ≤ lineContent.length := by
  have hslen : s < lineContent.length := by
    obtain ⟨c, hget, -⟩ := hs
    exact (List.get?_eq_some.1 hget).1
  -- the opening delimiter
  have hopen : scanForward (fun c => decide (c = '\"') || decide (c = '<')) lineContent
      (lineContent.length + 1) (pos : Int) = Except.ok (q : Int) := by
    rw [scanForward_eq _ _ _ pos (by omega) (by omega)]
    congr 2
    apply firstStopFrom_eq _ _ q _ (q - pos) pos (by omega)
    · intro k c h1 h2 h3
      have := hbefore k c h1 h2 h3
      simp [this.1, this.2]
    · obtain ⟨c, hget, hc⟩ := hq
      refine ⟨c, hget, ?_⟩
      rcases hc with hc | hc <;> simp [hc]
  -- the separator before the cursor
  have hback : scanBackToSeparator lineContent (lineContent.length + 1) ((q : Int) + 1)
      (env.col - 2) = Except.ok (s : Int) := by
    have hn : env.col - 2 = ((s + (env.col - 2 - s).toNat : Nat) : Int) := by omega
    have hp : (q : Int) + 1 = ((q + 1 : Nat) : Int) := by omega
    rw [hn, hp]
    apply scanBackToSeparator_eq lineContent (q + 1) s (by omega) hs _ _ (by omega)
    intro k hk1 hk2
    have hklen : k < lineContent.length := by omega
    refine ⟨lineContent[k], List.get?_eq_get hklen, ?_⟩
    exact hafter k _ hk1 (by omega) (List.get?_eq_get hklen)
  have hcast : env.col - 1 = (((env.col - 1).toNat : Nat) : Int) := by omega
  have hse := scanForward_eq endsRawSection lineContent (lineContent.length + 1)
    (env.col - 1).toNat (by omega) (by omega)
  rw [← hcast] at hse
  have hfe := scanForward_eq (fun c => decide (c = ';')) lineContent
    (lineContent.length + 1)
    (firstStopFrom endsRawSection lineContent (env.col - 1).toNat) (by omega) (by omega)
  have hqlt : (q : Int) < (lineContent.length : Int) := by omega
  have hcol : ¬ env.col - 2 < 0 := by omega
  have hcol' : ¬ env.col - 1 < 0 := by omega
  have hsub : (if (s : Int) > (q : Int) + 1 then
        subString lineContent ((q : Int) + 1) ((s : Int) - ((q : Int) + 1))
      else Except.ok []) =
      Except.ok ((lineContent.drop (q + 1)).take (s - (q + 1))) := by
    by_cases hgt : (s : Int) > (q : Int) + 1
    · rw [if_pos hgt]
      unfold subString
      have h1 : ¬ ((q : Int) + 1 < 0 ∨ (s : Int) - ((q : Int) + 1) < 0 ∨
          (q : Int) + 1 + ((s : Int) - ((q : Int) + 1)) > (lineContent.length : Int)) := by
        omega
      have h2 : ((q : Int) + 1).toNat = q + 1 := by omega
      have h3 : ((s : Int) - ((q : Int) + 1)).toNat = s - (q + 1) := by omega
      rw [if_neg h1, h2, h3]
    · rw [if_neg hgt]
      have : s - (q + 1) = 0 := by omega
      rw [this, List.take_zero]
  obtain ⟨c, hgetq, hcq⟩ := hq
  have hargs : ∃ a, rawFileNameArguments env lineContent pos = Except.ok a ∧
      a.pfxPath = String.mk (((lineContent.drop (q + 1)).take (s - (q + 1))).map
        (fun ch => if isPathSeparator ch then env.pathDelimiter else ch)) ∧
      a.sectionStart = (s : Int) + 1 := by
    unfold rawFileNameArguments
    simp only [hopen, hqlt, if_true, charAt_ofNat lineContent q c hgetq, hcol, if_false, hback,
      hcol', hse, hfe, hsub]
    exact ⟨_, rfl, rfl, rfl⟩
  obtain ⟨a, ha, hp, hstart⟩ := hargs
  refine ⟨a, gatherFileAndModuleCompletionItems env a.pfxPath false isImportString a.lineIndex
    a.fileNameEnd a.sectionStart a.sectionEnd (some a.closingChar), ha, hp, hstart, ?_, ?_⟩
  · unfold tryCompleteRawFileName
    rw [ha]
  · intro item hitem
    obtain ⟨-, -, hsend, hfend, -⟩ := rawFileNameArguments_ok env lineContent pos a ha
    obtain ⟨h1, h2, h3⟩ := raw_items_textEdit env a.pfxPath isImportString a.lineIndex
      a.fileNameEnd a.sectionStart a.sectionEnd a.closingChar item hitem
    have b1 := le_firstStopFrom endsRawSection lineContent (env.col - 1).toNat
    have b2 := firstStopFrom_le endsRawSection lineContent (env.col - 1).toNat (by omega)
    have b3 := le_firstStopFrom (fun c => decide (c = ';')) lineContent
      (firstStopFrom endsRawSection lineContent (env.col - 1).toNat)
    have b4 := firstStopFrom_le (fun c => decide (c = ';')) lineContent
      (firstStopFrom endsRawSection lineContent (env.col - 1).toNat) b2
    refine ⟨?_, ?_⟩
    · rw [h1, hstart, castInt32_eq _ (by omega) (by omega)]
    · by_cases hk : item.kind = CompletionItemKind.File
      · rw [(h2 hk).1, hfend, castInt32_eq _ (by omega) (by omega)]
        omega
      · rw [(h3 hk).1, hsend, castInt32_eq _ (by omega) (by omega)]
        omega

theorem raw_path_prefix_and_range_witness :
    (∃ a items,
      rawFileNameArguments examplePathContext examplePathLine (9 : Nat) = Except.ok a ∧
      a.pfxPath = "foo/bar" ∧
      a.sectionStart = 18 ∧
      tryCompleteRawFileName examplePathContext examplePathLine (9 : Nat) false =
        Except.ok items ∧
      ∀ item ∈ items,
        item.textEdit.startCharacter = 18 ∧
        20 ≤ item.textEdit.endCharacter ∧
        item.textEdit.endCharacter ≤ 20) :=
  raw_path_prefix_and_range examplePathContext examplePathLine 9 9 17 false
    (by decide) (by decide) ⟨'\"', rfl, Or.inl rfl⟩
    (fun k c h1 h2 _ => absurd h2 (by omega)) (by decide) ⟨'/', rfl, Or.inl rfl⟩
    (by decide) (by decide)
    (fun k c h1 h2 h3 => by
      have hcol : examplePathContext.col = 21 := rfl
      rw [hcol] at h2
      have hk : k = 18 ∨ k = 19 := by omega
      rcases hk with hk | hk <;> subst hk <;>
        · simp only [examplePathLine, List.get?_cons_succ, List.get?_cons_zero,
            Option.some.injEq] at h3
          subst h3
          decide)

/-- C10 fails for file items: on the line `#include "a/b"` with the cursor after
`b`, the first quote at or after the cursor is at character 13, and the range of
the file item `b.h` ends at 14, the end of the line, past that quote. -/
theorem file_item_range_passes_the_closing_quote :
    ¬ (∀ items, tryCompleteRawFileName exampleClosedContext exampleClosedLine 9 false =
        Except.ok items →
      ∀ item ∈ items, item.textEdit.endCharacter =
        (firstStopFrom endsRawSection exampleClosedLine
          (exampleClosedContext.col - 1).toNat : Nat)) := by
  intro h
  have h1 := h [exampleClosedFileItem, exampleClosedFolderItem] rfl exampleClosedFileItem
    (by decide)
  revert h1
  decide

/-- C10 as amended: whenever raw-path completion returns items for a cursor
inside the line, every item is a folder or a file; the range of a folder item
ends at the first path separator, quote or `>` at or after the cursor, or at the
end of the line when there is none; the range of a file item ends at the first
`;` at or after that position, or at the end of the line when there is none. -/
theorem raw_path_range_end
    (env : PathContext) (lineContent : List Char) (pos : Int) (isImportString : Bool)
    (items : List TextEditCompletionItem)
    (hlen : lineContent.length < 2147483648)
    (hcol : env.col ≤ (lineContent.length : Int) + 1)
    (h : tryCompleteRawFileName env lineContent pos isImportString = Except.ok items) :
    (∀ k c, (env.col - 1).toNat ≤ k →
      k < firstStopFrom endsRawSection lineContent (env.col - 1).toNat →
      lineContent.get? k = some c → c ≠ '\"' ∧ c ≠ '>' ∧ c ≠ '/' ∧ c ≠ '\\') ∧
    (firstStopFrom endsRawSection lineContent (env.col - 1).toNat < lineContent.length →
      ∃ c, lineContent.get? (firstStopFrom endsRawSection lineContent (env.col - 1).toNat) =
        some c ∧ (c = '\"' ∨ c = '>' ∨ c = '/' ∨ c = '\\')) ∧
    ∀ item ∈ items,
      (item.kind = CompletionItemKind.Folder ∨ item.kind = CompletionItemKind.File) ∧
      (item.kind = CompletionItemKind.Folder →
        item.textEdit.endCharacter =
          (firstStopFrom endsRawSection lineContent (env.col - 1).toNat : Nat)) ∧
      (item.kind = CompletionItemKind.File →
        item.textEdit.endCharacter =
          (firstStopFrom (fun c => c = ';') lineContent
            (firstStopFrom endsRawSection lineContent (env.col - 1).toNat) : Nat)) := by
  unfold tryCompleteRawFileName at h
  cases ha : rawFileNameArguments env lineContent pos with
  | error e => rw [ha] at h; exact absurd h (by simp)
  | ok a =>
    rw [ha] at h
    simp only [Except.ok.injEq] at h
    obtain ⟨hc2, -, hsend, hfend, -⟩ := rawFileNameArguments_ok env lineContent pos a ha
    have b1 := le_firstStopFrom endsRawSection lineContent (env.col - 1).toNat
    have b2 := firstStopFrom_le endsRawSection lineContent (env.col - 1).toNat (by omega)
    have b3 := le_firstStopFrom (fun c => decide (c = ';')) lineContent
      (firstStopFrom endsRawSection lineContent (env.col - 1).toNat)
    have b4 := firstStopFrom_le (fun c => decide (c = ';')) lineContent
      (firstStopFrom endsRawSection lineContent (env.col - 1).toNat) b2
    obtain ⟨s1, s2⟩ := firstStopFrom_spec endsRawSection lineContent
      (lineContent.length - (env.col - 1).toNat) (env.col - 1).toNat (by omega)
    refine ⟨?_, ?_, ?_⟩
    · intro k c h1 h2 h3
      have := s1 k c h1 h2 h3
      simpa [endsRawSection, and_assoc] using this
    · intro hlt
      obtain ⟨c, hget, hstop⟩ := s2 hlt
      refine ⟨c, hget, ?_⟩
      simpa [endsRawSection, or_assoc] using hstop
    · intro item hitem
      rw [← h] at hitem
      obtain ⟨-, h2, h3⟩ := raw_items_textEdit env a.pfxPath isImportString a.lineIndex
        a.fileNameEnd a.sectionStart a.sectionEnd a.closingChar item hitem
      refine ⟨gather_kinds env _ _ _ _ _ _ _ _ item hitem, ?_, ?_⟩
      · intro hk
        have hnf : item.kind ≠ CompletionItemKind.File := by rw [hk]; decide
        rw [(h3 hnf).1, hsend, castInt32_eq _ (by omega) (by omega)]
      · intro hk
        rw [(h2 hk).1, hfend, castInt32_eq _ (by omega) (by omega)]

theorem raw_path_range_end_witness :
    tryCompleteRawFileName exampleClosedContext exampleClosedLine 9 false =
      Except.ok [exampleClosedFileItem, exampleClosedFolderItem] ∧
    exampleClosedFolderItem.textEdit.endCharacter =
      (firstStopFrom endsRawSection exampleClosedLine
        (exampleClosedContext.col - 1).toNat : Nat) ∧
    exampleClosedFileItem.textEdit.endCharacter =
      (firstStopFrom (fun c => c = ';') exampleClosedLine
        (firstStopFrom endsRawSection exampleClosedLine
          (exampleClosedContext.col - 1).toNat) : Nat) :=
  have h := (raw_path_range_end exampleClosedContext exampleClosedLine 9 false
    [exampleClosedFileItem, exampleClosedFolderItem] (by decide) (by decide) rfl).2.2
  ⟨rfl, (h exampleClosedFolderItem (by decide)).2.1 rfl,
    (h exampleClosedFileItem (by decide)).2.2 rfl⟩

/-! ## The claims about the swizzle generator -/

/-- C15: for a vector type whose element count `n` fits the cast to `int`,
`createSwizzleCandidates` appends the first `min n 4` labels of `x`, `y`, `z`,
`w` in that order, each as an item of kind Variable with the text of the element
type as detail; none when `n ≤ 0`, and exactly `x`, `y`, `z` for `n = 3`. For a
scalar type it appends the one item `x`. -/
theorem vector_and_scalar_swizzle_items (elementType : Option String) (text : String)
    (n m : Int) (hlo : -2147483648 ≤ n) (hhi : n < 2147483648) :
    createSwizzleCandidates (SwizzleBaseType.VectorExpressionType elementType) (n, m) =
      (["x", "y", "z", "w"].take (min n 4).toNat).map (fun name =>
        { label := name, kind := CompletionItemKind.Variable, detail := getText elementType,
          data := "0" }) ∧
    (n ≤ 0 →
      createSwizzleCandidates (SwizzleBaseType.VectorExpressionType elementType) (n, m) = []) ∧
    (n = 3 →
      (createSwizzleCandidates (SwizzleBaseType.VectorExpressionType elementType) (n, m)).map
        (fun it => it.label) = ["x", "y", "z"]) ∧
    createSwizzleCandidates (SwizzleBaseType.BasicExpressionType text) (n, m) =
      [{ label := "x", kind := CompletionItemKind.Variable, detail := text, data := "0" }] := by
  have hmin := mathMin_castInt32 n hlo hhi
  have hvec : createSwizzleCandidates (SwizzleBaseType.VectorExpressionType elementType) (n, m) =
      (["x", "y", "z", "w"].take (min n 4).toNat).map (fun name =>
        { label := name, kind := CompletionItemKind.Variable, detail := getText elementType,
          data := "0" }) := by
    simp only [createSwizzleCandidates, hmin, swizzleItem]
  refine ⟨hvec, ?_, ?_, rfl⟩
  · intro h0
    rw [hvec]
    have : (min n 4).toNat = 0 := by omega
    rw [this]
    rfl
  · intro h3
    rw [hvec, h3]
    rfl

theorem vector_and_scalar_swizzle_items_witness :
    (createSwizzleCandidates (SwizzleBaseType.VectorExpressionType (some "float")) (3, 0)).map
      (fun it => it.label) = ["x", "y", "z"] :=
  (vector_and_scalar_swizzle_items (some "float") "float" 3 0 (by decide) (by decide)).2.2.1 rfl

/-- C16: for a matrix type whose row and column counts `r`, `c` are non-negative
and fit the cast to `int`, `createSwizzleCandidates` appends
`2 * min r 4 * min c 4` items of kind Variable with pairwise distinct labels: in
row-major order, for row `i` and column `j`, the label `_m<i><j>` directly
followed by the label `_<i+1><j+1>`. -/
theorem matrix_swizzle_items (elementType : Option String) (r c : Int)
    (hr0 : 0 ≤ r) (hr : r < 2147483648) (hc0 : 0 ≤ c) (hc : c < 2147483648) :
    (createSwizzleCandidates (SwizzleBaseType.MatrixExpressionType elementType) (r, c)).length =
      2 * (min r 4).toNat * (min c 4).toNat ∧
    ((createSwizzleCandidates (SwizzleBaseType.MatrixExpressionType elementType) (r, c)).map
      (fun it => it.label)).Nodup ∧
    (createSwizzleCandidates (SwizzleBaseType.MatrixExpressionType elementType) (r, c)).map
        (fun it => it.label) =
      ((List.range (min r 4).toNat).map (fun i => ((List.range (min c 4).toNat).map (fun j =>
        ["_m" ++ toString i ++ toString j,
         "_" ++ toString (i + 1) ++ toString (j + 1)])).flatten)).flatten ∧
    ∀ it ∈ createSwizzleCandidates (SwizzleBaseType.MatrixExpressionType elementType) (r, c),
      it.kind = CompletionItemKind.Variable ∧ it.detail = getText elementType := by
  have hrmin := mathMin_castInt32 r (by omega) hr
  have hcmin := mathMin_castInt32 c (by omega) hc
  have hmat : createSwizzleCandidates (SwizzleBaseType.MatrixExpressionType elementType) (r, c) =
      ((List.range (min r 4).toNat).map (fun i =>
        matrixRowItems (getText elementType) i (List.range (min c 4).toNat))).flatten := by
    simp only [createSwizzleCandidates, hrmin, hcmin]
  have hlabels := matrixItems_labels (getText elementType) (List.range (min r 4).toNat)
    (List.range (min c 4).toNat)
  obtain ⟨hlen, hnodup⟩ := matrix_labels_small (min r 4).toNat (min c 4).toNat
    (by omega) (by omega)
  rw [hmat]
  refine ⟨?_, ?_, hlabels, ?_⟩
  · rw [← hlen, ← hlabels, List.length_map]
  · rw [hlabels]; exact hnodup
  · intro it hit
    simp only [List.mem_flatten, List.mem_map] at hit
    obtain ⟨row, ⟨i, -, hrow⟩, hmem⟩ := hit
    subst hrow
    exact ⟨(matrixRowItems_mem _ _ _ it hmem).1, (matrixRowItems_mem _ _ _ it hmem).2.1⟩

theorem matrix_swizzle_items_witness :
    (createSwizzleCandidates (SwizzleBaseType.MatrixExpressionType (some "float")) (2, 3)).length =
      12 :=
  (matrix_swizzle_items (some "float") 2 3 (by decide) (by decide) (by decide) (by decide)).1

/-! ## The claims about commit characters and keywords -/

/-- C18: the response of `collectMembersAndSymbols` carries the configured
commit characters on every item when the scope is Member or Swizzle and the
commit mode is MembersOnly or All, or the scope is Expr, Decl or Stmt and the
commit mode is All; in every other case no item carries a commit character. -/
theorem commit_characters_follow_scope_and_mode (ctx : CompletionContext) :
    ((((ctx.scopeKind = ScopeKind.Member ∨ ctx.scopeKind = ScopeKind.Swizzle) ∧
          (ctx.commitCharacterBehavior = CommitCharacterBehavior.MembersOnly ∨
            ctx.commitCharacterBehavior = CommitCharacterBehavior.All)) ∨
        ((ctx.scopeKind = ScopeKind.Expr ∨ ctx.scopeKind = ScopeKind.Decl ∨
            ctx.scopeKind = ScopeKind.Stmt) ∧
          ctx.commitCharacterBehavior = CommitCharacterBehavior.All)) →
      ∀ item ∈ collectMembersAndSymbols ctx, item.commitCharacters = ctx.commitChars) ∧
    (¬ (((ctx.scopeKind = ScopeKind.Member ∨ ctx.scopeKind = ScopeKind.Swizzle) ∧
          (ctx.commitCharacterBehavior = CommitCharacterBehavior.MembersOnly ∨
            ctx.commitCharacterBehavior = CommitCharacterBehavior.All)) ∨
        ((ctx.scopeKind = ScopeKind.Expr ∨ ctx.scopeKind = ScopeKind.Decl ∨
            ctx.scopeKind = ScopeKind.Stmt) ∧
          ctx.commitCharacterBehavior = CommitCharacterBehavior.All)) →
      ∀ item ∈ collectMembersAndSymbols ctx, item.commitCharacters = []) := by
  cases hret : returnsBeforeLoop ctx.scopeKind with
  | false =>
    have hiff := useCommitChars_iff ctx hret
    rw [collect_eq_collectedItems ctx hret]
    refine ⟨fun hcond item hitem => ?_, fun hcond item hitem => ?_⟩
    · rw [hiff.2 hcond, if_pos rfl] at hitem
      simp only [addCommitChars, List.mem_map] at hitem
      obtain ⟨raw, hraw, h⟩ := hitem
      rw [← h]
      simp [collectedItems_commit ctx raw hraw]
    · have hfalse : useCommitChars ctx = false := by
        cases h : useCommitChars ctx
        · rfl
        · exact absurd (hiff.1 h) hcond
      rw [hfalse] at hitem
      exact collectedItems_commit ctx item hitem
  | true =>
    have hnot : ¬ (ctx.scopeKind = ScopeKind.Member ∨ ctx.scopeKind = ScopeKind.Swizzle ∨
        ctx.scopeKind = ScopeKind.Expr ∨ ctx.scopeKind = ScopeKind.Decl ∨
        ctx.scopeKind = ScopeKind.Stmt) := by
      intro h
      have := (returnsBeforeLoop_iff ctx.scopeKind).2 h
      rw [hret] at this
      exact absurd this (by decide)
    have hempty : ∀ item ∈ collectMembersAndSymbols ctx, item.commitCharacters = [] := by
      rw [collect_early_return ctx hret]
      intro item hitem
      split_ifs at hitem
      · exact createCapabilityCandidates_commit _ item hitem
      · simp at hitem
    refine ⟨fun hcond => ?_, fun _ => hempty⟩
    exfalso
    apply hnot
    rcases hcond with ⟨h | h, -⟩ | ⟨h | h | h, -⟩ <;> simp [h]

theorem commit_characters_follow_scope_and_mode_witness :
    exampleCommitRequest.commitChars = [".", "("] ∧
    ∀ item ∈ collectMembersAndSymbols exampleCommitRequest, item.commitCharacters = [".", "("] :=
  ⟨rfl, (commit_characters_follow_scope_and_mode exampleCommitRequest).1
    (Or.inr ⟨Or.inr (Or.inr rfl), rfl⟩)⟩

/-- C19: the keyword and macro items are appended exactly when the scope is Expr,
Decl or Stmt and the format mode is `Name`: then the response is the items of the
loop over the candidates, followed by the keyword items, followed by the macro
items, and otherwise it ends with the items of the loop (or is returned before
the loop). The keyword items are those entries of the table of the scope - the
declaration keywords in scope Decl, the statement keywords in the scopes Expr and
Stmt - whose label is not yet used, in table order; the macro items are the
macro names not yet used, in the order of the definitions; each of these items
has kind Keyword and the data `"-1"`. -/
theorem keywords_and_macros_are_appended (ctx : CompletionContext) :
    (returnsBeforeLoop ctx.scopeKind = false →
      collectMembersAndSymbols ctx =
        (if useCommitChars ctx then addCommitChars ctx.commitChars else id)
          (swizzleItems ctx ++ loopItems ctx ++
            (if (ctx.scopeKind = ScopeKind.Expr ∨ ctx.scopeKind = ScopeKind.Decl ∨
                  ctx.scopeKind = ScopeKind.Stmt) ∧ ctx.formatMode = FormatMode.Name then
              keywordItems ctx ++ macroItems ctx
            else []))) ∧
    (returnsBeforeLoop ctx.scopeKind = true →
      collectMembersAndSymbols ctx =
        if ctx.scopeKind = ScopeKind.Capabilities then
          createCapabilityCandidates ctx.capabilityNames
        else []) ∧
    (ctx.scopeKind = ScopeKind.Decl → keywordTable ctx = kDeclKeywords) ∧
    (ctx.scopeKind = ScopeKind.Expr ∨ ctx.scopeKind = ScopeKind.Stmt →
      keywordTable ctx = kStmtKeywords) ∧
    List.Sublist (keywordItems ctx) ((keywordTable ctx).map keywordItem) ∧
    (∀ kw ∈ keywordTable ctx, kw ∈ usedLabels ctx ∨ keywordItem kw ∈ keywordItems ctx) ∧
    List.Sublist (macroItems ctx) ((ctx.macroDefinitions.filterMap id).map keywordItem) ∧
    (∀ name, some name ∈ ctx.macroDefinitions →
      name ∈ usedLabels ctx ∨ keywordItem name ∈ keywordItems ctx ∨
        keywordItem name ∈ macroItems ctx) ∧
    (∀ it ∈ keywordItems ctx ++ macroItems ctx,
      it.kind = CompletionItemKind.Keyword ∧ it.data = "-1") := by
  refine ⟨?_, collect_early_return ctx, ?_, ?_, ?_, ?_, ?_, ?_, ?_⟩
  · intro hret
    rw [collect_eq_collectedItems ctx hret]
    unfold collectedItems
    have hkw := addKeywords_iff ctx
    by_cases hcond : (ctx.scopeKind = ScopeKind.Expr ∨ ctx.scopeKind = ScopeKind.Decl ∨
        ctx.scopeKind = ScopeKind.Stmt) ∧ ctx.formatMode = FormatMode.Name
    · rw [hkw.2 hcond, if_pos hcond]
      cases useCommitChars ctx <;> simp
    · have hfalse : addKeywords ctx = false := by
        cases h : addKeywords ctx
        · rfl
        · exact absurd (hkw.1 h) hcond
      rw [hfalse, if_neg hcond]
      cases useCommitChars ctx <;> simp
  · intro h; simp [keywordTable, h]
  · intro h
    rcases h with h | h <;> simp [keywordTable, h]
  · exact keywordLoop_sublist _ _
  · exact keywordLoop_present _ _
  · exact keywordLoop_sublist _ _
  · intro name hname
    have hmem : name ∈ ctx.macroDefinitions.filterMap id :=
      List.mem_filterMap.2 ⟨some name, hname, rfl⟩
    rcases keywordLoop_present (ctx.macroDefinitions.filterMap id)
        (keywordLoop (keywordTable ctx) (usedLabels ctx)).2 name hmem with h | h
    · obtain ⟨h1, -, -, h4⟩ := keywordLoop_invariant (keywordTable ctx) (usedLabels ctx)
      rcases (h1 name).1 h with h | h
      · exact Or.inl h
      · right; left
        obtain ⟨it, hit, hl⟩ := List.mem_map.1 h
        have h5 : it = keywordItem it.label := h4 it hit
        have hl' : it.label = name := hl
        rw [hl'] at h5
        rw [← h5]; exact hit
    · exact Or.inr (Or.inr h)
  · intro it hit
    have hk : it = keywordItem it.label := by
      rcases List.mem_append.1 hit with h | h
      · exact (keywordLoop_invariant _ _).2.2.2 it h
      · exact (keywordLoop_invariant _ _).2.2.2 it h
    rw [hk]
    exact ⟨rfl, rfl⟩

theorem keywords_and_macros_are_appended_witness :
    collectMembersAndSymbols exampleStmtRequest =
      (if useCommitChars exampleStmtRequest then addCommitChars exampleStmtRequest.commitChars
        else id)
        (swizzleItems exampleStmtRequest ++ loopItems exampleStmtRequest ++
          (if (exampleStmtRequest.scopeKind = ScopeKind.Expr ∨
                exampleStmtRequest.scopeKind = ScopeKind.Decl ∨
                exampleStmtRequest.scopeKind = ScopeKind.Stmt) ∧
              exampleStmtRequest.formatMode = FormatMode.Name then
            keywordItems exampleStmtRequest ++ macroItems exampleStmtRequest
          else [])) ∧
    (macroItems exampleStmtRequest).map (fun it => it.label) = ["DEBUG"] :=
  ⟨(keywords_and_macros_are_appended exampleStmtRequest).1 rfl, by decide⟩

/-! ## The claims about the expected-type inference -/

/-- C20: when the parent of the completion node is an ordinary call and `i` is the
first index of an argument that matches the completion node, directly or through
the expressions it was rewritten from, the expected types are: for a callee that
is a resolved reference, what that callee contributes; for an overloaded callee,
what each of the lookup results contributes, in their order; nothing for any
other callee expression or a null one. A callee contributes the type of its
`i`-th formal parameter when it is a callable declaration with more than `i`
parameters, and nothing otherwise. -/
theorem expected_types_of_call_argument
    (first : ASTLookupResult) (rest : List ASTLookupResult) (init : List SyntaxNode)
    (parent hole : SyntaxNode) (i : Nat)
    (hpath : first.path = init ++ [parent, hole])
    (hcast : parent.isImplicitCastExpr = false)
    (happ : parent.isAppExprBase = true) (hinv : parent.isInvokeExpr = true)
    (hi : ∃ arg, parent.arguments.get? i = some arg ∧ matchExpr arg hole.addr = true)
    (hfirst : ∀ j arg, j < i → parent.arguments.get? j = some arg →
      matchExpr arg hole.addr = false) :
    (parent.functionExpr = none → getExpectedTypesAtCompletion (first :: rest) = []) ∧
    (∀ callee, parent.functionExpr = some (FunctionExpr.DeclRefExpr callee) →
      getExpectedTypesAtCompletion (first :: rest) = parameterTypeAt callee i) ∧
    (∀ callees, parent.functionExpr = some (FunctionExpr.OverloadedExpr callees) →
      getExpectedTypesAtCompletion (first :: rest) =
        (callees.map (fun callee => parameterTypeAt callee i)).flatten) ∧
    (parent.functionExpr = some FunctionExpr.Other →
      getExpectedTypesAtCompletion (first :: rest) = []) ∧
    (∀ (decl : CalleeDecl), decl.isCallableDecl = true →
      (∀ t, decl.paramTypes.get? i = some t → parameterTypeAt (some decl) i = [t]) ∧
      (decl.paramTypes.length ≤ i → parameterTypeAt (some decl) i = [])) ∧
    (∀ (decl : CalleeDecl), decl.isCallableDecl = false → parameterTypeAt (some decl) i = []) ∧
    parameterTypeAt none i = [] := by
  have hfind := findMatchingArgument_eq hole.addr parent.arguments 0 i hi hfirst
  rw [Nat.zero_add] at hfind
  have hmain : getExpectedTypesAtCompletion (first :: rest) = collectArgumentType parent i := by
    unfold getExpectedTypesAtCompletion
    simp only [hpath, path_reverse, hcast, happ, hfind, Bool.false_eq_true, if_false, if_true]
  rw [hmain]
  refine ⟨?_, ?_, ?_, ?_, ?_, ?_, rfl⟩
  · intro h
    simp [collectArgumentType, h]
  · intro callee h
    simp [collectArgumentType, h, hinv, processDeclRefCallee_eq]
  · intro callees h
    simp [collectArgumentType, h, hinv, processDeclRefCallee_eq]
  · intro h
    simp [collectArgumentType, h, hinv]
  · intro decl hcall
    refine ⟨?_, ?_⟩
    · intro t ht
      unfold parameterTypeAt
      simp only [hcall, if_true, ht]
      rfl
    · intro hlen
      have hnone : decl.paramTypes.get? i = none := List.get?_eq_none.2 hlen
      unfold parameterTypeAt
      simp only [hcall, if_true, hnone]
      rfl
  · intro decl hcall
    simp [parameterTypeAt, hcall]

theorem expected_types_of_call_argument_witness :
    getExpectedTypesAtCompletion [exampleCallLookup] =
      [some { addr := 301, declRefDecl := some 40 }] :=
  (expected_types_of_call_argument exampleCallLookup [] [{ addr := 400 }] exampleCallNode
    exampleHole 1 rfl rfl rfl rfl
    ⟨Expr.node 511 WrapperKind.DeclRefExpr (Expr.node 501 WrapperKind.Other Expr.null),
      rfl, by decide⟩
    (fun j arg hj hget => by
      have hj0 : j = 0 := by omega
      subst hj0
      simp only [exampleCallNode, List.get?_cons_zero, Option.some.injEq] at hget
      subst hget
      decide)).2.2.1
    [some exampleCalleeDot, some exampleCalleeUnary, none] rfl

/-! ## The claims about attribute completion -/

/-- C17, evaluated at a candidate list that holds a struct named `Attribute`: the
name is not empty, the suffix `Attribute` is removed from it, and the item of the
struct has the empty label. -/
theorem struct_named_attribute_gives_empty_label :
    exampleAttributeStruct.name = some "Attribute" ∧
    (collectAttributes [{ decl := some exampleAttributeStruct }] "1a2b" (fun k => k)).map
      (fun it => it.label) = ["", "COM(\"1a2b0123-4567-89AB-CDEF-0123456789AB\")"] := by
  decide

/-! ## The claims about the replacement text and the time budget -/

/-- C11 fails for folder items: on the line `#include "a/b"` the replacement text
of the folder item `bin` is `bin`, without the closing quote. -/
theorem folder_item_text_has_no_closing_delimiter :
    ¬ (∀ items, tryCompleteRawFileName exampleClosedContext exampleClosedLine 9 false =
        Except.ok items →
      ∀ item ∈ items, item.textEdit.newText = item.label ++ "\"") := by
  intro h
  have h1 := h [exampleClosedFileItem, exampleClosedFolderItem] rfl exampleClosedFolderItem
    (by decide)
  revert h1
  decide

/-- C11 as amended: in raw-path completion the replacement text of a file item is
its label followed by the closing delimiter that belongs to the opening one
(`>` for `<`, `"` for `"`), and the replacement text of a folder item is its
label alone; in module-name completion the replacement text of every item is its
label. -/
theorem replacement_text_of_path_items
    (env : PathContext) (isWhitespace : Char → Bool) (lineContent : List Char) (pos : Nat)
    (isImportString : Bool) :
    (∀ items, tryCompleteRawFileName env lineContent pos isImportString = Except.ok items →
      ∀ item ∈ items,
        (item.kind = CompletionItemKind.Folder ∨ item.kind = CompletionItemKind.File) ∧
        (item.kind = CompletionItemKind.File →
          item.textEdit.newText =
            item.label ++ String.mk [closingDelimiter lineContent pos]) ∧
        (item.kind = CompletionItemKind.Folder → item.textEdit.newText = item.label)) ∧
    (∀ c, lineContent.get? (firstStopFrom (fun c => c = '\"' || c = '<') lineContent pos) =
        some c →
      (c = '<' → closingDelimiter lineContent pos = '>') ∧
      (c = '\"' → closingDelimiter lineContent pos = '\"')) ∧
    (∀ a items, importPlan env isWhitespace lineContent = Except.ok (ImportPlan.moduleName a) →
      tryCompleteImport env isWhitespace lineContent = Except.ok items →
      ∀ item ∈ items, item.textEdit.newText = item.label) := by
  refine ⟨?_, ?_, ?_⟩
  · intro items h item hitem
    unfold tryCompleteRawFileName at h
    cases ha : rawFileNameArguments env lineContent pos with
    | error e => rw [ha] at h; exact absurd h (by simp)
    | ok a =>
      rw [ha] at h
      simp only [Except.ok.injEq] at h
      rw [← h] at hitem
      have hclose := rawFileNameArguments_closing env lineContent pos a ha
      obtain ⟨-, h2, h3⟩ := raw_items_textEdit env a.pfxPath isImportString a.lineIndex
        a.fileNameEnd a.sectionStart a.sectionEnd a.closingChar item hitem
      refine ⟨gather_kinds env _ _ _ _ _ _ _ _ item hitem, ?_, ?_⟩
      · intro hk
        rw [(h2 hk).2, hclose]
      · intro hk
        have hnf : item.kind ≠ CompletionItemKind.File := by rw [hk]; decide
        exact (h3 hnf).2
  · intro c hc
    unfold closingDelimiter
    rw [hc]
    refine ⟨fun h => by simp [h], fun h => by simp [h]⟩
  · intro a items hplan h item hitem
    unfold tryCompleteImport at h
    rw [hplan] at h
    simp only [Except.ok.injEq] at h
    rw [← h] at hitem
    exact (module_items_textEdit env _ _ _ _ _ _ _ item hitem).1

theorem replacement_text_of_path_items_witness :
    exampleClosedFileItem.textEdit.newText =
      exampleClosedFileItem.label ++ String.mk [closingDelimiter exampleClosedLine 9] ∧
    exampleClosedFolderItem.textEdit.newText = exampleClosedFolderItem.label :=
  have h := (replacement_text_of_path_items exampleClosedContext (fun c => c = ' ')
    exampleClosedLine 9 false).1 [exampleClosedFileItem, exampleClosedFolderItem] rfl
  ⟨(h exampleClosedFileItem (by decide)).2.1 rfl,
    (h exampleClosedFolderItem (by decide)).2.2 rfl⟩

/-- C14 fails where it says that the returned result is marked incomplete: a scan
that stopped on the time budget and a scan that did not return the very same
value, so nothing in the result tells the two apart. -/
theorem incomplete_scan_result_carries_no_mark :
    (scanAllSearchPaths exampleSlowContext "" true false).isIncomplete = true ∧
    (scanAllSearchPaths exampleQuickContext "" true false).isIncomplete = false ∧
    tryCompleteImport exampleSlowContext (fun c => c = ' ') exampleImportLine =
      Except.ok exampleModuleItems ∧
    tryCompleteImport exampleQuickContext (fun c => c = ' ') exampleImportLine =
      Except.ok exampleModuleItems :=
  ⟨by decide, by decide, rfl, rfl⟩

/-- C14 as amended: with a monotonic clock, when the reading of the clock before
the search root number `j` is the first one over 200 ms, exactly the first `j`
search roots (explicit roots first, then the workspace roots) are enumerated, the
flag `isIncomplete` of the scan is set, the items collected from those roots are
returned with their text edits, and no returned item carries commit characters.
The returned value is the list of items alone. -/
theorem budget_exceeded_stops_the_scan
    (env : PathContext) (pfxPath : String) (translateModuleName isImportString : Bool)
    (lineIndex fileNameEnd sectionStart sectionEnd : Int) (closingChar : Option Char) (j : Nat)
    (hmono : ∀ k, env.elapsedTime k ≤ env.elapsedTime (k + 1))
    (hj : j < (searchRoots env).length)
    (hbefore : ∀ i, i < j → env.elapsedTime i ≤ 200)
    (hover : env.elapsedTime j > 200) :
    (scanAllSearchPaths env pfxPath translateModuleName isImportString).enumeration =
      ((searchRoots env).take j).foldl
        (addCandidate env (workspaceRootOf env)
          (stripParentSegments pfxPath.length pfxPath.data) translateModuleName isImportString)
        {} ∧
    (scanAllSearchPaths env pfxPath translateModuleName isImportString).isIncomplete = true ∧
    gatherFileAndModuleCompletionItems env pfxPath translateModuleName isImportString lineIndex
        fileNameEnd sectionStart sectionEnd closingChar =
      (((searchRoots env).take j).foldl
        (addCandidate env (workspaceRootOf env)
          (stripParentSegments pfxPath.length pfxPath.data) translateModuleName isImportString)
        {}).items.map
        (setTextEdit translateModuleName lineIndex fileNameEnd sectionStart sectionEnd
          closingChar) ∧
    ∀ item ∈ gatherFileAndModuleCompletionItems env pfxPath translateModuleName isImportString
        lineIndex fileNameEnd sectionStart sectionEnd closingChar,
      item.commitCharacters = [] := by
  obtain ⟨henum, hinc⟩ := scanAllSearchPaths_break env pfxPath translateModuleName
    isImportString j hmono hj hbefore hover
  have hg : gatherFileAndModuleCompletionItems env pfxPath translateModuleName isImportString
      lineIndex fileNameEnd sectionStart sectionEnd closingChar =
      (((searchRoots env).take j).foldl
        (addCandidate env (workspaceRootOf env)
          (stripParentSegments pfxPath.length pfxPath.data) translateModuleName isImportString)
        {}).items.map
        (setTextEdit translateModuleName lineIndex fileNameEnd sectionStart sectionEnd
          closingChar) := by
    unfold gatherFileAndModuleCompletionItems
    simp only [hinc, henum, Bool.not_true, Bool.false_and, Bool.false_eq_true, if_false]
  refine ⟨henum, hinc, hg, ?_⟩
  intro item hitem
  rw [hg] at hitem
  obtain ⟨raw, hraw, rfl⟩ := List.mem_map.mp hitem
  rw [setTextEdit_commit]
  exact foldl_addCandidate_commit env _ _ translateModuleName isImportString _ {}
    (fun it hit => absurd hit (List.not_mem_nil it)) raw hraw

theorem budget_exceeded_stops_the_scan_witness :
    (searchRoots exampleSlowContext).take 1 = ["/ws/a"] ∧
    (scanAllSearchPaths exampleSlowContext "" true false).isIncomplete = true ∧
    gatherFileAndModuleCompletionItems exampleSlowContext "" true false 0 8 7 8 none =
      (((searchRoots exampleSlowContext).take 1).foldl
        (addCandidate exampleSlowContext (workspaceRootOf exampleSlowContext)
          (stripParentSegments "".length "".data) true false) {}).items.map
        (setTextEdit true 0 8 7 8 none) :=
  have h := budget_exceeded_stops_the_scan exampleSlowContext "" true false 0 8 7 8 none 1
    (by
      intro k
      show (if k = 0 then (0 : Int) else 500) ≤ (if k + 1 = 0 then (0 : Int) else 500)
      by_cases hk : k = 0 <;> simp [hk])
    (by decide)
    (by
      intro i hi
      have hi0 : i = 0 := by omega
      subst hi0
      decide)
    (by decide)
  ⟨by decide, h.2.1, h.2.2.1⟩

/-! ## The claims about module-name completion -/

/-- C12 fails on its own example: for `import my_module.sub` with the cursor
after `sub`, the prefix path handed to the enumeration is `my-module`, so the
entries of `my-module` are offered and those of `my-module/sub` are not. -/
theorem typed_section_is_not_in_the_prefix_path :
    tryCompleteImport exampleModuleContext (fun c => c = ' ') exampleModuleLine =
      Except.ok (gatherFileAndModuleCompletionItems exampleModuleContext "my-module" true false
        0 20 17 20 none) ∧
    (gatherFileAndModuleCompletionItems exampleModuleContext "my-module" true false
      0 20 17 20 none).map TextEditCompletionItem.label = ["sub", "subsurface"] ∧
    (gatherFileAndModuleCompletionItems exampleModuleContext "my-module/sub" true false
      0 20 17 20 none).map TextEditCompletionItem.label = ["inner"] :=
  ⟨rfl, by decide, by decide⟩

/-- C12 as amended: in module-name completion the prefix path handed to the
enumeration is the text between the keyword (position `p`) and the last `.`
before the cursor (position `dot`), every `.` of it becoming the path separator
and every `_` becoming `-`, all other characters unchanged; the text after that
`.` is the section being completed and is not part of the prefix path. So
`my_module.sub` with the cursor after `sub` gives `my-module`, and
`my_module.sub.` with the cursor after the last `.` gives `my-module<sep>sub`. -/
theorem module_prefix_is_the_text_before_the_last_dot
    (env : PathContext) (isWhitespace : Char → Bool) (s : List Char)
    (p dot n : Nat) (c : Char)
    (hkw : findImportKeyword isWhitespace s importKeywords = some (p : Int))
    (hfirst : s.get? p = some c) (hc : isWhitespace c = false) (hq : c ≠ '\"')
    (hpd : p < dot) (hdot : s.get? dot = some '.')
    (hafter : ∀ k : Nat, dot < k → k ≤ dot + n → ∃ c, s.get? k = some c ∧ c ≠ '.' ∧ c ≠ ';')
    (hcol : env.col = ((dot + n : Nat) : Int) + 2) :
    tryCompleteImport env isWhitespace s =
      Except.ok (gatherFileAndModuleCompletionItems env
        (String.mk (((s.drop p).take (dot - p)).map (translateModuleChar env.pathDelimiter)))
        true false (env.line - 1)
        (firstStopFrom (fun c => c = ';') s
          (firstStopFrom endsModuleSection s (dot + n + 1)) : Nat)
        ((dot : Int) + 1)
        (firstStopFrom endsModuleSection s (dot + n + 1) : Nat) none) ∧
    translateModuleChar env.pathDelimiter '.' = env.pathDelimiter ∧
    translateModuleChar env.pathDelimiter '_' = '-' ∧
    ∀ ch, ch ≠ '.' → ch ≠ '_' → translateModuleChar env.pathDelimiter ch = ch := by
  refine ⟨?_, rfl, rfl, ?_⟩
  · unfold tryCompleteImport
    rw [importPlan_module env isWhitespace s p dot n c hkw hfirst hc hq hpd hdot hafter hcol]
  · intro ch h1 h2
    unfold translateModuleChar
    rw [if_neg h1, if_neg h2]

theorem module_prefix_is_the_text_before_the_last_dot_witness :
    tryCompleteImport exampleModuleContext (fun c => c = ' ') exampleModuleLine =
      Except.ok (gatherFileAndModuleCompletionItems exampleModuleContext "my-module" true false
        0 20 17 20 none) ∧
    tryCompleteImport { exampleModuleContext with col := 22 } (fun c => c = ' ')
        "import my_module.sub.".data =
      Except.ok (gatherFileAndModuleCompletionItems { exampleModuleContext with col := 22 }
        "my-module/sub" true false 0 21 21 21 none) :=
  ⟨(module_prefix_is_the_text_before_the_last_dot exampleModuleContext (fun c => c = ' ')
      exampleModuleLine 7 16 3 'm' rfl rfl rfl (by decide) (by decide) rfl
      (by
        intro k h1 h2
        interval_cases k
        · exact ⟨'s', rfl, by decide, by decide⟩
        · exact ⟨'u', rfl, by decide, by decide⟩
        · exact ⟨'b', rfl, by decide, by decide⟩)
      rfl).1,
    (module_prefix_is_the_text_before_the_last_dot { exampleModuleContext with col := 22 }
      (fun c => c = ' ') "import my_module.sub.".data 7 20 0 'm' rfl rfl rfl (by decide)
      (by decide) rfl
      (by
        intro k h1 h2
        omega)
      rfl).1⟩

/-- C13 fails when the cursor is ahead of the path or module name but not in the
first column: on `#include "a/b"` with the cursor inside `#include`, and on
`import b` with the cursor inside `import`, items are returned. -/
theorem cursor_ahead_of_the_prefix_still_completes :
    (∃ items, tryCompleteRawFileName { exampleClosedContext with col := 5 } exampleClosedLine 9
        false = Except.ok items ∧
      items.map TextEditCompletionItem.label = ["b.h", "bin"]) ∧
    (∃ items, tryCompleteImport { exampleQuickContext with col := 3 } (fun c => c = ' ')
        exampleImportLine = Except.ok items ∧
      items.map TextEditCompletionItem.label = ["b", "bin"]) :=
  ⟨⟨_, rfl, by decide⟩, ⟨_, rfl, by decide⟩⟩

/-- C13 as amended: `tryCompleteRawFileName` and `tryCompleteImport` report "not
applicable" whenever the cursor is in the first column (`col < 2`). When the
cursor is at column 2 or later and lies before the first character after the
opening delimiter (raw path) or before the end of the keyword (module name), they
do not fail: they complete with the empty prefix path, the replaced section
starting at the cursor. -/
theorem cursor_ahead_of_the_prefix
    (env : PathContext) (isWhitespace : Char → Bool) (lineContent : List Char) (pos : Nat)
    (isImportString : Bool) :
    (env.col < 2 →
      tryCompleteRawFileName env lineContent pos isImportString =
        Except.error Failure.notApplicable ∧
      tryCompleteImport env isWhitespace lineContent = Except.error Failure.notApplicable) ∧
    (2 ≤ env.col →
      env.col - 1 < (firstStopFrom (fun c => c = '\"' || c = '<') lineContent pos : Nat) + 1 →
      tryCompleteRawFileName env lineContent pos isImportString = Except.ok
        (gatherFileAndModuleCompletionItems env "" false isImportString (env.line - 1)
          (firstStopFrom (fun c => c = ';') lineContent
            (firstStopFrom endsRawSection lineContent (env.col - 1).toNat) : Nat)
          (env.col - 1)
          (firstStopFrom endsRawSection lineContent (env.col - 1).toNat : Nat)
          (some (closingDelimiter lineContent pos)))) ∧
    (2 ≤ env.col →
      ∀ k, findImportKeyword isWhitespace lineContent importKeywords = some k →
      env.col - 1 < k →
      tryCompleteImport env isWhitespace lineContent = Except.ok
        (if lineContent.get? k.toNat = some '\"' then
          gatherFileAndModuleCompletionItems env "" false true (env.line - 1)
            (firstStopFrom (fun c => c = ';') lineContent
              (firstStopFrom endsRawSection lineContent (env.col - 1).toNat) : Nat)
            (env.col - 1)
            (firstStopFrom endsRawSection lineContent (env.col - 1).toNat : Nat)
            (some '\"')
        else
          gatherFileAndModuleCompletionItems env "" true false (env.line - 1)
            (firstStopFrom (fun c => c = ';') lineContent
              (firstStopFrom endsModuleSection lineContent (env.col - 1).toNat) : Nat)
            (env.col - 1)
            (firstStopFrom endsModuleSection lineContent (env.col - 1).toNat : Nat)
            none)) := by
  refine ⟨fun hcol => ⟨?_, ?_⟩, ?_, ?_⟩
  · exact tryCompleteRawFileName_first_column env lineContent pos isImportString hcol
  · exact tryCompleteImport_first_column env isWhitespace lineContent hcol
  · intro hcol hbefore
    unfold tryCompleteRawFileName
    rw [rawFileNameArguments_cursor_ahead env lineContent pos hcol hbefore]
  · intro hcol k hkw hbefore
    exact tryCompleteImport_cursor_ahead env isWhitespace lineContent k hcol hkw hbefore

theorem cursor_ahead_of_the_prefix_witness :
    (tryCompleteRawFileName { exampleClosedContext with col := 1 } exampleClosedLine 9 false =
        Except.error Failure.notApplicable ∧
      tryCompleteImport { exampleClosedContext with col := 1 } (fun c => c = ' ')
          exampleClosedLine = Except.error Failure.notApplicable) ∧
    tryCompleteRawFileName { exampleClosedContext with col := 5 } exampleClosedLine 9 false =
      Except.ok (gatherFileAndModuleCompletionItems { exampleClosedContext with col := 5 } ""
        false false 0 14 4 9 (some '\"')) :=
  have h := cursor_ahead_of_the_prefix { exampleClosedContext with col := 1 }
    (fun c => c = ' ') exampleClosedLine 9 false
  have h5 := cursor_ahead_of_the_prefix { exampleClosedContext with col := 5 }
    (fun c => c = ' ') exampleClosedLine 9 false
  ⟨h.1 (by decide), h5.2.1 (by decide) (by decide)⟩

/-! ## The claims about the expected types under a conversion or a declaration -/

/-- C21: when the parent of the completion node is an implicit conversion, the
expected types are the one-element list holding the target type of the
conversion if the conversion has exactly one argument, that argument matches the
completion node (it is that node, or is reached from it through the
original-expression links of rewriting wrappers), and the target type is a
declared-type reference; in every other case the result is empty. -/
theorem expected_type_of_implicit_conversion
    (first : ASTLookupResult) (rest : List ASTLookupResult) (init : List SyntaxNode)
    (parent hole : SyntaxNode)
    (hpath : first.path = init ++ [parent, hole])
    (hcast : parent.isImplicitCastExpr = true) :
    (∀ arg, parent.arguments = [arg] → hole.addr ∈ originalChain arg →
      isDeclRefType parent.type = true →
      getExpectedTypesAtCompletion (first :: rest) = [parent.type]) ∧
    ((¬ ∃ arg, parent.arguments = [arg] ∧ hole.addr ∈ originalChain arg ∧
        isDeclRefType parent.type = true) →
      getExpectedTypesAtCompletion (first :: rest) = []) := by
  have hmain : getExpectedTypesAtCompletion (first :: rest) =
      (match parent.arguments with
        | [arg] =>
          if matchExpr arg hole.addr then
            if isDeclRefType parent.type then [parent.type] else []
          else []
        | _ => []) := by
    unfold getExpectedTypesAtCompletion
    simp only [hpath, path_reverse, hcast, if_true]
  rw [hmain]
  refine ⟨?_, ?_⟩
  · intro arg hargs hmem hty
    rw [hargs]
    simp only [(matchExpr_iff_mem_originalChain arg hole.addr).2 hmem, hty, if_true]
  · intro hnot
    cases hargs : parent.arguments with
    | nil => rfl
    | cons arg tail =>
      cases tail with
      | cons b tail' => rfl
      | nil =>
        simp only
        by_cases hm : matchExpr arg hole.addr = true
        · by_cases hty : isDeclRefType parent.type = true
          · exact absurd ⟨arg, hargs, (matchExpr_iff_mem_originalChain arg hole.addr).1 hm, hty⟩
              hnot
          · simp only [hm, hty, if_true, if_false, Bool.false_eq_true]
        · simp only [hm, if_false, Bool.false_eq_true]

theorem expected_type_of_implicit_conversion_witness :
    getExpectedTypesAtCompletion [exampleCastLookup] =
      [some { addr := 310, declRefDecl := some 42 }] :=
  (expected_type_of_implicit_conversion exampleCastLookup [] [{ addr := 400 }] exampleCastNode
    exampleHole rfl rfl).1
    (Expr.node 521 WrapperKind.DeclRefExpr (Expr.node 501 WrapperKind.Other Expr.null)) rfl
    (by decide) rfl

/-- C22: the expected types are empty when the ancestor path has fewer than two
nodes, and when the parent of the completion node is neither an implicit
conversion, nor a call or generic instantiation, nor a variable declaration. When
the parent is a variable declaration, they are the one-element list holding the
declared type of the variable if the initializer matches the completion node and
that type is a declared-type reference, and empty otherwise. -/
theorem expected_type_of_variable_declaration
    (first : ASTLookupResult) (rest : List ASTLookupResult) :
    (first.path.length < 2 → getExpectedTypesAtCompletion (first :: rest) = []) ∧
    (∀ (init : List SyntaxNode) (parent hole : SyntaxNode),
      first.path = init ++ [parent, hole] →
      parent.isImplicitCastExpr = false → parent.isAppExprBase = false →
      (parent.isVarDeclBase = false → getExpectedTypesAtCompletion (first :: rest) = []) ∧
      (parent.isVarDeclBase = true →
        getExpectedTypesAtCompletion (first :: rest) =
          if hole.addr ∈ originalChain parent.initExpr ∧ isDeclRefType parent.type = true then
            [parent.type]
          else [])) := by
  refine ⟨?_, ?_⟩
  · intro hlen
    have hrev : first.path.reverse.length < 2 := by rw [List.length_reverse]; exact hlen
    cases hr : first.path.reverse with
    | nil => simp only [getExpectedTypesAtCompletion, hr]
    | cons a tail =>
      cases tail with
      | nil => simp only [getExpectedTypesAtCompletion, hr]
      | cons b tail' =>
        rw [hr] at hrev
        simp only [List.length_cons] at hrev
        omega
  · intro init parent hole hpath hcast happ
    refine ⟨?_, ?_⟩
    · intro hvar
      unfold getExpectedTypesAtCompletion
      simp only [hpath, path_reverse, hcast, happ, hvar, Bool.false_eq_true, if_false]
    · intro hvar
      have hmain : getExpectedTypesAtCompletion (first :: rest) =
          (if !matchExpr parent.initExpr hole.addr then []
            else if isDeclRefType parent.type then [parent.type] else []) := by
        unfold getExpectedTypesAtCompletion
        simp only [hpath, path_reverse, hcast, happ, hvar, Bool.false_eq_true, if_false,
          if_true]
      rw [hmain]
      by_cases hm : matchExpr parent.initExpr hole.addr = true
      · have hmem := (matchExpr_iff_mem_originalChain parent.initExpr hole.addr).1 hm
        by_cases hty : isDeclRefType parent.type = true
        · simp [hm, hmem, hty]
        · simp [hm, hmem, hty]
      · have hmem : ¬ hole.addr ∈ originalChain parent.initExpr :=
          fun h => hm ((matchExpr_iff_mem_originalChain parent.initExpr hole.addr).2 h)
        simp [hm, hmem]

theorem expected_type_of_variable_declaration_witness :
    getExpectedTypesAtCompletion [{ path := [exampleHole] }] = [] ∧
    getExpectedTypesAtCompletion [exampleVarDeclLookup] =
      [some { addr := 310, declRefDecl := some 42 }] :=
  have h := expected_type_of_variable_declaration exampleVarDeclLookup []
  ⟨(expected_type_of_variable_declaration { path := [exampleHole] } []).1 (by decide),
    ((h.2 [{ addr := 400 }] exampleVarDeclNode exampleHole rfl rfl rfl).2 rfl).trans
      (by decide)⟩

/-! ## The claims about the candidate loop -/

/-- C23: in the mode FullSignature, for a named callable candidate that has the
modifier `static` while the current partial declaration exists and does not have
it: the label is `static ` followed by the rendered signature, the name offset is
the offset of the renderer plus 7, the text of the label at that offset begins
with the name of the declaration, and the item `static` of kind Keyword with the
data `"-1"` is added before the item of the candidate. When the condition does
not hold, the label is the rendered signature, the offset is that of the
renderer, and no item `static` is added for the candidate. -/
theorem static_prefix_of_a_candidate
    (ctx : CompletionContext) (ets : List (Option TypeNode)) (d : List String) (i : Nat)
    (c : LookupResultItem) (decl member : Decl) (name : String)
    (hdecl : c.decl = some decl) (hmem : candidateMember c = some member)
    (hname : member.name = some name) (hcall : member.isCallableDecl = true)
    (hmode : ctx.formatMode = FormatMode.FullSignature) :
    (decl.hasStaticModifier = true → ctx.currentPartialDecl = some false →
      candidateLabelText ctx decl c.inner =
        "static " ++ (formatDeclForCompletion decl c.inner ctx.formatMode ctx.indent).1 ∧
      candidateNameStart ctx decl c.inner =
        (formatDeclForCompletion decl c.inner ctx.formatMode ctx.indent).2 + 7 ∧
      name.data <+: (candidateLabelText ctx decl c.inner).data.drop
        (candidateNameStart ctx decl c.inner).toNat ∧
      (processCandidate ctx ets d i c).1.staticItem =
        some { label := "static", kind := CompletionItemKind.Keyword, data := "-1" } ∧
      ∀ it, (processCandidate ctx ets d i c).1.item = some it →
        it.label =
          "static " ++ (formatDeclForCompletion decl c.inner ctx.formatMode ctx.indent).1 ∧
        (processCandidate ctx ets d i c).1.items =
          { label := "static", kind := CompletionItemKind.Keyword, data := "-1" } :: it ::
            (processCandidate ctx ets d i c).1.typeItem.toList) ∧
    (¬ (decl.hasStaticModifier = true ∧ ctx.currentPartialDecl = some false) →
      candidateLabelText ctx decl c.inner =
        (formatDeclForCompletion decl c.inner ctx.formatMode ctx.indent).1 ∧
      candidateNameStart ctx decl c.inner =
        (formatDeclForCompletion decl c.inner ctx.formatMode ctx.indent).2 ∧
      (processCandidate ctx ets d i c).1.staticItem = none ∧
      ∀ it, (processCandidate ctx ets d i c).1.item = some it →
        it.label = (formatDeclForCompletion decl c.inner ctx.formatMode ctx.indent).1) := by
  have hnn : member.name.isNone = false := by rw [hname]; rfl
  have hlen : (formatDeclForCompletion decl c.inner ctx.formatMode ctx.indent).1.length ≠ 0 := by
    rw [hmode]
    exact full_signature_nonempty c decl member name ctx.indent hdecl hmem hname hcall
  have hout := processCandidate_named ctx ets d i c decl member hdecl hmem hnn hlen
  refine ⟨fun hstatic hpartial => ?_, fun hnot => ?_⟩
  · have hadds : addsStatic ctx decl = true :=
      (addsStatic_iff ctx decl).2 ⟨hmode, hstatic, hpartial⟩
    have hlabel : candidateLabelText ctx decl c.inner =
        "static " ++ (formatDeclForCompletion decl c.inner ctx.formatMode ctx.indent).1 := by
      unfold candidateLabelText
      rw [if_pos hadds]
    have hstart : candidateNameStart ctx decl c.inner =
        (formatDeclForCompletion decl c.inner ctx.formatMode ctx.indent).2 + 7 := by
      unfold candidateNameStart
      rw [if_pos hadds]
    refine ⟨hlabel, hstart, ?_, ?_, ?_⟩
    · obtain ⟨tail, h1, h2⟩ := formatDecl_full_signature c decl member name ctx.indent hdecl
        hmem hname hcall
      rw [hlabel, hstart, hmode, h1, h2]
      have hnat : (((member.returnTypeText.length + 1 : Nat) : Int) + 7).toNat =
          ("static " ++ (member.returnTypeText ++ " ")).length := by
        simp only [String.length_append]
        have h7 : "static ".length = 7 := rfl
        have h1' : " ".length = 1 := rfl
        omega
      have hassoc : "static " ++ (member.returnTypeText ++ " " ++ name ++ tail) =
          ("static " ++ (member.returnTypeText ++ " ")) ++ (name ++ tail) := by
        simp only [String.append_assoc]
      rw [hnat, hassoc, data_drop_length, String.data_append]
      exact List.prefix_append _ _
    · rw [processCandidate_named_static ctx ets d i c decl member hdecl hmem hnn hlen,
        if_pos hadds]
      rfl
    · intro it hit
      rw [hout] at hit ⊢
      by_cases hskip : skipsCandidate ctx member (candidateLabelText ctx decl c.inner) = true ∨
          candidateLabelText ctx decl c.inner ∈ d
      · rw [if_pos hskip] at hit
        exact absurd hit (by simp)
      · rw [if_neg hskip] at hit ⊢
        simp only [Option.some.injEq] at hit
        refine ⟨?_, ?_⟩
        · rw [← hit, ← hlabel]
          rfl
        · simp only [CandidateOutput.items, hadds, if_true, hit]
          rfl
  · have hadds : addsStatic ctx decl = false := by
      cases h : addsStatic ctx decl
      · rfl
      · exact absurd ((addsStatic_iff ctx decl).1 h).2 hnot
    have hlabel : candidateLabelText ctx decl c.inner =
        (formatDeclForCompletion decl c.inner ctx.formatMode ctx.indent).1 := by
      unfold candidateLabelText
      rw [hadds]
      rfl
    have hstart : candidateNameStart ctx decl c.inner =
        (formatDeclForCompletion decl c.inner ctx.formatMode ctx.indent).2 := by
      unfold candidateNameStart
      rw [hadds]
      rfl
    refine ⟨hlabel, hstart, ?_, ?_⟩
    · rw [processCandidate_named_static ctx ets d i c decl member hdecl hmem hnn hlen, hadds]
      rfl
    · intro it hit
      rw [hout] at hit
      by_cases hskip : skipsCandidate ctx member (candidateLabelText ctx decl c.inner) = true ∨
          candidateLabelText ctx decl c.inner ∈ d
      · rw [if_pos hskip] at hit
        exact absurd hit (by simp)
      · rw [if_neg hskip] at hit
        simp only [Option.some.injEq] at hit
        rw [← hit, ← hlabel]
        rfl

theorem static_prefix_of_a_candidate_witness :
    candidateLabelText exampleStaticRequest exampleStaticFunc none = "static int make()" ∧
    candidateNameStart exampleStaticRequest exampleStaticFunc none = 11 ∧
    (processCandidate exampleStaticRequest [] [] 0 { decl := some exampleStaticFunc }).1.staticItem =
      some { label := "static", kind := CompletionItemKind.Keyword, data := "-1" } :=
  have h := (static_prefix_of_a_candidate exampleStaticRequest [] [] 0
    { decl := some exampleStaticFunc } exampleStaticFunc exampleStaticFunc "make" rfl rfl rfl rfl
    rfl).1 rfl rfl
  ⟨h.1.trans (by decide), h.2.1.trans (by decide), h.2.2.2.1⟩

/-- C24, evaluated at a request with one candidate at a place where its return
type is expected: the candidate `pick` is ranked with the key `3:pick`, the
type-only item has the kind Struct and the key `1:Color`, and that key is the
smaller one. -/
theorem type_only_item_sorts_before_a_ranked_candidate :
    collectMembersAndSymbols exampleRankedRequest =
      [{ label := "Color pick", kind := CompletionItemKind.Method, data := "0",
         sortText := "3:pick" },
       { label := "Color", kind := CompletionItemKind.Struct, data := "0",
         sortText := "1:Color" }] ∧
    "1:Color" < "3:pick" := by
  refine ⟨by decide, ?_⟩
  rw [String.lt_iff_toList_lt]
  exact List.Lex.rel (by decide)

/-- C25 fails for a candidate whose label received the prefix `static `: the
renderer printed the return type `int` for `make`, and the type-only item is
labelled `static int`. -/
theorem type_only_item_keeps_the_static_prefix :
    (formatDeclForCompletion exampleStaticFunc none FormatMode.FullSignature "").1 =
      "int make()" ∧
    exampleStaticFunc.returnTypeText = "int" ∧
    (processCandidate exampleStaticRequest [] [] 0
      { decl := some exampleStaticFunc }).1.typeItem.map (fun it => it.label) =
      some "static int" := by
  decide

/-- C25 as amended: whenever the type-only item of a candidate is added, the mode
is FullSignature, the candidate is a callable, and the label of the item is the
text of the label of the candidate before the blank that precedes the name: the
return-type text the renderer printed, preceded by `static ` when the label of
the candidate received that prefix. -/
theorem type_only_item_label
    (ctx : CompletionContext) (ets : List (Option TypeNode)) (d : List String) (i : Nat)
    (c : LookupResultItem) (decl member : Decl) (it : CompletionItem)
    (hdecl : c.decl = some decl) (hmem : candidateMember c = some member)
    (h : (processCandidate ctx ets d i c).1.typeItem = some it) :
    ctx.formatMode = FormatMode.FullSignature ∧ member.isCallableDecl = true ∧
    it.label =
      (if addsStatic ctx decl then "static " ++ member.returnTypeText
       else member.returnTypeText) ∧
    it.label = String.mk ((candidateLabelText ctx decl c.inner).data.take
      (candidateNameStart ctx decl c.inner - 1).toNat) := by
  obtain ⟨decl', member', h1, h2, h3, h4, h5, -, -, h8, -⟩ := typeItem_spec ctx ets d i c it h
  rw [hdecl] at h1
  rw [hmem] at h2
  simp only [Option.some.injEq] at h1 h2
  subst h1
  subst h2
  refine ⟨h3, h4, h8, ?_⟩
  have hnn : member.name.isNone = false := by
    cases hx : member.name.isNone with
    | false => rfl
    | true =>
      exfalso
      have : (processCandidate ctx ets d i c).1 = {} := by
        unfold processCandidate
        simp only [hdecl, hmem, hx, if_true]
      rw [this] at h5
      exact absurd h5 (by simp)
  have hlen : (formatDeclForCompletion decl c.inner ctx.formatMode ctx.indent).1.length ≠ 0 := by
    intro hx
    have : (processCandidate ctx ets d i c).1 = {} := by
      unfold processCandidate
      simp only [hdecl, hmem, hnn, hx, if_true, if_false, Bool.false_eq_true]
    rw [this] at h5
    exact absurd h5 (by simp)
  rw [processCandidate_named ctx ets d i c decl member hdecl hmem hnn hlen] at h
  by_cases hskip : skipsCandidate ctx member (candidateLabelText ctx decl c.inner) = true ∨
      candidateLabelText ctx decl c.inner ∈ d
  · rw [if_pos hskip] at h
    exact absurd h (by simp)
  · rw [if_neg hskip] at h
    simp only [returnTypeItem] at h
    by_cases hstart : candidateNameStart ctx decl c.inner > 1
    · rw [if_pos hstart] at h
      simp only [Option.some.injEq] at h
      rw [← h]
      rfl
    · rw [if_neg hstart] at h
      exact absurd h (by simp)

theorem type_only_item_label_witness :
    ({ label := "int", kind := CompletionItemKind.Struct, data := "0",
       sortText := "2:int" } : CompletionItem).label = exampleFoo.returnTypeText ∧
    ({ label := "static int", kind := CompletionItemKind.Struct, data := "0",
       sortText := "2:static int" } : CompletionItem).label =
      "static " ++ exampleStaticFunc.returnTypeText :=
  ⟨(type_only_item_label exampleOverrideRequest [] [] 0 { decl := some exampleFoo } exampleFoo
      exampleFoo
      { label := "int", kind := CompletionItemKind.Struct, data := "0", sortText := "2:int" }
      rfl rfl (by decide)).2.2.1,
    (type_only_item_label exampleStaticRequest [] [] 0 { decl := some exampleStaticFunc }
      exampleStaticFunc exampleStaticFunc
      { label := "static int", kind := CompletionItemKind.Struct, data := "0",
        sortText := "2:static int" }
      rfl rfl (by decide)).2.2.1⟩

/-- C26, evaluated at a request in which the static method `make` is a candidate
twice: the second candidate repeats the label of the first and gets no item of
its own, and yet an item `static` is added for it, so the response holds four
items. -/
theorem skipped_static_candidate_adds_the_static_item :
    (processCandidate exampleStaticRequest [] ["static int make()"] 1
      { decl := some exampleStaticFunc }).1.item = none ∧
    (processCandidate exampleStaticRequest [] ["static int make()"] 1
      { decl := some exampleStaticFunc }).1.items =
      [{ label := "static", kind := CompletionItemKind.Keyword, data := "-1" }] ∧
    (collectMembersAndSymbols exampleStaticRequest).map (fun it => it.label) =
      ["static", "static int make()", "static int", "static"] := by
  decide

/-! ## The claims about the items of attribute completion -/

/-- C27 fails for an aggregate type whose name does not end in `Attribute`: the
struct `Light` gives an item. -/
theorem aggregate_without_suffix_gives_an_item :
    endsWith "Light".data "Attribute".data = false ∧
    collectAttributes [{ decl := some exampleStruct }] "1a2b" (fun k => k) =
      [{ label := "Light", kind := CompletionItemKind.Struct },
       { label := "COM(\"1a2b0123-4567-89AB-CDEF-0123456789AB\")",
         kind := CompletionItemKind.Keyword }] := by
  decide

/-- C27 as amended: `collectAttributes` gives the items of the candidates in
candidate order, followed by the one placeholder-GUID item. A candidate gives an
item exactly when its declaration is a named attribute declaration (label = the
name, kind Keyword) or, not being an attribute declaration, a named aggregate
type (kind Struct; the label is the name, without the suffix `Attribute` when the
name ends in it); any other candidate gives nothing. -/
theorem attribute_items (cs : List LookupResultItem) (hashStr : String) (rand : Nat → Nat) :
    (collectAttributes cs hashStr rand).dropLast = cs.filterMap attributeItem ∧
    (collectAttributes cs hashStr rand).getLast? =
      some (generateGUIDCompletionItem hashStr rand) ∧
    ∀ c : LookupResultItem,
      (∀ decl name, c.decl = some decl → decl.isAttributeDecl = true → decl.name = some name →
        attributeItem c = some { label := name, kind := CompletionItemKind.Keyword }) ∧
      (∀ decl stem, c.decl = some decl → decl.isAttributeDecl = false →
        decl.isAggTypeDecl = true → decl.name = some (stem ++ "Attribute") →
        attributeItem c = some { label := stem, kind := CompletionItemKind.Struct }) ∧
      (∀ decl name, c.decl = some decl → decl.isAttributeDecl = false →
        decl.isAggTypeDecl = true → decl.name = some name →
        (¬ ∃ stem : List Char, name.data = stem ++ "Attribute".data) →
        attributeItem c = some { label := name, kind := CompletionItemKind.Struct }) ∧
      (attributeItem c = none ↔
        c.decl = none ∨
        ∃ decl, c.decl = some decl ∧
          (decl.name = none ∨ (decl.isAttributeDecl = false ∧ decl.isAggTypeDecl = false))) := by
  refine ⟨?_, ?_, ?_⟩
  · unfold collectAttributes
    simp
  · unfold collectAttributes
    simp
  · intro c
    refine ⟨?_, ?_, ?_, ?_⟩
    · intro decl name hdecl hattr hname
      simp only [attributeItem, hdecl, hattr, if_true, hname]
    · intro decl stem hdecl hattr hagg hname
      simp only [attributeItem, hdecl, hattr, hagg, if_true, hname, Bool.false_eq_true,
        if_false]
      exact congrArg
        (fun l => some ({ label := l, kind := CompletionItemKind.Struct } : CompletionItem))
        (attributeLabel_stem stem)
    · intro decl name hdecl hattr hagg hname hnot
      have hends : endsWith name.data "Attribute".data = false := by
        cases h : endsWith name.data "Attribute".data
        · rfl
        · exact absurd ((endsWith_iff _ _).1 h) hnot
      simp only [attributeItem, hdecl, hattr, hagg, if_true, hname, Bool.false_eq_true,
        if_false, hends]
    · unfold attributeItem
      cases hdecl : c.decl with
      | none => simp
      | some decl =>
        simp only [Option.some.injEq, exists_eq_left', false_or]
        cases hname : decl.name with
        | none =>
          split_ifs <;> simp
        | some name =>
          cases hattr : decl.isAttributeDecl <;> cases hagg : decl.isAggTypeDecl <;> simp

theorem attribute_items_witness :
    attributeItem { decl := some exampleAttributeDecl } =
      some { label := "numthreads", kind := CompletionItemKind.Keyword } ∧
    attributeItem { decl := some exampleUnrollStruct } =
      some { label := "Unroll", kind := CompletionItemKind.Struct } ∧
    attributeItem { decl := some exampleVar } = none :=
  have h := (attribute_items [] "" (fun k => k)).2.2
  ⟨(h { decl := some exampleAttributeDecl }).1 exampleAttributeDecl "numthreads" rfl rfl rfl,
    (h { decl := some exampleUnrollStruct }).2.1 exampleUnrollStruct "Unroll" rfl rfl rfl rfl,
    (h { decl := some exampleVar }).2.2.2.2 (Or.inr ⟨exampleVar, rfl, Or.inr ⟨rfl, rfl⟩⟩)⟩

/-! ## The claims about the generated identifier, the enumeration and the swizzle scope -/

/-- C28, evaluated at a document whose hash has the 16 digits `9E3779B97F4A7C15`:
the first group of the label is that text, of length 16, and no random digit is
added to it. -/
theorem long_hash_gives_a_long_first_group :
    (generateGUIDCompletionItem "9E3779B97F4A7C15" (fun k => k)).label =
      "COM(\"9E3779B97F4A7C15-0123-4567-89AB-CDEF01234567\")" ∧
    "9E3779B97F4A7C15".length = 16 := by
  decide

/-- C30 fails when the candidate list is not empty: in swizzle scope on a vector
of three floats with the candidate `tint`, the response holds the items `x`, `y`,
`z` and the item of `tint`. -/
theorem swizzle_scope_renders_the_candidates :
    (collectMembersAndSymbols exampleSwizzleRequest).map (fun it => (it.label, it.kind)) =
      [("x", CompletionItemKind.Variable), ("y", CompletionItemKind.Variable),
       ("z", CompletionItemKind.Variable), ("tint", CompletionItemKind.Variable)] ∧
    (collectMembersAndSymbols exampleSwizzleRequest).map (fun it => it.data) =
      ["0", "0", "0", "0"] ∧
    createSwizzleCandidates exampleSwizzleRequest.swizzleBaseType
        exampleSwizzleRequest.elementCount =
      [swizzleItem "x" "float", swizzleItem "y" "float", swizzleItem "z" "float"] := by
  decide

/-- C30 as amended: in swizzle scope the response is the items of the swizzle
generator for the base type and the element counts, followed by the items of the
loop over the candidates; no keyword or macro item is added; the commit
characters are added to every item when the commit mode is MembersOnly or All.
With an empty candidate list the response is the items of the swizzle generator
alone. -/
theorem swizzle_scope_response (ctx : CompletionContext)
    (hscope : ctx.scopeKind = ScopeKind.Swizzle) :
    collectMembersAndSymbols ctx =
      (if ctx.commitCharacterBehavior = CommitCharacterBehavior.MembersOnly ∨
          ctx.commitCharacterBehavior = CommitCharacterBehavior.All then
        addCommitChars ctx.commitChars
          (createSwizzleCandidates ctx.swizzleBaseType ctx.elementCount ++ loopItems ctx)
      else createSwizzleCandidates ctx.swizzleBaseType ctx.elementCount ++ loopItems ctx) ∧
    (ctx.candidateItems = [] → loopItems ctx = []) := by
  have hret : returnsBeforeLoop ctx.scopeKind = false := by rw [hscope]; rfl
  have hkw : addKeywords ctx = false := by unfold addKeywords; rw [hscope]
  have hitems : collectedItems ctx =
      createSwizzleCandidates ctx.swizzleBaseType ctx.elementCount ++ loopItems ctx := by
    unfold collectedItems swizzleItems
    simp only [hscope, hkw, if_true, Bool.false_eq_true, if_false, List.append_nil]
  refine ⟨?_, ?_⟩
  · rw [collect_eq_collectedItems ctx hret, hitems]
    unfold useCommitChars
    rw [hscope]
    by_cases h1 : ctx.commitCharacterBehavior = CommitCharacterBehavior.MembersOnly
    · simp [h1]
    · by_cases h2 : ctx.commitCharacterBehavior = CommitCharacterBehavior.All
      · simp [h2]
      · simp [h1, h2]
  · intro hempty
    unfold loopItems candidateOutputs
    rw [hempty]
    rfl

theorem swizzle_scope_response_witness :
    collectMembersAndSymbols exampleSwizzleRequest =
      createSwizzleCandidates exampleSwizzleRequest.swizzleBaseType
        exampleSwizzleRequest.elementCount ++ loopItems exampleSwizzleRequest ∧
    collectMembersAndSymbols { exampleSwizzleRequest with candidateItems := [] } =
      [swizzleItem "x" "float", swizzleItem "y" "float", swizzleItem "z" "float"] :=
  ⟨(swizzle_scope_response exampleSwizzleRequest rfl).1,
    ((swizzle_scope_response { exampleSwizzleRequest with candidateItems := [] } rfl).1).trans
      (by decide)⟩

/-- C29: in the enumeration callback, a directory whose name holds a `.` gives no
item and any other directory gives the item of kind Folder labelled with its
name. When module names or import strings are completed, a file gives an item
only if its name ends with `.slang` in any letter case, and the label is the
name without these 6 characters; in module-name mode every `-` of that label
becomes `_` and a file whose remaining name holds a `.` gives no item. In plain
`#include` mode every file is labelled with its full name. An entry whose label
is empty gives no item, an entry whose kind and label are already recorded gives
none either, and so no two returned items share both kind and label. -/
theorem enumeration_callback_filters (tm imp : Bool) (name : String) :
    ('.' ∈ name.data → entryLabel tm imp PathType.Directory name = none) ∧
    ('.' ∉ name.data →
      entryLabel tm imp PathType.Directory name = some (name, CompletionItemKind.Folder)) ∧
    ((tm = true ∨ imp = true) → endsWithCaseInsensitive name.data ".slang".data = false →
      entryLabel tm imp PathType.File name = none) ∧
    (endsWithCaseInsensitive name.data ".slang".data = true →
      entryLabel false true PathType.File name =
        some (String.mk (name.data.take (name.data.length - 6)), CompletionItemKind.File)) ∧
    (endsWithCaseInsensitive name.data ".slang".data = true →
      entryLabel true imp PathType.File name =
        if '.' ∈ name.data.take (name.data.length - 6) then none
        else some (String.mk ((name.data.take (name.data.length - 6)).map
          (fun ch => if ch = '-' then '_' else ch)), CompletionItemKind.File)) ∧
    entryLabel false false PathType.File name = some (name, CompletionItemKind.File) ∧
    (∀ (env : PathContext) (root path : String) (st : EnumerationState) (pathType : PathType),
      (entryLabel tm imp pathType name = none →
        enumerationCallback env root tm imp path st (pathType, name) = st) ∧
      (∀ kind, entryLabel tm imp pathType name = some ("", kind) →
        enumerationCallback env root tm imp path st (pathType, name) = st) ∧
      (∀ label kind, entryLabel tm imp pathType name = some (label, kind) →
        toString kind.code ++ label ∈ st.itemSet →
        enumerationCallback env root tm imp path st (pathType, name) = st) ∧
      (∀ label kind, entryLabel tm imp pathType name = some (label, kind) →
        label.length ≠ 0 → toString kind.code ++ label ∉ st.itemSet →
        ∃ detail, (enumerationCallback env root tm imp path st (pathType, name)).items =
          st.items ++ [{ label := label, kind := kind, detail := detail }])) ∧
    (∀ (env : PathContext) (pfxPath : String)
        (lineIndex fileNameEnd sectionStart sectionEnd : Int) (closingChar : Option Char),
      (∀ item ∈ gatherFileAndModuleCompletionItems env pfxPath tm imp lineIndex fileNameEnd
          sectionStart sectionEnd closingChar, item.label ≠ "") ∧
      ((gatherFileAndModuleCompletionItems env pfxPath tm imp lineIndex fileNameEnd
        sectionStart sectionEnd closingChar).map (fun it => (it.kind, it.label))).Nodup) := by
  refine ⟨?_, ?_, ?_, ?_, ?_, ?_, ?_, ?_⟩
  · intro h
    simp only [entryLabel, h, if_true]
  · intro h
    simp only [entryLabel, h, if_false]
  · intro hmode hends
    have hm : (imp || tm) = true := by
      rcases hmode with h | h <;> simp [h]
    simp only [entryLabel, hm, hends, Bool.not_false, Bool.and_self, if_true]
  · intro hends
    simp only [entryLabel, hends, Bool.not_true, Bool.and_false, Bool.false_eq_true, if_false,
      Bool.or_false, Bool.or_true, Bool.false_or, if_true, translateFileName_plain]
  · intro hends
    simp only [entryLabel, hends, Bool.not_true, Bool.and_false, Bool.false_eq_true, if_false,
      Bool.or_true, Bool.true_or, if_true, translateFileName_module]
    split_ifs <;> rfl
  · simp only [entryLabel, Bool.or_false, Bool.false_and, Bool.false_eq_true, if_false,
      translateFileName_plain]
  · intro env root path st pathType
    refine ⟨?_, ?_, ?_, ?_⟩
    · intro h
      simp only [enumerationCallback, h]
    · intro kind h
      simp only [enumerationCallback, h]
      rfl
    · intro label kind h hkey
      simp only [enumerationCallback, h, hkey, if_true]
      split_ifs <;> rfl
    · intro label kind h hlen hkey
      simp only [enumerationCallback, h, hlen, hkey, if_false]
      split_ifs
      · exact ⟨_, rfl⟩
      · exact ⟨_, rfl⟩
  · intro env pfxPath lineIndex fileNameEnd sectionStart sectionEnd closingChar
    exact gather_labels env pfxPath tm imp lineIndex fileNameEnd sectionStart sectionEnd
      closingChar

theorem enumeration_callback_filters_witness :
    entryLabel true false PathType.Directory "a.b" = none ∧
    entryLabel true false PathType.File "my-mod.SLANG" =
      some ("my_mod", CompletionItemKind.File) ∧
    entryLabel false true PathType.File "my-mod.slang" =
      some ("my-mod", CompletionItemKind.File) ∧
    entryLabel true false PathType.File "a.b.slang" = none ∧
    entryLabel true false PathType.File "readme.txt" = none :=
  ⟨(enumeration_callback_filters true false "a.b").1 (by decide),
    ((enumeration_callback_filters true false "my-mod.SLANG").2.2.2.2.1 (by decide)).trans
      (by decide),
    ((enumeration_callback_filters false true "my-mod.slang").2.2.2.1 (by decide)).trans
      (by decide),
    ((enumeration_callback_filters true false "a.b.slang").2.2.2.2.1 (by decide)).trans
      (by decide),
    (enumeration_callback_filters true false "readme.txt").2.2.1 (Or.inl rfl) (by decide)⟩

/-! ## The claim about the accesses to the line -/

/-- C31: when the cursor column is at most the length of the line plus one,
`tryCompleteImport`, `tryCompleteInclude` and `tryCompleteRawFileName` (called
with a position that is not negative) end with a result or with `SLANG_FAIL`:
every access `lineContent[k]` has `0 ≤ k < length`, every slice lies inside the
line and every scanning loop comes to its end within `length + 1` rounds. The
loop of `tryCompleteInclude` between `#` and `include` reads inside the line as
well, and the slice before a keyword found by `indexOf` and the position after
it lie inside the line. The positions handed on satisfy
`sectionStart ≤ col - 1 ≤ sectionEnd ≤ fileNameEnd ≤ length`, and a quoted path
found by `tryCompleteImport` starts inside the line. The lower bound `1 ≤ col` of
the claim is not needed: below column 2 the strategies end with `SLANG_FAIL`. -/
theorem accesses_stay_inside_the_line
    (env : PathContext) (isWhitespace : Char → Bool) (lineContent : List Char) (pos : Nat)
    (isImportString : Bool) (hcol : env.col ≤ (lineContent.length : Int) + 1) :
    staysInsideLine (tryCompleteImport env isWhitespace lineContent) ∧
    staysInsideLine (tryCompleteInclude env isWhitespace lineContent) ∧
    staysInsideLine (tryCompleteRawFileName env lineContent pos isImportString) ∧
    (indexOf lineContent "include ".data ≠ -1 →
      scanIncludeGap isWhitespace lineContent (indexOf lineContent "include ".data)
          (lineContent.length + 1) 1 =
        Except.ok (onlyWhitespaceBetween isWhitespace lineContent
          (indexOf lineContent "include ".data).toNat)) ∧
    (∀ a, rawFileNameArguments env lineContent pos = Except.ok a →
      a.sectionStart ≤ env.col - 1 ∧ env.col - 1 ≤ a.sectionEnd ∧
      a.sectionEnd ≤ a.fileNameEnd ∧ a.fileNameEnd ≤ lineContent.length) ∧
    (∀ a, importPlan env isWhitespace lineContent = Except.ok (ImportPlan.moduleName a) →
      a.sectionStart ≤ env.col - 1 ∧ env.col - 1 ≤ a.sectionEnd ∧
      a.sectionEnd ≤ a.fileNameEnd ∧ a.fileNameEnd ≤ lineContent.length) ∧
    (∀ p, importPlan env isWhitespace lineContent = Except.ok (ImportPlan.rawFileName p) →
      0 ≤ p ∧ p < lineContent.length) ∧
    (∀ keyword, indexOf lineContent keyword ≠ -1 →
      0 ≤ indexOf lineContent keyword ∧
      indexOf lineContent keyword + keyword.length ≤ lineContent.length) := by
  refine ⟨tryCompleteImport_safe env isWhitespace lineContent hcol,
    tryCompleteInclude_safe env isWhitespace lineContent hcol,
    tryCompleteRawFileName_safe env lineContent pos isImportString hcol,
    scanIncludeGap_include isWhitespace lineContent, ?_, ?_, ?_,
    fun keyword h => indexOf_bound lineContent keyword h⟩
  · intro a ha
    rcases rawFileNameArguments_safe env lineContent pos hcol _ ha with h | ⟨b, h, hb⟩
    · exact absurd h (by simp)
    · simp only [Except.ok.injEq] at h
      rw [h]
      exact hb
  · intro a ha
    rcases importPlan_safe env isWhitespace lineContent hcol _ ha with
      h | ⟨q, h, -⟩ | ⟨b, h, hb⟩
    · exact absurd h (by simp)
    · simp at h
    · simp only [Except.ok.injEq, ImportPlan.moduleName.injEq] at h
      rw [h]
      exact hb
  · intro p hp
    rcases importPlan_safe env isWhitespace lineContent hcol _ hp with
      h | ⟨q, h, hq⟩ | ⟨b, h, -⟩
    · exact absurd h (by simp)
    · simp only [Except.ok.injEq, ImportPlan.rawFileName.injEq] at h
      rw [h]
      omega
    · simp at h

theorem accesses_stay_inside_the_line_witness :
    staysInsideLine
      (tryCompleteInclude examplePathContext (fun c => c = ' ') examplePathLine) ∧
    ((18 : Int) ≤ examplePathContext.col - 1 ∧ examplePathContext.col - 1 ≤ 20 ∧
      (20 : Int) ≤ 20 ∧ (20 : Int) ≤ examplePathLine.length) ∧
    rawFileNameArguments { examplePathContext with col := 30 } examplePathLine 9 =
      Except.error Failure.outOfBounds :=
  have h := accesses_stay_inside_the_line examplePathContext (fun c => c = ' ')
    examplePathLine 9 false (by decide)
  ⟨h.2.1,
    h.2.2.2.2.1
      { pfxPath := "foo/bar", lineIndex := 0, fileNameEnd := 20, sectionStart := 18,
        sectionEnd := 20, closingChar := '\"' } rfl,
    rfl⟩

end Slang
